import Mathlib

/-!
# RFC 1035 name compression (`src/network/dn_comp.c`)

A shallow embedding of `getoffs`, `getlens`, `match` and `dn_comp`, and theorems about them.

Conventions of the embedding.

* Byte memory is a function from addresses to the value of the `unsigned char` stored there.
  A pointer is its address; the null pointer is address `0`.
* The name `src` is the list of bytes found at `src` onwards (a terminating NUL is implied at the
  end of the list, and `strnlen` also stops at a `0` inside the list).
* The registry `dnptrs` is the list of the pointer values held by the slots of the caller's array
  (`none` when `dnptrs` is the null pointer); `lastdnptr` is the index `lastdnptr - dnptrs`
  (`none` when it is the null pointer).
* A run ends in `Res.ok`, or in `Res.fault` when it accesses an array outside its bounds
  (`lens[127]`, `offs[128]`, a registry slot past the caller's array, bytes before `src`), or in
  `Res.timeout` when the loop budget `fuel` of the pointer-chain walk is used up.
* C integer conversions that can change a value are written out with `%`.
-/

namespace DnComp

/-- Byte-addressed memory. -/
abbrev Mem := Nat → Nat

/-- Outcome of running a piece of the program. -/
inductive Res (α : Type) where
  | ok (a : α) : Res α
  | fault : Res α
  | timeout : Res α

/-- Store of one byte: `m[a] = v`. -/
def wr (m : Mem) (a v : Nat) : Mem := fun x => if x = a then v else m x

/-- The C library `memcpy(d, bytes, bytes.length)` on memory. -/
def memcpy (m : Mem) (d : Nat) (bytes : List Nat) : Mem :=
  fun x => if d ≤ x ∧ x < d + bytes.length then bytes.getD (x - d) 0 else m x

/-- The `n` bytes stored at `a`, `a+1`, ... -/
def readBytes (m : Mem) : Nat → Nat → List Nat
  | _, 0 => []
  | a, n + 1 => m a :: readBytes m (a + 1) n

/-- Conversion of a pointer difference to `short`. -/
def toShort (x : Int) : Int := (x + 32768) % 65536 - 32768

/-- The C library `strnlen(s, maxlen)`. -/
def strnlen : List Nat → Nat → Nat
  | [], _ => 0
  | _ :: _, 0 => 0
  | c :: cs, n + 1 => if c = 0 then 0 else strnlen cs n + 1

/-- Function `getoffs(offs, base, s)`. The argument `offs` holds the entries written so far, so the
C variable `i` is `offs.length`. The result is `offs[0..r)` for the returned count `r`; `return 0`
gives the empty list. One unit of `fuel` is spent per byte inspected. -/
def getoffs (mem : Mem) (base : Nat) : Nat → Nat → List Int → Res (List Int)
  | 0, _, _ => .timeout
  | fuel + 1, s, offs =>
    if mem s &&& 0xc0 ≠ 0 then
      if mem s &&& 0xc0 ≠ 0xc0 then .ok []
      else getoffs mem base fuel (base + ((mem s &&& 0x3f) <<< 8 ||| mem (s + 1))) offs
    else if mem s = 0 then .ok offs
    else if (s : Int) - (base : Int) ≥ 0x4000 then .ok []
    else if 128 ≤ offs.length then .fault
    else getoffs mem base fuel (s + (mem s + 1)) (offs ++ [toShort ((s : Int) - (base : Int))])

/-- Function `getlens(lens, s, l)`. The first argument is `s[j..l)`, `cur` is `j-k`, and `lens`
holds the entries written so far (`i = lens.length`). The result is `lens[0..r)` for the returned
count `r`; `return 0` gives the empty list. -/
def getlens : List Nat → Nat → List Nat → Res (List Nat)
  | [], cur, lens =>
    if (cur + 4294967296 - 1) % 4294967296 > 62 then .ok []
    else if 127 ≤ lens.length then .fault
    else .ok (lens ++ [cur % 256])
  | c :: rest, cur, lens =>
    if c ≠ 46 then getlens rest (cur + 1) lens
    else if (cur + 4294967296 - 1) % 4294967296 > 62 then .ok []
    else if 127 ≤ lens.length then .fault
    else getlens rest 0 (lens ++ [cur % 256])

/-- The loop of `match`. `rlens` is `lens[0..ilen)` reversed and `roffs` is `offs[0..noff)`
reversed, so that `lens[--ilen]` and `offs[--noff]` are the heads; `end_` is `end - src`.
The result is the returned `m` and the final value of `*offset`. -/
def matchLoop (mem : Mem) (base : Nat) (src : List Nat) :
    List Nat → List Int → Nat → Nat → Int → Res (Nat × Int)
  | l :: ls, o :: os, end_, m, offset =>
    if end_ < l then .fault
    else if l ≠ mem ((base : Int) + o).toNat ∨
        readBytes mem (((base : Int) + o).toNat + 1) l ≠ (src.drop (end_ - l)).take l then
      .ok (m, offset)
    else if ls = [] ∨ os = [] then .ok (if ls ≠ [] then m + l + 1 else m + l, o)
    else if end_ - l = 0 then .fault
    else matchLoop mem base src ls os (end_ - l - 1) (m + l + 1) o
  | _, _, _, _, _ => .fault

/-- Function `match(offset, base, dn, src, end, lens, nlen)`; `offset` is the value of `*offset`
on entry, and the result is the returned length with the value of `*offset` on exit. -/
def match_ (fuel : Nat) (mem : Mem) (base dn : Nat) (src : List Nat) (end_ : Nat)
    (lens : List Nat) (offset : Int) : Res (Nat × Int) :=
  match getoffs mem base fuel dn [] with
  | .ok offs =>
    if offs.length = 0 then .ok (0, offset)
    else matchLoop mem base src lens.reverse offs.reverse end_ 0 offset
  | .fault => .fault
  | .timeout => .timeout

/-- The candidate loop `for (p++; *p; p++)` of `dn_comp`. The first list is the registry from
slot `p` on. The result is the final `p` (as an index), `bestlen` and `bestoff`. -/
def scan (fuel : Nat) (mem : Mem) (base : Nat) (src : List Nat) (l : Nat) (lens : List Nat) :
    List Nat → Nat → Int → Nat → Int → Res (Nat × Nat × Int)
  | [], _, _, _, _ => .fault
  | e :: es, p, offset, bestlen, bestoff =>
    if e = 0 then .ok (p, bestlen, bestoff)
    else
      match match_ fuel mem base e src l lens offset with
      | .ok (m, offset1) =>
        if m > bestlen then
          if m = l then .ok (p, m, offset1)
          else scan fuel mem base src l lens es (p + 1) offset1 m offset1
        else scan fuel mem base src l lens es (p + 1) offset1 bestlen bestoff
      | .fault => .fault
      | .timeout => .timeout

/-- The matching phase of `dn_comp`: `p = dnptrs; if (p && *p) for (...)`. The locals `offset`
and `bestoff` start uninitialised in C; they are read only after being assigned, and start at
`0` here. -/
def bestMatch (fuel : Nat) (mem : Mem) (src : List Nat) (l : Nat) (lens : List Nat)
    (dnptrs : Option (List Nat)) : Res (Nat × Nat × Int) :=
  match dnptrs with
  | none => .ok (0, 0, 0)
  | some [] => .fault
  | some (b :: es) =>
    if b = 0 then .ok (0, 0, 0) else scan fuel mem b src l lens es 1 0 0 0

/-- The loop `for (i=j=0; i<l-bestlen; i+=lens[j++]+1) dst[i] = lens[j];` with `rem` the value of
`l-bestlen` and the list `lens[j..n)`. -/
def lenLoop (dst rem : Nat) : List Nat → Nat → Mem → Res (Nat × Mem)
  | [], i, mem => if i < rem then .fault else .ok (i, mem)
  | x :: xs, i, mem =>
    if i < rem then lenLoop dst rem xs (i + (x + 1)) (wr mem (dst + i) x) else .ok (i, mem)

/-- The loop `while (*p) p++;` on the registry from slot `p` on: the index of the first null
slot. -/
def findNull : List Nat → Nat → Option Nat
  | [], _ => none
  | e :: es, p => if e = 0 then some p else findNull es (p + 1)

/-- The block `save dst pointer` of `dnptrs`, entered with `p` and `cap = lastdnptr - dnptrs`. -/
def save (arr : List Nat) (p cap dst : Nat) : Res (List Nat) :=
  match findNull (arr.drop p) p with
  | none => .fault
  | some k =>
    if k + 1 < cap then
      if k + 1 < arr.length then .ok ((arr.set k dst).set (k + 1) 0) else .fault
    else .ok arr

/-- What a call of `dn_comp` leaves behind: the returned `int`, the memory and the registry. -/
structure Out where
  ret : Int
  mem : Mem
  dnptrs : Option (List Nat)

/-- The length `l` computed by `dn_comp` before validation: `strnlen(src, 255)`, less one when
the last scanned byte is a dot. -/
def nameLen (src : List Nat) : Nat :=
  if strnlen src 255 ≠ 0 ∧ src.getD (strnlen src 255 - 1) 0 = 46 then strnlen src 255 - 1
  else strnlen src 255

/-- Arithmetic of `size_t`: `a - b`. -/
def sub64 (a b : Nat) : Nat := (a + 18446744073709551616 - b % 18446744073709551616) % 18446744073709551616

/-- The right-hand side `l-bestlen+2+(bestlen-1 < l-1)` of the capacity check, in `size_t`. -/
def need (l bestlen : Nat) : Nat :=
  (sub64 l bestlen + 2 + (if sub64 bestlen 1 < sub64 l 1 then 1 else 0)) % 18446744073709551616

/-- The tail of `dn_comp`: pointer or terminator, written at `dst[i]`; returns the new `i`. -/
def addTail (mem : Mem) (dst i bestlen : Nat) (bestoff : Int) : Nat × Mem :=
  if bestlen ≠ 0 then
    (i + 2, wr (wr mem (dst + i) ((Int.lor 0xc0 (bestoff >>> 8)) % 256).toNat) (dst + (i + 1))
      (bestoff % 256).toNat)
  else (i + 1, wr mem (dst + i) 0)

/-- The end of `dn_comp`: the block `save dst pointer` guarded by
`i>2 && lastdnptr && dnptrs && *dnptrs`, then `return i`. -/
def finish (i : Nat) (mem : Mem) (dst p : Nat) (dnptrs : Option (List Nat))
    (lastdnptr : Option Nat) : Res Out :=
  match dnptrs, lastdnptr with
  | some (b :: es), some cap =>
    if i > 2 ∧ b ≠ 0 then
      match save (b :: es) p cap dst with
      | .ok arr => .ok ⟨i, mem, some arr⟩
      | .fault => .fault
      | .timeout => .timeout
    else .ok ⟨i, mem, dnptrs⟩
  | _, _ => .ok ⟨i, mem, dnptrs⟩

/-- Function `dn_comp(src, dst, space, dnptrs, lastdnptr)`. -/
def dn_comp (fuel : Nat) (mem : Mem) (src : List Nat) (dst : Nat) (space : Int)
    (dnptrs : Option (List Nat)) (lastdnptr : Option Nat) : Res Out :=
  let l := nameLen src
  if l > 253 ∨ space ≤ 0 then .ok ⟨-1, mem, dnptrs⟩
  else if l = 0 then .ok ⟨1, wr mem dst 0, dnptrs⟩
  else
    match getlens (src.take l) 0 [] with
    | .fault => .fault
    | .timeout => .timeout
    | .ok lens =>
      if lens.length = 0 then .ok ⟨-1, mem, dnptrs⟩
      else
        match bestMatch fuel mem (src.take l) l lens dnptrs with
        | .fault => .fault
        | .timeout => .timeout
        | .ok (p, bestlen, bestoff) =>
          if space.toNat < need l bestlen then .ok ⟨-1, mem, dnptrs⟩
          else if l < sub64 l bestlen then .fault
          else
            match lenLoop dst (sub64 l bestlen) lens 0
                (memcpy mem (dst + 1) ((src.take l).take (sub64 l bestlen))) with
            | .fault => .fault
            | .timeout => .timeout
            | .ok (i, mem2) =>
              finish (addTail mem2 dst i bestlen bestoff).1 (addTail mem2 dst i bestlen bestoff).2
                dst p dnptrs lastdnptr

/-- The dot-separated components of a byte string (`46` is the dot). -/
def splitDots : List Nat → List (List Nat)
  | [] => [[]]
  | c :: cs =>
    if c = 46 then [] :: splitDots cs
    else (c :: (splitDots cs).headD []) :: (splitDots cs).tail

/-- Components joined by dots. -/
def joinDots : List (List Nat) → List Nat
  | [] => []
  | [x] => x
  | x :: y :: t => x ++ 46 :: joinDots (y :: t)

/-- Wire form of a label sequence: each label preceded by its length byte. -/
def encodeLabels : List (List Nat) → List Nat
  | [] => []
  | x :: t => x.length :: x ++ encodeLabels t

/-- A label sequence is valid when every label has 1 to 63 bytes. -/
def ValidLabels (labs : List (List Nat)) : Prop := ∀ c ∈ labs, 1 ≤ c.length ∧ c.length ≤ 63

instance (labs : List (List Nat)) : Decidable (ValidLabels labs) :=
  inferInstanceAs (Decidable (∀ c ∈ labs, 1 ≤ c.length ∧ c.length ≤ 63))

/-- The value of `bestlen` when the labels `suf` are matched and the labels `pre` are not. -/
def matchedLen (pre suf : List (List Nat)) : Nat :=
  if suf = [] then 0
  else if pre = [] then (joinDots suf).length
  else (joinDots suf).length + 1

/-- The effective name: the bytes `src[0..l)` that `dn_comp` validates and encodes. -/
def effective (src : List Nat) : List Nat := src.take (nameLen src)

/-- Decoder of an uncompressed wire name: length-prefixed labels up to the zero terminator.
The first argument bounds the number of length bytes read. -/
def parseLabels : Nat → List Nat → Option (List (List Nat))
  | 0, _ => none
  | _ + 1, [] => none
  | k + 1, n :: rest =>
    if n = 0 then some []
    else if n &&& 0xc0 ≠ 0 then none
    else if rest.length < n then none
    else (parseLabels k (rest.drop n)).map (fun t => rest.take n :: t)

/-- A call offers no candidate when `dnptrs` is null, or `dnptrs[0]` is null, or the registry
holds the base entry only. -/
def NoCandidates (dnptrs : Option (List Nat)) : Prop :=
  dnptrs = none ∨ (∃ es, dnptrs = some (0 :: es)) ∨ (∃ b es, b ≠ 0 ∧ dnptrs = some (b :: 0 :: es))

/-- The registry limit lies inside the caller's array. -/
def LimitInside (dnptrs : Option (List Nat)) (lastdnptr : Option Nat) : Prop :=
  ∀ arr cap, dnptrs = some arr → lastdnptr = some cap → cap ≤ arr.length

/-- Effective length of a name in the words of the specification: the length scanned up to at
most 255 bytes, minus one when the last scanned byte is a dot. -/
def effectiveLen (src : List Nat) : Nat :=
  if min src.length 255 ≠ 0 ∧ src.getD (min src.length 255 - 1) 0 = 46 then min src.length 255 - 1
  else min src.length 255

/-- The label stored in the message at offset `o` from `base`: the bytes that follow the length
byte found there. -/
def labelAt (mem : Mem) (base : Nat) (o : Int) : List Nat :=
  readBytes mem (((base : Int) + o).toNat + 1) (mem ((base : Int) + o).toNat)

/-- The loop of `match` on labels instead of positions in `src`: both lists are in reverse
order (last label first). -/
def matchLabels (mem : Mem) (base : Nat) : List (List Nat) → List Int → Nat → Int → Nat × Int
  | lab :: labs, o :: os, m, off =>
    if labelAt mem base o = lab then
      if labs = [] then (m + lab.length, o)
      else if os = [] then (m + lab.length + 1, o)
      else matchLabels mem base labs os (m + lab.length + 1) o
    else (m, off)
  | _, _, m, off => (m, off)

/-- Number of leading pairs of a reversed label list and a reversed offset list in which the
label stored at the offset is the label of the name. -/
def matchCount (mem : Mem) (base : Nat) : List (List Nat) → List Int → Nat
  | lab :: labs, o :: os => if labelAt mem base o = lab then matchCount mem base labs os + 1 else 0
  | _, _ => 0

/-- The candidates of a registry: the entries after the first one, up to the null entry. -/
def candidates (dnptrs : Option (List Nat)) : List Nat :=
  ((dnptrs.getD []).tail).takeWhile (fun x => decide (x ≠ 0))

/-- The pair `bestlen`, `bestoff` is backed by a candidate: the name's labels split into
unmatched labels `pre` and matched labels `suf`, `bestlen` is the matched length, and when `suf`
is not empty some candidate `dn` among `cands` walks to offsets whose last ones, `mo`, hold
exactly the labels `suf`, `bestoff` being the first of these. -/
def BestOf (fuel : Nat) (mem : Mem) (base : Nat) (labs : List (List Nat)) (cands : List Nat)
    (pre suf : List (List Nat)) (bl : Nat) (bo : Int) : Prop :=
  labs = pre ++ suf ∧ bl = matchedLen pre suf ∧
    (suf ≠ [] → ∃ dn ∈ cands, dn ≠ 0 ∧ ∃ front mo, getoffs mem base fuel dn [] = .ok (front ++ mo) ∧
      mo.map (labelAt mem base) = suf ∧ mo.head? = some bo)

/-- The labels of a name: none for the root name, else the dot-separated components of the
effective name. -/
def labelsOf (src : List Nat) : List (List Nat) :=
  if nameLen src = 0 then [] else splitDots (effective src)

/-- The two bytes of a compression pointer as `dn_comp` stores them for `bestoff`. -/
def pointerBytes (bestoff : Int) : List Nat :=
  [((Int.lor 0xc0 (bestoff >>> 8)) % 256).toNat, (bestoff % 256).toNat]

/-- Every candidate of the registry lies at or after the base entry `dnptrs[0]`. -/
def EntriesAfterBase (dnptrs : Option (List Nat)) : Prop :=
  ∀ dn ∈ candidates dnptrs, (dnptrs.getD []).headD 0 ≤ dn

instance (dnptrs : Option (List Nat)) : Decidable (EntriesAfterBase dnptrs) :=
  inferInstanceAs (Decidable (∀ dn ∈ candidates dnptrs, (dnptrs.getD []).headD 0 ≤ dn))

/-- The label starts of the name stored at `s`, as offsets from `base`: the walk of `getoffs`
(length bytes skipped, pointers followed, up to the zero byte or a byte that is neither) without
its bound on the offsets and without its limit on the number of labels. -/
def labelStarts (mem : Mem) (base : Nat) : Nat → Nat → Res (List Int)
  | 0, _ => .timeout
  | fuel + 1, s =>
    if mem s &&& 0xc0 ≠ 0 then
      if mem s &&& 0xc0 ≠ 0xc0 then .ok []
      else labelStarts mem base fuel (base + ((mem s &&& 0x3f) <<< 8 ||| mem (s + 1)))
    else if mem s = 0 then .ok []
    else
      match labelStarts mem base fuel (s + (mem s + 1)) with
      | .ok t => .ok (((s : Int) - (base : Int)) :: t)
      | .fault => .fault
      | .timeout => .timeout

/-- Offsets of the label starts of an uncompressed name whose first length byte is at offset `o`. -/
def startsOf : Nat → List (List Nat) → List Int
  | _, [] => []
  | o, x :: t => (o : Int) :: startsOf (o + (x.length + 1)) t

/-- The name `a.a. ... .a` of `n+1` one-letter labels (`2n+1` bytes). -/
def dotted : Nat → List Nat
  | 0 => [97]
  | n + 1 => 97 :: 46 :: dotted n

/-- Output bytes the capacity check asks for in the words of the specification:
`(l - bestlen) + 2 + e` with `e = 1` when `bestlen < l` and `e = 0` otherwise. -/
def claimedNeed (l bestlen : Nat) : Int :=
  ((l : Int) - (bestlen : Int)) + 2 + (if bestlen < l then 1 else 0)

/-- Output bytes the capacity check of the code asks for: `(l - bestlen) + 2 + e` with `e = 1`
when `0 < bestlen < l` and `e = 0` when `bestlen = 0` or `bestlen = l`. -/
def codeNeed (l bestlen : Nat) : Int :=
  ((l : Int) - (bestlen : Int)) + 2 + (if 0 < bestlen ∧ bestlen < l then 1 else 0)

/-- `Walk mem base s offs t`: the walk over the name stored at `s` arrives at `t` after
finitely many steps, having passed the labels whose length bytes lie at the offsets `offs` from
`base`, in order. A length byte (top bits `00`, not zero) is passed by moving on by its value
plus one; a pointer pair (top bits `11`) is not recorded and is replaced by a jump to
`base + ((b0 & 0x3f) << 8 | b1)`. -/
inductive Walk (mem : Mem) (base : Nat) : Nat → List Int → Nat → Prop where
  | here (s : Nat) : Walk mem base s [] s
  | label (s : Nat) (offs : List Int) (t : Nat) :
      mem s &&& 0xc0 = 0 → mem s ≠ 0 → Walk mem base (s + (mem s + 1)) offs t →
      Walk mem base s (((s : Int) - (base : Int)) :: offs) t
  | jump (s : Nat) (offs : List Int) (t : Nat) :
      mem s &&& 0xc0 = 0xc0 →
      Walk mem base (base + ((mem s &&& 0x3f) <<< 8 ||| mem (s + 1))) offs t →
      Walk mem base s offs t

/-- A message based at address 100 whose first two bytes are a pointer to offset 0, its own
position. -/
def selfPointerMem : Mem := memcpy (fun _ => 0) 100 [192, 0]

/-- A message based at address 100 holding the label `a` at offset 0 followed by a pointer
back to offset 0. -/
def labelLoopMem : Mem := memcpy (fun _ => 0) 100 [1, 97, 192, 0]

/-- A message based at address 100 holding `com` at offset 0 and, at offset 5, the label `a`
followed by a pointer to offset 0. -/
def compressedMem : Mem := memcpy (fun _ => 0) 100 [3, 99, 111, 109, 0, 1, 97, 192, 0]

/-- The pair `bestlen`, `bestoff` kept by the candidate loop of `dn_comp` once every candidate
has been tried, `rs` being the results of `match` on the candidates in registry order: a result
replaces the kept pair when its length is strictly greater. -/
def pick : List (Nat × Int) → Nat × Int → Nat × Int
  | [], best => best
  | r :: rs, best => if r.1 > best.1 then pick rs r else pick rs best

/-- Apply a function to the value of an outcome. -/
def Res.map {α β : Type} (f : α → β) : Res α → Res β
  | .ok a => .ok (f a)
  | .fault => .fault
  | .timeout => .timeout

/-- The return value and the memory a call of `dn_comp` leaves behind. -/
def retAndMem (r : Res Out) : Res (Int × Mem) := Res.map (fun o => (o.ret, o.mem)) r

/-- A message based at address 100 holding `com` at offset 0 and a byte with top bits `01` at
offset 5. -/
def corruptMem : Mem := memcpy (fun _ => 0) 100 [3, 99, 111, 109, 0, 64]

/-! ## Label splitting -/

theorem splitDots_ne_nil (s : List Nat) : splitDots s ≠ [] := by
  cases s with
  | nil => simp [splitDots]
  | cons c cs => simp only [splitDots]; split <;> simp

theorem splitDots_eq_cons (s : List Nat) :
    splitDots s = (splitDots s).headD [] :: (splitDots s).tail := by
  have h := splitDots_ne_nil s
  cases hs : splitDots s with
  | nil => exact absurd hs h
  | cons a t => simp

theorem getlens_aux (rest : List Nat) : ∀ (cur : Nat) (acc : List Nat),
    2 * acc.length + cur + rest.length ≤ 253 →
    getlens rest cur acc = .ok
      (if 1 ≤ cur + ((splitDots rest).headD []).length ∧ cur + ((splitDots rest).headD []).length ≤ 63
          ∧ ValidLabels (splitDots rest).tail
        then acc ++ (cur + ((splitDots rest).headD []).length) :: (splitDots rest).tail.map List.length
        else []) := by
  induction rest with
  | nil =>
    intro cur acc h
    simp only [getlens, splitDots, List.headD_cons, List.length_nil, List.tail_cons, ValidLabels,
      List.not_mem_nil, false_implies, implies_true, and_true, List.map_nil, Nat.add_zero]
    simp only [List.length_nil, Nat.add_zero] at h
    by_cases h1 : 1 ≤ cur ∧ cur ≤ 63
    · have e1 : ¬ ((cur + 4294967296 - 1) % 4294967296 > 62) := by omega
      have e2 : ¬ (127 ≤ acc.length) := by omega
      have e3 : cur % 256 = cur := by omega
      rw [if_neg e1, if_neg e2, e3, if_pos h1]
    · have e1 : ((cur + 4294967296 - 1) % 4294967296 > 62) := by omega
      rw [if_pos e1, if_neg h1]
  | cons c rest ih =>
    intro cur acc h
    simp only [List.length_cons] at h
    by_cases hc : c = 46
    · subst hc
      simp only [getlens, splitDots, if_true, ne_eq, not_true_eq_false, if_false,
        List.headD_cons, List.length_nil, List.tail_cons, Nat.add_zero]
      by_cases h1 : 1 ≤ cur ∧ cur ≤ 63
      · have e1 : ¬ ((cur + 4294967296 - 1) % 4294967296 > 62) := by omega
        have e2 : ¬ (127 ≤ acc.length) := by omega
        have e3 : cur % 256 = cur := by omega
        rw [if_neg e1, if_neg e2, e3, ih 0 (acc ++ [cur]) (by simp; omega)]
        have hv : ValidLabels (splitDots rest) ↔
            (1 ≤ ((splitDots rest).headD []).length ∧ ((splitDots rest).headD []).length ≤ 63 ∧
              ValidLabels (splitDots rest).tail) := by
          conv_lhs => rw [splitDots_eq_cons rest]
          simp [ValidLabels, and_assoc]
        congr 1
        by_cases hv2 : ValidLabels (splitDots rest)
        · have hv3 := hv.mp hv2
          rw [if_pos (by simpa using hv3), if_pos ⟨h1.1, h1.2, hv2⟩]
          conv_rhs => rw [splitDots_eq_cons rest]
          simp
        · have hv3 : ¬ _ := fun x => hv2 (hv.mpr x)
          rw [if_neg (by simpa using hv3), if_neg (fun hh => hv2 hh.2.2)]
      · have e1 : ((cur + 4294967296 - 1) % 4294967296 > 62) := by omega
        rw [if_pos e1, if_neg (fun hh => h1 ⟨hh.1, hh.2.1⟩)]
    · rw [getlens, if_pos hc, ih (cur + 1) acc (by omega)]
      simp only [splitDots, hc, if_false, List.headD_cons, List.length_cons, List.tail_cons]
      have : cur + 1 + ((splitDots rest).headD []).length = cur + (((splitDots rest).headD []).length + 1) := by omega
      rw [this]

theorem getlens_spec (s : List Nat) (h : s.length ≤ 253) :
    getlens s 0 [] = .ok (if ValidLabels (splitDots s) then (splitDots s).map List.length else []) := by
  rw [getlens_aux s 0 [] (by simpa using h)]
  have hv : ValidLabels (splitDots s) ↔
      (1 ≤ ((splitDots s).headD []).length ∧ ((splitDots s).headD []).length ≤ 63 ∧
        ValidLabels (splitDots s).tail) := by
    conv_lhs => rw [splitDots_eq_cons s]
    simp [ValidLabels, and_assoc]
  congr 1
  by_cases hv2 : ValidLabels (splitDots s)
  · have hv3 := hv.mp hv2
    rw [if_pos (by simpa using hv3), if_pos hv2]
    conv_rhs => rw [splitDots_eq_cons s]
    simp
  · have hv3 : ¬ _ := fun x => hv2 (hv.mpr x)
    rw [if_neg (by simpa using hv3), if_neg hv2]

/-! ## Memory -/

theorem readBytes_length (m : Mem) : ∀ (n a : Nat), (readBytes m a n).length = n := by
  intro n
  induction n with
  | zero => intro a; rfl
  | succ n ih => intro a; simp [readBytes, ih]

theorem readBytes_congr (m m2 : Mem) : ∀ (n a : Nat),
    (∀ x, a ≤ x → x < a + n → m x = m2 x) → readBytes m a n = readBytes m2 a n := by
  intro n
  induction n with
  | zero => intro a _; rfl
  | succ n ih =>
    intro a h
    simp only [readBytes]
    rw [h a (Nat.le_refl a) (by omega), ih (a + 1) (fun x h1 h2 => h x (by omega) (by omega))]

theorem readBytes_add (m : Mem) : ∀ (n k a : Nat),
    readBytes m a (n + k) = readBytes m a n ++ readBytes m (a + n) k := by
  intro n
  induction n with
  | zero => intro k a; simp [readBytes]
  | succ n ih =>
    intro k a
    have e : n + 1 + k = (n + k) + 1 := by omega
    rw [e]
    simp only [readBytes, List.cons_append]
    rw [ih k (a + 1)]
    have e2 : a + 1 + n = a + (n + 1) := by omega
    rw [e2]

theorem readBytes_succ_last (m : Mem) (n a : Nat) :
    readBytes m a (n + 1) = readBytes m a n ++ [m (a + n)] := by
  rw [readBytes_add]; rfl

theorem readBytes_memcpy (m : Mem) (d : Nat) : ∀ (bytes : List Nat) (k : Nat),
    k ≤ bytes.length → readBytes (memcpy m d bytes) (d + k) (bytes.length - k) = bytes.drop k := by
  intro bytes k
  generalize hn : bytes.length - k = n
  induction n generalizing k with
  | zero =>
    intro hk
    have : bytes.length ≤ k := by omega
    simp [readBytes, List.drop_eq_nil_of_le this]
  | succ n ih =>
    intro hk
    have hlt : k < bytes.length := by omega
    simp only [readBytes]
    have e : d + k + 1 = d + (k + 1) := by omega
    have e3 : n = bytes.length - (k + 1) := by omega
    rw [e, ih (k + 1) (by omega) (by omega)]
    rw [List.drop_eq_getElem_cons hlt]
    congr 1
    simp only [memcpy]
    rw [if_pos ⟨by omega, by omega⟩]
    have e2 : d + k - d = k := by omega
    rw [e2, List.getD_eq_getElem _ _ hlt]

theorem readBytes_memcpy_all (m : Mem) (d : Nat) (bytes : List Nat) :
    readBytes (memcpy m d bytes) d bytes.length = bytes := by
  have := readBytes_memcpy m d bytes 0 (Nat.zero_le _)
  simpa using this

theorem memcpy_frame (m : Mem) (d : Nat) (bytes : List Nat) (x : Nat)
    (h : x < d ∨ d + bytes.length ≤ x) : memcpy m d bytes x = m x := by
  simp only [memcpy]
  rw [if_neg (by omega)]

theorem wr_same (m : Mem) (a v : Nat) : wr m a v a = v := by simp [wr]

theorem wr_other (m : Mem) (a v x : Nat) (h : x ≠ a) : wr m a v x = m x := by simp [wr, h]

/-! ## Wire encoding -/

theorem encodeLabels_append (a b : List (List Nat)) :
    encodeLabels (a ++ b) = encodeLabels a ++ encodeLabels b := by
  induction a with
  | nil => rfl
  | cons x t ih => simp [encodeLabels, ih]

theorem joinDots_cons_cons (x y : List Nat) (t : List (List Nat)) :
    joinDots (x :: y :: t) = x ++ 46 :: joinDots (y :: t) := rfl

theorem encodeLabels_length (ls : List (List Nat)) (h : ls ≠ []) :
    (encodeLabels ls).length = (joinDots ls).length + 1 := by
  induction ls with
  | nil => exact absurd rfl h
  | cons x t ih =>
    cases t with
    | nil => simp [encodeLabels, joinDots]
    | cons y t =>
      have := ih (by simp)
      simp only [encodeLabels, joinDots_cons_cons, List.length_cons, List.length_append] at this ⊢
      omega

theorem lenLoop_encode (dst : Nat) : ∀ (ls : List (List Nat)) (restl : List Nat) (i : Nat) (m : Mem),
    ls ≠ [] → (∀ c ∈ ls, 1 ≤ c.length) →
    readBytes m (dst + i + 1) (joinDots ls).length = joinDots ls →
    ∃ m2, lenLoop dst (i + (joinDots ls).length) (ls.map List.length ++ restl) i m
        = .ok (i + (joinDots ls).length + 1, m2) ∧
      readBytes m2 (dst + i) ((joinDots ls).length + 1) = encodeLabels ls ∧
      ∀ x, (x < dst + i ∨ dst + i + (joinDots ls).length < x) → m2 x = m x := by
  intro ls
  induction ls with
  | nil => intro _ _ _ h; exact absurd rfl h
  | cons x t ih =>
    intro restl i m _ hne hrd
    have hx : 1 ≤ x.length := hne x (by simp)
    cases t with
    | nil =>
      refine ⟨wr m (dst + i) x.length, ?_, ?_, ?_⟩
      · simp only [joinDots, List.map_cons, List.map_nil, List.cons_append, List.nil_append]
        rw [lenLoop, if_pos (by omega)]
        cases restl with
        | nil => rw [lenLoop, if_neg (by omega)]; rfl
        | cons r rs => rw [lenLoop, if_neg (by omega)]; rfl
      · simp only [joinDots, readBytes, encodeLabels, List.append_nil] at hrd ⊢
        rw [wr_same]
        congr 1
        refine Eq.trans ?_ hrd
        apply readBytes_congr
        intro y h1 h2
        exact wr_other _ _ _ _ (by omega)
      · intro y hy
        exact wr_other _ _ _ _ (by simp only [joinDots] at hy; omega)
    | cons y t =>
      have hJ : (joinDots (x :: y :: t)).length = x.length + 1 + (joinDots (y :: t)).length := by
        simp [joinDots_cons_cons]; omega
      have hrd2 : readBytes m (dst + i + 1) (x.length + (1 + (joinDots (y :: t)).length))
          = x ++ 46 :: joinDots (y :: t) := by
        have : x.length + (1 + (joinDots (y :: t)).length) = (joinDots (x :: y :: t)).length := by
          rw [hJ]; omega
        rw [this, hrd, joinDots_cons_cons]
      rw [readBytes_add] at hrd2
      have hl := List.append_inj hrd2 (by rw [readBytes_length])
      have hrx := hl.1
      have hr2 := hl.2
      rw [Nat.add_comm 1, readBytes] at hr2
      have hrJ := (List.cons.inj hr2).2
      obtain ⟨m2, hloop, hread, hframe⟩ := ih restl (i + (x.length + 1)) (wr m (dst + i) x.length)
        (by simp) (fun c hc => hne c (by simp at hc ⊢; right; exact hc))
        (by
          refine Eq.trans ?_ hrJ
          have e : dst + (i + (x.length + 1)) + 1 = dst + i + 1 + x.length + 1 := by omega
          rw [e]
          apply readBytes_congr
          intro z h1 h2
          exact wr_other _ _ _ _ (by omega))
      refine ⟨m2, ?_, ?_, ?_⟩
      · rw [hJ]
        simp only [List.map_cons, List.cons_append]
        rw [lenLoop, if_pos (by omega)]
        have e1 : i + (x.length + 1 + (joinDots (y :: t)).length)
            = i + (x.length + 1) + (joinDots (y :: t)).length := by omega
        rw [e1]
        simp only [List.map_cons, List.cons_append] at hloop
        rw [hloop]
      · rw [hJ]
        have e1 : x.length + 1 + (joinDots (y :: t)).length + 1
            = (1 + x.length) + ((joinDots (y :: t)).length + 1) := by omega
        rw [e1, readBytes_add, readBytes_add]
        have e2 : dst + i + (1 + x.length) = dst + (i + (x.length + 1)) := by omega
        rw [e2, hread]
        simp only [encodeLabels, readBytes, List.cons_append, List.nil_append]
        rw [hframe (dst + i) (by omega), wr_same]
        congr 1
        congr 1
        refine Eq.trans ?_ hrx
        apply readBytes_congr
        intro z h1 h2
        rw [hframe z (by omega)]
        exact wr_other _ _ _ _ (by omega)
      · intro z hz
        rw [hJ] at hz
        rw [hframe z (by omega)]
        exact wr_other _ _ _ _ (by omega)

/-! ## Joining and splitting -/

theorem joinDots_splitDots (s : List Nat) : joinDots (splitDots s) = s := by
  induction s with
  | nil => rfl
  | cons c cs ih =>
    simp only [splitDots]
    split
    · rename_i h
      subst h
      rw [splitDots_eq_cons cs, joinDots_cons_cons, ← splitDots_eq_cons cs, ih]
      rfl
    · conv_rhs => rw [← ih, splitDots_eq_cons cs]
      cases (splitDots cs).tail with
      | nil => simp [joinDots]
      | cons y t => simp [joinDots_cons_cons]

theorem joinDots_append (a b : List (List Nat)) (ha : a ≠ []) (hb : b ≠ []) :
    joinDots (a ++ b) = joinDots a ++ 46 :: joinDots b := by
  induction a with
  | nil => exact absurd rfl ha
  | cons x t ih =>
    cases t with
    | nil =>
      cases b with
      | nil => exact absurd rfl hb
      | cons y u => simp [joinDots]
    | cons y u =>
      have := ih (by simp)
      simp only [List.cons_append] at this ⊢
      rw [joinDots_cons_cons, this, joinDots_cons_cons]
      simp

theorem strnlen_le (s : List Nat) : ∀ n, strnlen s n ≤ n ∧ strnlen s n ≤ s.length := by
  induction s with
  | nil => intro n; simp [strnlen]
  | cons c cs ih =>
    intro n
    cases n with
    | zero => simp [strnlen]
    | succ n =>
      simp only [strnlen]
      split
      · simp
      · have := ih n
        simp only [List.length_cons]
        omega

theorem nameLen_le (src : List Nat) : nameLen src ≤ 255 ∧ nameLen src ≤ src.length := by
  have := strnlen_le src 255
  unfold nameLen
  split <;> omega

theorem take_nameLen_length (src : List Nat) : (src.take (nameLen src)).length = nameLen src := by
  rw [List.length_take]
  have := nameLen_le src
  omega

/-! ## Arithmetic of the capacity check -/

theorem joinDots_length_append (a b : List (List Nat)) (ha : a ≠ []) (hb : b ≠ []) :
    (joinDots (a ++ b)).length = (joinDots a).length + 1 + (joinDots b).length := by
  rw [joinDots_append a b ha hb]
  simp
  omega

theorem matchedLen_le (pre suf : List (List Nat)) :
    matchedLen pre suf ≤ (joinDots (pre ++ suf)).length := by
  unfold matchedLen
  by_cases hs : suf = []
  · simp [hs]
  · by_cases hp : pre = []
    · simp [hs, hp]
    · rw [if_neg hs, if_neg hp, joinDots_length_append pre suf hp hs]
      omega

theorem sub64_matchedLen (pre suf : List (List Nat)) (l : Nat)
    (hl : l = (joinDots (pre ++ suf)).length) (hb : l ≤ 253) :
    sub64 l (matchedLen pre suf) = (joinDots pre).length := by
  have hle := matchedLen_le pre suf
  have e : sub64 l (matchedLen pre suf) = l - matchedLen pre suf := by
    unfold sub64
    omega
  rw [e]
  unfold matchedLen
  by_cases hs : suf = []
  · simp [hs, hl]
  · by_cases hp : pre = []
    · simp [hs, hp, hl, joinDots]
    · rw [if_neg hs, if_neg hp, hl, joinDots_length_append pre suf hp hs]
      omega

theorem joinDots_length_pos (a : List (List Nat)) (ha : a ≠ []) (hv : ∀ c ∈ a, 1 ≤ c.length) :
    1 ≤ (joinDots a).length := by
  cases a with
  | nil => exact absurd rfl ha
  | cons x t =>
    have := hv x (by simp)
    cases t with
    | nil => simpa [joinDots] using this
    | cons y u => simp [joinDots_cons_cons]; omega

theorem encodeLabels_length_nil_or (ls : List (List Nat)) :
    (encodeLabels ls).length = if ls = [] then 0 else (joinDots ls).length + 1 := by
  by_cases h : ls = []
  · simp [h, encodeLabels]
  · rw [if_neg h, encodeLabels_length ls h]

theorem need_matchedLen (pre suf : List (List Nat)) (l : Nat)
    (hl : l = (joinDots (pre ++ suf)).length) (hb : l ≤ 253) (hpos : 0 < l)
    (hv : ∀ c ∈ pre ++ suf, 1 ≤ c.length) :
    need l (matchedLen pre suf)
      = (encodeLabels pre).length + (if suf = [] then 1 else 2) := by
  have hsub := sub64_matchedLen pre suf l hl hb
  have hle := matchedLen_le pre suf
  unfold need
  rw [hsub, encodeLabels_length_nil_or]
  have e1 : sub64 l 1 = l - 1 := by unfold sub64; omega
  rw [e1]
  by_cases hs : suf = []
  · have hm : matchedLen pre suf = 0 := by simp [matchedLen, hs]
    have hp : pre ≠ [] := by
      intro hp
      rw [hp, hs] at hl
      simp [joinDots] at hl
      omega
    have e2 : sub64 0 1 = 18446744073709551615 := by unfold sub64; rfl
    rw [hm, e2, if_neg (by omega), if_pos hs, if_neg hp]
    rw [hs, List.append_nil] at hl
    omega
  · by_cases hp : pre = []
    · have hm : matchedLen pre suf = l := by
        simp [matchedLen, hs, hp, hl]
      have e2 : sub64 l 1 = l - 1 := by unfold sub64; omega
      rw [hm, e2, if_neg (by omega), if_neg hs, if_pos hp]
      simp [hp, joinDots]
    · have hm : matchedLen pre suf = (joinDots suf).length + 1 := by
        simp [matchedLen, hs, hp]
      have hjl := joinDots_length_append pre suf hp hs
      have hpp := joinDots_length_pos pre hp (fun c hc => hv c (by simp [hc]))
      have e2 : sub64 ((joinDots suf).length + 1) 1 = (joinDots suf).length := by
        unfold sub64; omega
      rw [hm, e2, if_pos (by omega), if_neg hs, if_neg hp]
      omega

/-! ## Encoding of the unmatched labels -/

theorem take_joinDots_append (pre suf : List (List Nat)) :
    (joinDots (pre ++ suf)).take (joinDots pre).length = joinDots pre := by
  by_cases hp : pre = []
  · simp [hp, joinDots]
  · by_cases hs : suf = []
    · simp [hs]
    · rw [joinDots_append pre suf hp hs, List.take_left]

theorem emit_spec (mem : Mem) (dst : Nat) (pre suf : List (List Nat))
    (hne : pre ++ suf ≠ []) (hv : ∀ c ∈ pre ++ suf, 1 ≤ c.length) :
    ∃ m2, lenLoop dst (joinDots pre).length ((pre ++ suf).map List.length) 0
          (memcpy mem (dst + 1) ((joinDots (pre ++ suf)).take (joinDots pre).length))
        = .ok ((encodeLabels pre).length, m2) ∧
      readBytes m2 dst (encodeLabels pre).length = encodeLabels pre ∧
      ∀ x, (x < dst ∨ dst + (encodeLabels pre).length ≤ x) → m2 x = mem x := by
  rw [take_joinDots_append]
  by_cases hp : pre = []
  · subst hp
    refine ⟨memcpy mem (dst + 1) [], ?_, ?_, ?_⟩
    · simp only [joinDots, List.length_nil, List.nil_append, encodeLabels]
      cases hs : suf.map List.length with
      | nil => rw [lenLoop, if_neg (by omega)]
      | cons a t => rw [lenLoop, if_neg (by omega)]
    · simp [encodeLabels, readBytes]
    · intro x _
      exact memcpy_frame _ _ _ _ (by simp; omega)
  · obtain ⟨m2, h1, h2, h3⟩ := lenLoop_encode dst pre (suf.map List.length) 0
      (memcpy mem (dst + 1) (joinDots pre)) hp (fun c hc => hv c (by simp [hc]))
      (by simpa using readBytes_memcpy_all mem (dst + 1) (joinDots pre))
    have hlen := encodeLabels_length pre hp
    refine ⟨m2, ?_, ?_, ?_⟩
    · rw [hlen, List.map_append]
      simpa using h1
    · rw [hlen]
      simpa using h2
    · intro x hx
      rw [hlen] at hx
      rw [h3 x (by omega)]
      exact memcpy_frame _ _ _ _ (by omega)

/-! ## The shape of `dn_comp` -/

theorem dn_comp_toolong (fuel : Nat) (mem : Mem) (src : List Nat) (dst : Nat) (space : Int)
    (dnptrs : Option (List Nat)) (lastdnptr : Option Nat)
    (h : 253 < nameLen src ∨ space ≤ 0) :
    dn_comp fuel mem src dst space dnptrs lastdnptr = .ok ⟨-1, mem, dnptrs⟩ := by
  unfold dn_comp
  simp only []
  rw [if_pos h]

theorem dn_comp_root (fuel : Nat) (mem : Mem) (src : List Nat) (dst : Nat) (space : Int)
    (dnptrs : Option (List Nat)) (lastdnptr : Option Nat)
    (h : nameLen src = 0) (hsp : 0 < space) :
    dn_comp fuel mem src dst space dnptrs lastdnptr = .ok ⟨1, wr mem dst 0, dnptrs⟩ := by
  unfold dn_comp
  simp only []
  rw [if_neg (by omega), if_pos h]

theorem dn_comp_invalid (fuel : Nat) (mem : Mem) (src : List Nat) (dst : Nat) (space : Int)
    (dnptrs : Option (List Nat)) (lastdnptr : Option Nat)
    (hpos : 0 < nameLen src) (hb : nameLen src ≤ 253)
    (hv : ¬ ValidLabels (splitDots (src.take (nameLen src)))) :
    dn_comp fuel mem src dst space dnptrs lastdnptr = .ok ⟨-1, mem, dnptrs⟩ := by
  by_cases h1 : 253 < nameLen src ∨ space ≤ 0
  · exact dn_comp_toolong _ _ _ _ _ _ _ h1
  · unfold dn_comp
    simp only []
    rw [if_neg h1, if_neg (by omega), getlens_spec _ (by rw [take_nameLen_length]; exact hb),
      if_neg hv]
    simp

theorem dn_comp_valid (fuel : Nat) (mem : Mem) (src : List Nat) (dst : Nat) (space : Int)
    (dnptrs : Option (List Nat)) (lastdnptr : Option Nat)
    (hpos : 0 < nameLen src) (hb : nameLen src ≤ 253) (hsp : 0 < space)
    (hv : ValidLabels (splitDots (src.take (nameLen src)))) :
    dn_comp fuel mem src dst space dnptrs lastdnptr =
      match bestMatch fuel mem (src.take (nameLen src)) (nameLen src)
          ((splitDots (src.take (nameLen src))).map List.length) dnptrs with
      | .fault => .fault
      | .timeout => .timeout
      | .ok (p, bestlen, bestoff) =>
        if space.toNat < need (nameLen src) bestlen then .ok ⟨-1, mem, dnptrs⟩
        else if nameLen src < sub64 (nameLen src) bestlen then .fault
        else
          match lenLoop dst (sub64 (nameLen src) bestlen)
              ((splitDots (src.take (nameLen src))).map List.length) 0
              (memcpy mem (dst + 1)
                ((src.take (nameLen src)).take (sub64 (nameLen src) bestlen))) with
          | .fault => .fault
          | .timeout => .timeout
          | .ok (i, mem2) =>
            finish (addTail mem2 dst i bestlen bestoff).1 (addTail mem2 dst i bestlen bestoff).2
              dst p dnptrs lastdnptr := by
  unfold dn_comp
  simp only []
  rw [if_neg (by omega), if_neg (by omega),
    getlens_spec _ (by rw [take_nameLen_length]; exact hb), if_pos hv]
  simp only []
  rw [if_neg (by simpa using splitDots_ne_nil _)]

theorem dn_comp_fwd (fuel : Nat) (mem : Mem) (src : List Nat) (dst : Nat) (space : Int)
    (dnptrs : Option (List Nat)) (lastdnptr : Option Nat)
    (pre suf : List (List Nat)) (p : Nat) (bestoff : Int)
    (hpos : 0 < nameLen src) (hb : nameLen src ≤ 253) (hsp : 0 < space)
    (hsplit : splitDots (src.take (nameLen src)) = pre ++ suf)
    (hv : ValidLabels (pre ++ suf))
    (hbm : bestMatch fuel mem (src.take (nameLen src)) (nameLen src)
      ((pre ++ suf).map List.length) dnptrs = .ok (p, matchedLen pre suf, bestoff)) :
    ∃ m2, readBytes m2 dst (encodeLabels pre).length = encodeLabels pre ∧
      (∀ x, (x < dst ∨ dst + (encodeLabels pre).length ≤ x) → m2 x = mem x) ∧
      dn_comp fuel mem src dst space dnptrs lastdnptr =
        if space.toNat < (encodeLabels pre).length + (if suf = [] then 1 else 2) then
          .ok ⟨-1, mem, dnptrs⟩
        else
          finish (addTail m2 dst (encodeLabels pre).length (matchedLen pre suf) bestoff).1
            (addTail m2 dst (encodeLabels pre).length (matchedLen pre suf) bestoff).2
            dst p dnptrs lastdnptr := by
  have hne : pre ++ suf ≠ [] := by rw [← hsplit]; exact splitDots_ne_nil _
  have hv1 : ∀ c ∈ pre ++ suf, 1 ≤ c.length := fun c hc => (hv c hc).1
  have hjoin : src.take (nameLen src) = joinDots (pre ++ suf) := by
    rw [← hsplit, joinDots_splitDots]
  have hl : nameLen src = (joinDots (pre ++ suf)).length := by
    rw [← hjoin, take_nameLen_length]
  obtain ⟨m2, h1, h2, h3⟩ := emit_spec mem dst pre suf hne hv1
  refine ⟨m2, h2, h3, ?_⟩
  rw [dn_comp_valid fuel mem src dst space dnptrs lastdnptr hpos hb hsp (by rw [hsplit]; exact hv)]
  rw [hsplit, hbm]
  simp only []
  rw [need_matchedLen pre suf _ hl hb hpos hv1, sub64_matchedLen pre suf _ hl hb, hjoin]
  by_cases hc : space.toNat < (encodeLabels pre).length + (if suf = [] then 1 else 2)
  · rw [if_pos hc, if_pos hc]
  · have hle : (joinDots pre).length ≤ nameLen src := by
      have := congrArg List.length (take_joinDots_append pre suf)
      rw [List.length_take] at this
      omega
    rw [if_neg hc, if_neg hc, if_neg (by omega), h1]

/-! ## Calls without candidates -/

theorem land_c0_of_le_63 (n : Nat) (h : n ≤ 63) : n &&& 0xc0 = 0 := by
  interval_cases n <;> rfl

theorem encodeLabels_cons (x : List Nat) (t : List (List Nat)) :
    encodeLabels (x :: t) = x.length :: (x ++ encodeLabels t) := rfl

theorem parseLabels_encode (labs : List (List Nat)) : ∀ (k : Nat) (tl : List Nat),
    ValidLabels labs → labs.length < k →
    parseLabels k (encodeLabels labs ++ 0 :: tl) = some labs := by
  induction labs with
  | nil =>
    intro k tl _ hk
    cases k with
    | zero => omega
    | succ k => simp [encodeLabels, parseLabels]
  | cons x t ih =>
    intro k tl hv hk
    cases k with
    | zero => omega
    | succ k =>
      have hx := hv x (by simp)
      rw [encodeLabels_cons, List.cons_append, List.append_assoc, parseLabels]
      rw [if_neg (by omega), if_neg (by rw [land_c0_of_le_63 _ hx.2]; simp),
        if_neg (by simp), List.drop_left, List.take_left,
        ih k tl (fun c hc => hv c (by simp [hc])) (by simpa using hk)]
      rfl

theorem sum_length_joinDots (labs : List (List Nat)) (h : labs ≠ []) :
    (labs.map List.length).sum + labs.length = (joinDots labs).length + 1 := by
  induction labs with
  | nil => exact absurd rfl h
  | cons x t ih =>
    cases t with
    | nil => simp [joinDots]
    | cons y u =>
      have := ih (by simp)
      simp only [List.map_cons, List.sum_cons, List.length_cons, joinDots_cons_cons,
        List.length_append] at this ⊢
      omega

theorem bestMatch_noCandidates (fuel : Nat) (mem : Mem) (src : List Nat) (l : Nat)
    (lens : List Nat) (dnptrs : Option (List Nat)) (h : NoCandidates dnptrs) :
    ∃ p, bestMatch fuel mem src l lens dnptrs = .ok (p, 0, 0) ∧
      ∀ arr, dnptrs = some arr → arr.headD 0 ≠ 0 → findNull (arr.drop p) p = some 1 := by
  rcases h with h | ⟨es, h⟩ | ⟨b, es, hb, h⟩
  · subst h; exact ⟨0, rfl, by simp⟩
  · subst h; exact ⟨0, by simp [bestMatch], by simp⟩
  · subst h
    refine ⟨1, by simp [bestMatch, hb, scan], ?_⟩
    intro arr ha _
    cases ha
    simp [findNull]

theorem finish_noCandidates (i : Nat) (m : Mem) (dst p : Nat) (dnptrs : Option (List Nat))
    (lastdnptr : Option Nat) (hlim : LimitInside dnptrs lastdnptr)
    (hp : ∀ arr, dnptrs = some arr → arr.headD 0 ≠ 0 → findNull (arr.drop p) p = some 1) :
    ∃ reg, finish i m dst p dnptrs lastdnptr = .ok ⟨i, m, reg⟩ := by
  unfold finish
  split
  · rename_i b es cap
    by_cases h : i > 2 ∧ b ≠ 0
    · rw [if_pos h]
      have := hp (b :: es) rfl (by simpa using h.2)
      unfold save
      rw [this]
      simp only []
      have hc := hlim (b :: es) cap rfl rfl
      by_cases h2 : 1 + 1 < cap
      · rw [if_pos h2, if_pos (by omega)]
        exact ⟨_, rfl⟩
      · rw [if_neg h2]
        exact ⟨_, rfl⟩
    · rw [if_neg h]
      exact ⟨_, rfl⟩
  · exact ⟨_, rfl⟩

/-! ## Claims on calls without candidates, rejection and the root name -/

/-- C1: for a name of effective length `l` with `1 ≤ l ≤ 253` whose dot-separated labels all have
1 to 63 bytes, and `space ≥ l+2`, a call of `dn_comp` without candidates (`dnptrs` null,
`dnptrs[0]` null, or only the base entry registered; the limit inside the array) succeeds,
returns `l+2 = sum of label lengths + label count + 1`, writes each label preceded by its length
byte and then one `0`, and parsing these bytes gives back the labels. -/
theorem C1_no_candidates_encoding (fuel : Nat) (mem : Mem) (src : List Nat) (dst : Nat)
    (space : Int) (dnptrs : Option (List Nat)) (lastdnptr : Option Nat)
    (hpos : 1 ≤ nameLen src) (hb : nameLen src ≤ 253)
    (hv : ValidLabels (splitDots (effective src)))
    (hsp : (nameLen src : Int) + 2 ≤ space)
    (hnc : NoCandidates dnptrs) (hlim : LimitInside dnptrs lastdnptr) :
    ∃ out, dn_comp fuel mem src dst space dnptrs lastdnptr = .ok out ∧
      out.ret = (nameLen src : Int) + 2 ∧
      nameLen src + 2 = ((splitDots (effective src)).map List.length).sum
        + (splitDots (effective src)).length + 1 ∧
      readBytes out.mem dst (nameLen src + 2) = encodeLabels (splitDots (effective src)) ++ [0] ∧
      parseLabels (nameLen src + 2) (readBytes out.mem dst (nameLen src + 2))
        = some (splitDots (effective src)) := by
  unfold effective at hv ⊢
  have hne := splitDots_ne_nil (src.take (nameLen src))
  have hjl : (joinDots (splitDots (src.take (nameLen src)))).length = nameLen src := by
    rw [joinDots_splitDots, take_nameLen_length]
  have henc := encodeLabels_length _ hne
  rw [hjl] at henc
  have hsum := sum_length_joinDots _ hne
  rw [hjl] at hsum
  obtain ⟨p, hbm, hp⟩ := bestMatch_noCandidates fuel mem (src.take (nameLen src)) (nameLen src)
    ((splitDots (src.take (nameLen src))).map List.length) dnptrs hnc
  obtain ⟨m2, hrd, _, hdn⟩ := dn_comp_fwd fuel mem src dst space dnptrs lastdnptr
    (splitDots (src.take (nameLen src))) [] p 0 (by omega) hb (by omega) (by simp)
    (by simpa using hv) (by simpa [matchedLen] using hbm)
  simp only [if_true, matchedLen, addTail, ne_eq, not_true_eq_false, if_false] at hdn
  rw [if_neg (by omega)] at hdn
  obtain ⟨reg, hfin⟩ := finish_noCandidates
    ((encodeLabels (splitDots (src.take (nameLen src)))).length + 1)
    (wr m2 (dst + (encodeLabels (splitDots (src.take (nameLen src)))).length) 0)
    dst p dnptrs lastdnptr hlim hp
  rw [hfin] at hdn
  have hbytes : readBytes (wr m2 (dst + (encodeLabels (splitDots (src.take (nameLen src)))).length) 0)
      dst (nameLen src + 2) = encodeLabels (splitDots (src.take (nameLen src))) ++ [0] := by
    have e : nameLen src + 2 = (encodeLabels (splitDots (src.take (nameLen src)))).length + 1 := by
      omega
    rw [e, readBytes_succ_last, wr_same]
    congr 1
    refine Eq.trans ?_ hrd
    apply readBytes_congr
    intro x _ h2
    exact wr_other _ _ _ _ (by omega)
  refine ⟨_, hdn, ?_, by omega, hbytes, ?_⟩
  · simp only []
    rw [henc]
    push_cast
    omega
  · rw [hbytes]
    exact parseLabels_encode _ _ [] hv (by omega)

/-- C1 at the name `a.b` with five bytes of space and no registry. -/
theorem C1_no_candidates_encoding_witness :
    ∃ out, dn_comp 0 (fun _ => 0) [97, 46, 98] 100 5 none none = .ok out ∧
      out.ret = (nameLen [97, 46, 98] : Int) + 2 ∧
      nameLen [97, 46, 98] + 2 = ((splitDots (effective [97, 46, 98])).map List.length).sum
        + (splitDots (effective [97, 46, 98])).length + 1 ∧
      readBytes out.mem 100 (nameLen [97, 46, 98] + 2)
        = encodeLabels (splitDots (effective [97, 46, 98])) ++ [0] ∧
      parseLabels (nameLen [97, 46, 98] + 2) (readBytes out.mem 100 (nameLen [97, 46, 98] + 2))
        = some (splitDots (effective [97, 46, 98])) :=
  C1_no_candidates_encoding 0 (fun _ => 0) [97, 46, 98] 100 5 none none (by decide) (by decide)
    (by decide) (by decide) (Or.inl rfl) (fun _ _ h => by cases h)

theorem strnlen_eq_min (s : List Nat) (hz : ∀ b ∈ s, b ≠ 0) : ∀ n, strnlen s n = min s.length n := by
  induction s with
  | nil => intro n; simp [strnlen]
  | cons c cs ih =>
    intro n
    cases n with
    | zero => simp [strnlen]
    | succ n =>
      simp only [strnlen]
      rw [if_neg (hz c (by simp)), ih (fun b hb => hz b (by simp [hb])) n]
      simp only [List.length_cons]
      omega

theorem nameLen_eq_effectiveLen (src : List Nat) (hz : ∀ b ∈ src, b ≠ 0) :
    nameLen src = effectiveLen src := by
  unfold nameLen effectiveLen
  rw [strnlen_eq_min src hz 255]

/-- C7: a name whose effective part (non-empty, at most 253 bytes) has an empty component or a
component longer than 63 bytes makes `dn_comp` return `-1` for every space and registry, leaving
memory and registry as they were; and when every component has 1 to 63 bytes, `getlens` does not
report failure: it returns the component lengths, one per component. -/
theorem C7_invalid_label_rejected (src : List Nat)
    (hpos : 1 ≤ nameLen src) (hb : nameLen src ≤ 253) :
    ((∃ c ∈ splitDots (effective src), c.length = 0 ∨ 63 < c.length) →
      ∀ (fuel : Nat) (mem : Mem) (dst : Nat) (space : Int) (dnptrs : Option (List Nat))
        (lastdnptr : Option Nat),
        dn_comp fuel mem src dst space dnptrs lastdnptr = .ok ⟨-1, mem, dnptrs⟩) ∧
    ((∀ c ∈ splitDots (effective src), 1 ≤ c.length ∧ c.length ≤ 63) →
      getlens (effective src) 0 [] = .ok ((splitDots (effective src)).map List.length) ∧
      1 ≤ ((splitDots (effective src)).map List.length).length) := by
  unfold effective
  constructor
  · rintro ⟨c, hc, hbad⟩ fuel mem dst space dnptrs lastdnptr
    apply dn_comp_invalid fuel mem src dst space dnptrs lastdnptr (by omega) hb
    intro hv
    have := hv c hc
    omega
  · intro hv
    have hlen : (src.take (nameLen src)).length ≤ 253 := by rw [take_nameLen_length]; exact hb
    have hv2 : ValidLabels (splitDots (src.take (nameLen src))) := hv
    rw [getlens_spec _ hlen, if_pos hv2]
    refine ⟨rfl, ?_⟩
    have := splitDots_ne_nil (src.take (nameLen src))
    rw [List.length_map]
    exact Nat.one_le_iff_ne_zero.mpr (by simpa using this)

/-- C7 at the name `a..com`, rejected with any arguments. -/
theorem C7_invalid_label_rejected_witness :
    dn_comp 5 (fun _ => 0) [97, 46, 46, 99, 111, 109] 100 64 (some [100, 0]) (some 2)
      = .ok ⟨-1, fun _ => 0, some [100, 0]⟩ :=
  (C7_invalid_label_rejected [97, 46, 46, 99, 111, 109] (by decide) (by decide)).1
    ⟨[], by decide, Or.inl rfl⟩ 5 (fun _ => 0) 100 64 (some [100, 0]) (some 2)

/-- C9: for the root name, given as the empty string or as a single dot, `dn_comp` with
`space ≥ 1` returns `1`, stores the single byte `0` at `dst[0]` and leaves the registry as it
was, whatever the registry holds; with `space ≤ 0` it returns `-1` and changes nothing. -/
theorem C9_root_name (fuel : Nat) (mem : Mem) (src : List Nat) (dst : Nat) (space : Int)
    (dnptrs : Option (List Nat)) (lastdnptr : Option Nat) (hsrc : src = [] ∨ src = [46]) :
    dn_comp fuel mem src dst space dnptrs lastdnptr =
      if 1 ≤ space then .ok ⟨1, wr mem dst 0, dnptrs⟩ else .ok ⟨-1, mem, dnptrs⟩ := by
  have h0 : nameLen src = 0 := by
    rcases hsrc with h | h <;> subst h <;> rfl
  by_cases hsp : 1 ≤ space
  · rw [if_pos hsp]
    exact dn_comp_root _ _ _ _ _ _ _ h0 (by omega)
  · rw [if_neg hsp]
    exact dn_comp_toolong _ _ _ _ _ _ _ (Or.inr (by omega))

/-- C9 at the name `.` with one byte of space and a registry holding a candidate. -/
theorem C9_root_name_witness :
    dn_comp 0 (fun _ => 7) [46] 100 1 (some [50, 60, 0]) (some 3) =
      if (1 : Int) ≤ 1 then .ok ⟨1, wr (fun _ => 7) 100 0, some [50, 60, 0]⟩
      else .ok ⟨-1, fun _ => 7, some [50, 60, 0]⟩ :=
  C9_root_name 0 (fun _ => 7) [46] 100 1 (some [50, 60, 0]) (some 3) (Or.inr rfl)

/-! ## The suffix matcher -/

theorem labelAt_eq_iff (mem : Mem) (base : Nat) (o : Int) (lab : List Nat) :
    labelAt mem base o = lab ↔
      (lab.length = mem ((base : Int) + o).toNat ∧
        readBytes mem (((base : Int) + o).toNat + 1) lab.length = lab) := by
  unfold labelAt
  constructor
  · intro h
    have hl := congrArg List.length h
    rw [readBytes_length] at hl
    rw [← hl]
    exact ⟨rfl, h⟩
  · rintro ⟨h1, h2⟩
    rw [← h1]
    exact h2

theorem joinDots_reverse_cons (lab : List Nat) (rest : List (List Nat)) (h : rest ≠ []) :
    joinDots (lab :: rest).reverse = joinDots rest.reverse ++ 46 :: lab := by
  rw [List.reverse_cons, joinDots_append _ _ (by simpa using h) (by simp)]
  rfl

theorem matchLoop_eq (mem : Mem) (base : Nat) : ∀ (rlabs : List (List Nat)) (ro : List Int)
    (tl : List Nat) (m : Nat) (off : Int), rlabs ≠ [] → ro ≠ [] →
    matchLoop mem base (joinDots rlabs.reverse ++ tl) (rlabs.map List.length) ro
      (joinDots rlabs.reverse).length m off = .ok (matchLabels mem base rlabs ro m off) := by
  intro rlabs
  induction rlabs with
  | nil => intro _ _ _ _ h; exact absurd rfl h
  | cons lab rest ih =>
    intro ro tl m off _ hro
    cases ro with
    | nil => exact absurd rfl hro
    | cons o os =>
      simp only [List.map_cons]
      rw [matchLoop, matchLabels]
      by_cases hrest : rest = []
      · subst hrest
        simp only [List.reverse_cons, List.reverse_nil, List.nil_append, joinDots, List.map_nil,
          Nat.sub_self, List.drop_zero, List.take_left, Nat.lt_irrefl, if_false, true_or, if_true,
          ne_eq, not_true_eq_false]
        by_cases hc : labelAt mem base o = lab
        · have hc2 := (labelAt_eq_iff mem base o lab).mp hc
          rw [if_neg (by rw [not_or]; exact ⟨by simpa using hc2.1, by simpa using hc2.2⟩), if_pos hc]
        · rw [if_neg hc, if_pos]
          rw [labelAt_eq_iff] at hc
          by_contra hh
          rw [not_or] at hh
          exact hc ⟨by simpa using hh.1, by simpa using hh.2⟩
      · have hj := joinDots_reverse_cons lab rest hrest
        have hlen : (joinDots (lab :: rest).reverse).length
            = (joinDots rest.reverse).length + 1 + lab.length := by
          rw [hj]; simp; omega
        have hsub : (joinDots (lab :: rest).reverse).length - lab.length
            = (joinDots rest.reverse).length + 1 := by omega
        have htake : ((joinDots (lab :: rest).reverse ++ tl).drop
            ((joinDots (lab :: rest).reverse).length - lab.length)).take lab.length = lab := by
          rw [hsub, hj]
          have e : joinDots rest.reverse ++ 46 :: lab ++ tl
              = (joinDots rest.reverse ++ [46]) ++ (lab ++ tl) := by simp
          have e2 : (joinDots rest.reverse).length + 1 = (joinDots rest.reverse ++ [46]).length := by
            simp
          rw [e, e2, List.drop_left, List.take_left]
        rw [if_neg (by omega), htake]
        by_cases hc : labelAt mem base o = lab
        · have hc2 := (labelAt_eq_iff mem base o lab).mp hc
          rw [if_neg (by rw [not_or]; exact ⟨by simpa using hc2.1, by simpa using hc2.2⟩), if_pos hc,
            if_neg hrest]
          by_cases hos : os = []
          · rw [if_pos (Or.inr hos), if_pos hos, if_pos (by simpa using hrest)]
          · rw [if_neg (by rw [not_or]; exact ⟨by simpa using hrest, hos⟩), if_neg hos,
              if_neg (by omega), hsub]
            have e3 : joinDots (lab :: rest).reverse ++ tl
                = joinDots rest.reverse ++ (46 :: lab ++ tl) := by rw [hj]; simp
            rw [e3]
            exact ih os _ _ _ hrest hos
        · rw [if_neg hc, if_pos]
          rw [labelAt_eq_iff] at hc
          by_contra hh
          rw [not_or] at hh
          exact hc ⟨by simpa using hh.1, by simpa using hh.2⟩

theorem matchedLen_snoc (pre suf : List (List Nat)) (lab : List Nat) (h : pre ≠ [] ∨ suf ≠ []) :
    matchedLen pre (suf ++ [lab]) = lab.length + 1 + matchedLen pre suf := by
  unfold matchedLen
  rw [if_neg (by simp)]
  by_cases hs : suf = []
  · subst hs
    have hp : pre ≠ [] := by rcases h with h | h; exact h; exact absurd rfl h
    simp [hp, joinDots]
  · rw [if_neg hs, joinDots_append suf [lab] hs (by simp)]
    by_cases hp : pre = []
    · simp [hp, joinDots]; omega
    · simp [hp, joinDots]; omega

theorem matchLabels_fst (mem : Mem) (base : Nat) : ∀ (rlabs : List (List Nat)) (ro : List Int)
    (m : Nat) (off : Int),
    (matchLabels mem base rlabs ro m off).1 =
      m + matchedLen (rlabs.drop (matchCount mem base rlabs ro)).reverse
        (rlabs.take (matchCount mem base rlabs ro)).reverse := by
  intro rlabs
  induction rlabs with
  | nil => intro ro m off; simp [matchLabels, matchCount, matchedLen]
  | cons lab rest ih =>
    intro ro m off
    cases ro with
    | nil => simp [matchLabels, matchCount, matchedLen]
    | cons o os =>
      rw [matchLabels, matchCount]
      by_cases hc : labelAt mem base o = lab
      · rw [if_pos hc, if_pos hc]
        simp only [List.take_succ_cons, List.drop_succ_cons, List.reverse_cons]
        by_cases hrest : rest = []
        · subst hrest
          simp [matchCount, matchedLen, joinDots]
        · rw [if_neg hrest]
          by_cases hos : os = []
          · subst hos
            have hk : matchCount mem base rest [] = 0 := by cases rest <;> rfl
            rw [if_pos rfl, hk]
            simp [matchedLen, hrest, joinDots]
            omega
          · rw [if_neg hos, ih os _ o, matchedLen_snoc]
            · omega
            · by_cases hk : matchCount mem base rest os = 0
              · left; rw [hk]; simpa using hrest
              · right
                simp only [ne_eq, List.reverse_eq_nil_iff, List.take_eq_nil_iff, not_or]
                exact ⟨hk, hrest⟩
      · rw [if_neg hc, if_neg hc]
        simp [matchedLen]

theorem matchLabels_snd (mem : Mem) (base : Nat) : ∀ (rlabs : List (List Nat)) (ro : List Int)
    (m : Nat) (off : Int),
    (matchLabels mem base rlabs ro m off).2 =
      ((ro.take (matchCount mem base rlabs ro)).getLast?).getD off := by
  intro rlabs
  induction rlabs with
  | nil => intro ro m off; simp [matchLabels, matchCount]
  | cons lab rest ih =>
    intro ro m off
    cases ro with
    | nil => simp [matchLabels, matchCount]
    | cons o os =>
      rw [matchLabels, matchCount]
      by_cases hc : labelAt mem base o = lab
      · rw [if_pos hc, if_pos hc]
        simp only [List.take_succ_cons]
        by_cases hrest : rest = []
        · subst hrest
          simp [matchCount]
        · rw [if_neg hrest]
          by_cases hos : os = []
          · subst hos
            simp
          · rw [if_neg hos, ih os _ o]
            rw [List.getLast?_cons]
            rfl
      · rw [if_neg hc, if_neg hc]
        simp

theorem matchCount_labels (mem : Mem) (base : Nat) : ∀ (rlabs : List (List Nat)) (ro : List Int),
    (ro.take (matchCount mem base rlabs ro)).map (labelAt mem base)
      = rlabs.take (matchCount mem base rlabs ro) := by
  intro rlabs
  induction rlabs with
  | nil => intro ro; simp [matchCount]
  | cons lab rest ih =>
    intro ro
    cases ro with
    | nil => simp [matchCount]
    | cons o os =>
      rw [matchCount]
      by_cases hc : labelAt mem base o = lab
      · rw [if_pos hc]
        simp only [List.take_succ_cons, List.map_cons, ih os, hc]
      · rw [if_neg hc]
        simp

theorem matchCount_le (mem : Mem) (base : Nat) : ∀ (rlabs : List (List Nat)) (ro : List Int),
    matchCount mem base rlabs ro ≤ rlabs.length ∧ matchCount mem base rlabs ro ≤ ro.length := by
  intro rlabs
  induction rlabs with
  | nil => intro ro; simp [matchCount]
  | cons lab rest ih =>
    intro ro
    cases ro with
    | nil => simp [matchCount]
    | cons o os =>
      rw [matchCount]
      have := ih os
      split
      · simp; omega
      · simp

/-- What a successful `match` reports: the labels `suf` at the end of the name are the labels
stored at the offsets `mo`, the last offsets of the walked candidate, and `*offset` is the first
of them. -/
theorem match_split (fuel : Nat) (mem : Mem) (base dn : Nat) (labs : List (List Nat))
    (hne : labs ≠ []) (off : Int) (m : Nat) (off2 : Int)
    (h : match_ fuel mem base dn (joinDots labs) (joinDots labs).length
      (labs.map List.length) off = .ok (m, off2)) :
    ∃ pre suf, labs = pre ++ suf ∧ m = matchedLen pre suf ∧ (suf = [] → off2 = off) ∧
      (suf ≠ [] → ∃ front mo, getoffs mem base fuel dn [] = .ok (front ++ mo) ∧
        mo.map (labelAt mem base) = suf ∧ mo.head? = some off2) := by
  unfold match_ at h
  cases hg : getoffs mem base fuel dn [] with
  | fault => rw [hg] at h; cases h
  | timeout => rw [hg] at h; cases h
  | ok offs =>
    rw [hg] at h
    simp only [] at h
    by_cases h0 : offs.length = 0
    · rw [if_pos h0] at h
      cases h
      exact ⟨labs, [], by simp, by simp [matchedLen], fun _ => rfl, fun hh => absurd rfl hh⟩
    · rw [if_neg h0] at h
      have hro : offs.reverse ≠ [] := by
        intro hh
        apply h0
        simpa using hh
      have hml := matchLoop_eq mem base labs.reverse offs.reverse [] 0 off (by simpa using hne) hro
      rw [List.reverse_reverse, List.append_nil, List.map_reverse] at hml
      rw [hml] at h
      have h1 := matchLabels_fst mem base labs.reverse offs.reverse 0 off
      have h2 := matchLabels_snd mem base labs.reverse offs.reverse 0 off
      have h3 := matchCount_labels mem base labs.reverse offs.reverse
      have h4 := matchCount_le mem base labs.reverse offs.reverse
      rw [Res.ok.inj h] at h1 h2
      generalize matchCount mem base labs.reverse offs.reverse = k at h1 h2 h3 h4
      simp only [] at h1 h2
      refine ⟨(labs.reverse.drop k).reverse, (labs.reverse.take k).reverse, ?_, ?_, ?_, ?_⟩
      · rw [← List.reverse_append, List.take_append_drop, List.reverse_reverse]
      · rw [h1]; omega
      · intro hs
        have hk : k = 0 := by
          simp only [List.reverse_eq_nil_iff, List.take_eq_nil_iff] at hs
          rcases hs with hs | hs
          · exact hs
          · exact absurd (by simpa using hs) hne
        rw [h2, hk]
        simp
      · intro hs
        have hk : k ≠ 0 := by
          intro hk
          apply hs
          rw [hk]
          simp
        refine ⟨(offs.reverse.drop k).reverse, (offs.reverse.take k).reverse, ?_, ?_, ?_⟩
        · rw [← List.reverse_append, List.take_append_drop, List.reverse_reverse]
        · rw [List.map_reverse, h3]
        · rw [List.head?_reverse, h2]
          have hne2 : offs.reverse.take k ≠ [] := by
            simp only [ne_eq, List.take_eq_nil_iff, not_or]
            exact ⟨hk, hro⟩
          cases hgl : (offs.reverse.take k).getLast? with
          | none => rw [List.getLast?_eq_none_iff] at hgl; exact absurd hgl hne2
          | some a => rfl

/-! ## The candidate loop -/

theorem matchedLen_nil (pre : List (List Nat)) : matchedLen pre [] = 0 := by
  simp [matchedLen]

theorem takeWhile_cons_ne_zero (e : Nat) (es : List Nat) (he : e ≠ 0) :
    (e :: es).takeWhile (fun x => decide (x ≠ 0))
      = e :: es.takeWhile (fun x => decide (x ≠ 0)) := by
  simp [List.takeWhile, he]

theorem scan_split (fuel : Nat) (mem : Mem) (base : Nat) (labs : List (List Nat))
    (hne : labs ≠ []) (cands : List Nat) : ∀ (es : List Nat) (p : Nat) (off : Int) (bl : Nat)
    (bo : Int) (p2 bl2 : Nat) (bo2 : Int),
    scan fuel mem base (joinDots labs) (joinDots labs).length (labs.map List.length)
      es p off bl bo = .ok (p2, bl2, bo2) →
    (∃ pre suf, BestOf fuel mem base labs cands pre suf bl bo) →
    (∀ e ∈ es.takeWhile (fun x => decide (x ≠ 0)), e ∈ cands) →
    (∃ pre suf, BestOf fuel mem base labs cands pre suf bl2 bo2) ∧ p ≤ p2 ∧
      findNull (es.drop (p2 - p)) p2 = findNull es p := by
  intro es
  induction es with
  | nil => intro p off bl bo p2 bl2 bo2 h; simp [scan] at h
  | cons e es ih =>
    intro p off bl bo p2 bl2 bo2 h hbest hc
    rw [scan] at h
    by_cases he : e = 0
    · rw [if_pos he] at h
      cases h
      exact ⟨hbest, Nat.le_refl _, by simp⟩
    · rw [if_neg he] at h
      cases hm : match_ fuel mem base e (joinDots labs) (joinDots labs).length
          (labs.map List.length) off with
      | fault => rw [hm] at h; cases h
      | timeout => rw [hm] at h; cases h
      | ok r =>
        obtain ⟨m, off1⟩ := r
        rw [hm] at h
        simp only [] at h
        have hrec : ∀ bl1 bo1, scan fuel mem base (joinDots labs) (joinDots labs).length
            (labs.map List.length) es (p + 1) off1 bl1 bo1 = .ok (p2, bl2, bo2) →
            (∃ pre suf, BestOf fuel mem base labs cands pre suf bl1 bo1) →
            (∃ pre suf, BestOf fuel mem base labs cands pre suf bl2 bo2) ∧ p ≤ p2 ∧
              findNull ((e :: es).drop (p2 - p)) p2 = findNull (e :: es) p := by
          intro bl1 bo1 h1 hb1
          obtain ⟨r1, r2, r3⟩ := ih (p + 1) off1 bl1 bo1 p2 bl2 bo2 h1 hb1
            (fun x hx => hc x (by rw [takeWhile_cons_ne_zero e es he]; exact List.mem_cons_of_mem _ hx))
          refine ⟨r1, by omega, ?_⟩
          have e1 : p2 - p = (p2 - (p + 1)) + 1 := by omega
          rw [e1, List.drop_succ_cons, r3]
          conv_rhs => rw [findNull, if_neg he]
        by_cases hgt : m > bl
        · rw [if_pos hgt] at h
          obtain ⟨pre, suf, hsplit, hmv, _, hsuf⟩ := match_split fuel mem base e labs hne off m off1 hm
          have hsne : suf ≠ [] := by
            intro hs
            rw [hs, matchedLen_nil] at hmv
            omega
          have hnew : ∃ pre suf, BestOf fuel mem base labs cands pre suf m off1 :=
            ⟨pre, suf, hsplit, hmv, fun _ => ⟨e,
              hc e (by rw [takeWhile_cons_ne_zero e es he]; exact List.mem_cons_self _ _), he,
              hsuf hsne⟩⟩
          by_cases hl : m = (joinDots labs).length
          · rw [if_pos hl] at h
            cases h
            exact ⟨hnew, Nat.le_refl _, by simp⟩
          · rw [if_neg hl] at h
            exact hrec m off1 h hnew
        · rw [if_neg hgt] at h
          exact hrec bl bo h hbest

theorem bestMatch_split (fuel : Nat) (mem : Mem) (labs : List (List Nat)) (hne : labs ≠ [])
    (dnptrs : Option (List Nat)) (p bl : Nat) (bo : Int)
    (h : bestMatch fuel mem (joinDots labs) (joinDots labs).length (labs.map List.length) dnptrs
      = .ok (p, bl, bo)) :
    (∃ pre suf, BestOf fuel mem ((dnptrs.getD []).headD 0) labs (candidates dnptrs)
      pre suf bl bo) ∧
    (∀ b es, dnptrs = some (b :: es) → b ≠ 0 →
      findNull ((b :: es).drop p) p = findNull (b :: es) 0) := by
  unfold bestMatch at h
  have hinit : ∀ base cands, ∃ pre suf, BestOf fuel mem base labs cands pre suf 0 0 :=
    fun base cands => ⟨labs, [], by simp, (matchedLen_nil labs).symm, fun hh => absurd rfl hh⟩
  split at h
  · cases h
    exact ⟨hinit _ _, fun b es hh => by cases hh⟩
  · cases h
  · rename_i b es
    by_cases hb : b = 0
    · rw [if_pos hb] at h
      cases h
      exact ⟨hinit _ _, fun b2 es2 hh hb2 => by cases hh; exact absurd hb hb2⟩
    · rw [if_neg hb] at h
      obtain ⟨r1, r2, r3⟩ := scan_split fuel mem b labs hne
        (es.takeWhile (fun x => decide (x ≠ 0))) es 1 0 0 0 p bl bo h (hinit _ _)
        (fun e he => he)
      refine ⟨by simpa [candidates] using r1, ?_⟩
      intro b2 es2 hh _
      cases hh
      obtain ⟨q, hq⟩ : ∃ q, p = q + 1 := ⟨p - 1, by omega⟩
      subst hq
      rw [Nat.add_sub_cancel] at r3
      rw [List.drop_succ_cons, r3]
      conv_rhs => rw [findNull, if_neg hb]

/-! ## Every outcome of `dn_comp` -/

theorem dn_comp_shape (fuel : Nat) (mem : Mem) (src : List Nat) (dst : Nat) (space : Int)
    (dnptrs : Option (List Nat)) (lastdnptr : Option Nat) (out : Out)
    (h : dn_comp fuel mem src dst space dnptrs lastdnptr = .ok out) :
    out = ⟨-1, mem, dnptrs⟩ ∨
    (nameLen src = 0 ∧ 0 < space ∧ out = ⟨1, wr mem dst 0, dnptrs⟩) ∨
    (0 < nameLen src ∧ nameLen src ≤ 253 ∧ 0 < space ∧ ValidLabels (splitDots (effective src)) ∧
      ∃ pre suf p bo m2,
        BestOf fuel mem ((dnptrs.getD []).headD 0) (splitDots (effective src))
          (candidates dnptrs) pre suf (matchedLen pre suf) bo ∧
        bestMatch fuel mem (effective src) (nameLen src)
          ((splitDots (effective src)).map List.length) dnptrs = .ok (p, matchedLen pre suf, bo) ∧
        (encodeLabels pre).length + (if suf = [] then 1 else 2) ≤ space.toNat ∧
        readBytes m2 dst (encodeLabels pre).length = encodeLabels pre ∧
        (∀ x, (x < dst ∨ dst + (encodeLabels pre).length ≤ x) → m2 x = mem x) ∧
        finish (addTail m2 dst (encodeLabels pre).length (matchedLen pre suf) bo).1
          (addTail m2 dst (encodeLabels pre).length (matchedLen pre suf) bo).2
          dst p dnptrs lastdnptr = .ok out ∧
        (∀ b es, dnptrs = some (b :: es) → b ≠ 0 →
          findNull ((b :: es).drop p) p = findNull (b :: es) 0)) := by
  unfold effective
  by_cases h1 : 253 < nameLen src ∨ space ≤ 0
  · rw [dn_comp_toolong _ _ _ _ _ _ _ h1] at h
    exact Or.inl (Res.ok.inj h).symm
  · rw [not_or] at h1
    by_cases h0 : nameLen src = 0
    · rw [dn_comp_root _ _ _ _ _ _ _ h0 (by omega)] at h
      exact Or.inr (Or.inl ⟨h0, by omega, (Res.ok.inj h).symm⟩)
    · by_cases hv : ValidLabels (splitDots (src.take (nameLen src)))
      · have hne := splitDots_ne_nil (src.take (nameLen src))
        have hj := joinDots_splitDots (src.take (nameLen src))
        have hdv := dn_comp_valid fuel mem src dst space dnptrs lastdnptr (by omega) (by omega)
          (by omega) hv
        cases hbm : bestMatch fuel mem (src.take (nameLen src)) (nameLen src)
            ((splitDots (src.take (nameLen src))).map List.length) dnptrs with
        | fault => rw [hbm] at hdv; rw [hdv] at h; cases h
        | timeout => rw [hbm] at hdv; rw [hdv] at h; cases h
        | ok r =>
          obtain ⟨p, bl, bo⟩ := r
          have hbm2 : bestMatch fuel mem (joinDots (splitDots (src.take (nameLen src))))
              (joinDots (splitDots (src.take (nameLen src)))).length
              ((splitDots (src.take (nameLen src))).map List.length) dnptrs = .ok (p, bl, bo) := by
            rw [hj, take_nameLen_length]
            exact hbm
          obtain ⟨⟨pre, suf, hbest⟩, hfind⟩ := bestMatch_split fuel mem _ hne dnptrs p bl bo hbm2
          have hbl : bl = matchedLen pre suf := hbest.2.1
          subst hbl
          have hsplit : splitDots (src.take (nameLen src)) = pre ++ suf := hbest.1
          obtain ⟨m2, hrd, hfr, hdn⟩ := dn_comp_fwd fuel mem src dst space dnptrs lastdnptr
            pre suf p bo (by omega) (by omega) (by omega) hsplit (by rw [← hsplit]; exact hv)
            (by rw [← hsplit]; exact hbm)
          rw [hdn] at h
          by_cases hc : space.toNat < (encodeLabels pre).length + (if suf = [] then 1 else 2)
          · rw [if_pos hc] at h
            exact Or.inl (Res.ok.inj h).symm
          · rw [if_neg hc] at h
            exact Or.inr (Or.inr ⟨by omega, by omega, by omega, hv, pre, suf, p, bo, m2, hbest,
              rfl, by omega, hrd, hfr, h, hfind⟩)
      · rw [dn_comp_invalid _ _ _ _ _ _ _ (by omega) (by omega) hv] at h
        exact Or.inl (Res.ok.inj h).symm

theorem finish_ret_mem (i : Nat) (m : Mem) (dst p : Nat) (dnptrs : Option (List Nat))
    (lastdnptr : Option Nat) (out : Out) (h : finish i m dst p dnptrs lastdnptr = .ok out) :
    out.ret = (i : Int) ∧ out.mem = m := by
  unfold finish at h
  split at h
  · split at h
    · split at h
      · cases h; exact ⟨rfl, rfl⟩
      · cases h
      · cases h
    · cases h; exact ⟨rfl, rfl⟩
  · cases h; exact ⟨rfl, rfl⟩

theorem addTail_fst (m : Mem) (dst i bl : Nat) (bo : Int) :
    (addTail m dst i bl bo).1 = i + (if bl = 0 then 1 else 2) := by
  unfold addTail
  by_cases h : bl = 0
  · simp [h]
  · simp [h]

theorem addTail_frame (m : Mem) (dst i bl : Nat) (bo : Int) (x : Nat)
    (hx : x < dst + i ∨ dst + (addTail m dst i bl bo).1 ≤ x) :
    (addTail m dst i bl bo).2 x = m x := by
  rw [addTail_fst] at hx
  unfold addTail
  by_cases h : bl = 0
  · simp only [h, ne_eq, not_true_eq_false, if_false, if_true] at hx ⊢
    exact wr_other _ _ _ _ (by omega)
  · simp only [h, ne_eq, not_false_eq_true, if_true, if_false] at hx ⊢
    rw [wr_other _ _ _ _ (by omega), wr_other _ _ _ _ (by omega)]

theorem matchedLen_eq_zero_iff (pre suf : List (List Nat)) (hv : ∀ c ∈ suf, 1 ≤ c.length) :
    matchedLen pre suf = 0 ↔ suf = [] := by
  constructor
  · intro h
    by_contra hs
    have := joinDots_length_pos suf hs hv
    unfold matchedLen at h
    rw [if_neg hs] at h
    split at h <;> omega
  · intro h; rw [h]; exact matchedLen_nil pre

/-! ## Write footprint -/

theorem addTail_bytes (m : Mem) (dst i bl : Nat) (bo : Int) :
    readBytes (addTail m dst i bl bo).2 dst (addTail m dst i bl bo).1
      = readBytes m dst i ++ (if bl = 0 then [0] else pointerBytes bo) := by
  have hpre : ∀ m2 : Mem, (∀ x, x < dst + i → m2 x = m x) → readBytes m2 dst i = readBytes m dst i :=
    fun m2 hm => readBytes_congr _ _ _ _ (fun x _ h2 => hm x h2)
  unfold addTail
  by_cases h : bl = 0
  · simp only [h, ne_eq, not_true_eq_false, if_false, if_true]
    rw [readBytes_succ_last, wr_same, hpre _ (fun x hx => wr_other _ _ _ _ (by omega))]
  · simp only [h, ne_eq, not_false_eq_true, if_true, if_false]
    have e : i + 2 = (i + 1) + 1 := rfl
    rw [e, readBytes_succ_last, readBytes_succ_last, wr_same,
      wr_other _ _ _ _ (by omega : dst + i ≠ dst + (i + 1)), wr_same,
      hpre _ (fun x hx => by rw [wr_other _ _ _ _ (by omega), wr_other _ _ _ _ (by omega)])]
    simp [pointerBytes]

theorem encode_tail_le (pre suf : List (List Nat)) (hne : pre ++ suf ≠ [])
    (hv : ∀ c ∈ pre ++ suf, 1 ≤ c.length) :
    (encodeLabels pre).length + (if suf = [] then 1 else 2) ≤ (joinDots (pre ++ suf)).length + 2 := by
  rw [encodeLabels_length_nil_or]
  by_cases hs : suf = []
  · subst hs
    simp only [List.append_nil] at hne ⊢
    rw [if_neg hne]
    simp
  · rw [if_neg hs]
    by_cases hp : pre = []
    · rw [if_pos hp]; omega
    · rw [if_neg hp, joinDots_length_append pre suf hp hs]
      have := joinDots_length_pos suf hs (fun c hc => hv c (by simp [hc]))
      omega

/-- C5: when `dn_comp` returns `-1`, memory and registry are as before the call. When it returns
another value `r`, then `1 ≤ r ≤ space`, no byte outside `dst[0..r)` is changed, and `dst[0..r)`
holds the encoding: the length-prefixed labels `pre` of the name that were not matched, then the
terminator `0` when nothing was matched or else the two pointer bytes. -/
theorem C5_write_footprint (fuel : Nat) (mem : Mem) (src : List Nat) (dst : Nat) (space : Int)
    (dnptrs : Option (List Nat)) (lastdnptr : Option Nat) (out : Out)
    (h : dn_comp fuel mem src dst space dnptrs lastdnptr = .ok out) :
    (out.ret = -1 → out.mem = mem ∧ out.dnptrs = dnptrs) ∧
    (out.ret ≠ -1 →
      1 ≤ out.ret ∧ out.ret ≤ space ∧
      (∀ x, (x < dst ∨ dst + out.ret.toNat ≤ x) → out.mem x = mem x) ∧
      ∃ pre suf tail, labelsOf src = pre ++ suf ∧
        readBytes out.mem dst out.ret.toNat = encodeLabels pre ++ tail ∧
        ((suf = [] ∧ tail = [0]) ∨ (suf ≠ [] ∧ ∃ bo, tail = pointerBytes bo))) := by
  rcases dn_comp_shape fuel mem src dst space dnptrs lastdnptr out h with
    h1 | ⟨h0, hsp, h1⟩ | ⟨hpos, hb, hsp, hv, pre, suf, p, bo, m2, hbest, _, hcap, hrd, hfr, hfin, _⟩
  · subst h1
    exact ⟨fun _ => ⟨rfl, rfl⟩, fun hh => absurd rfl hh⟩
  · subst h1
    refine ⟨fun hh => by simp at hh, fun _ => ⟨by simp, by simpa using hsp, ?_, ?_⟩⟩
    · intro x hx
      simp only [Int.toNat_one] at hx
      exact wr_other _ _ _ _ (by omega)
    · refine ⟨[], [], [0], by simp [labelsOf, h0], ?_, Or.inl ⟨rfl, rfl⟩⟩
      simp [readBytes, wr_same, encodeLabels]
  · obtain ⟨hret, hmem⟩ := finish_ret_mem _ _ _ _ _ _ _ hfin
    have hvs : ∀ c ∈ suf, 1 ≤ c.length := fun c hc => (hv c (by rw [hbest.1]; simp [hc])).1
    have hz := matchedLen_eq_zero_iff pre suf hvs
    have hfst := addTail_fst m2 dst (encodeLabels pre).length (matchedLen pre suf) bo
    have hif : (if matchedLen pre suf = 0 then 1 else 2) = (if suf = [] then 1 else 2) := by
      by_cases hs : suf = []
      · rw [if_pos (hz.mpr hs), if_pos hs]
      · rw [if_neg (fun hh => hs (hz.mp hh)), if_neg hs]
    rw [hif] at hfst
    have hr1 : 1 ≤ (addTail m2 dst (encodeLabels pre).length (matchedLen pre suf) bo).1 := by
      rw [hfst]; split <;> omega
    have htn : out.ret.toNat = (addTail m2 dst (encodeLabels pre).length (matchedLen pre suf) bo).1 := by
      rw [hret]; simp
    refine ⟨fun hh => by rw [hret] at hh; omega, fun _ => ⟨by rw [hret]; omega, ?_, ?_, ?_⟩⟩
    · rw [hret, hfst]; omega
    · intro x hx
      rw [htn] at hx
      rw [hmem, addTail_frame _ _ _ _ _ _ (by omega)]
      exact hfr x (by rw [hfst] at hx; omega)
    · refine ⟨pre, suf, if suf = [] then [0] else pointerBytes bo, ?_, ?_, ?_⟩
      · unfold labelsOf
        rw [if_neg (by omega)]
        exact hbest.1
      · rw [htn, hmem, addTail_bytes, hrd]
        congr 1
        by_cases hs : suf = []
        · rw [if_pos (hz.mpr hs), if_pos hs]
        · rw [if_neg (fun hh => hs (hz.mp hh)), if_neg hs]
      · by_cases hs : suf = []
        · exact Or.inl ⟨hs, by rw [if_pos hs]⟩
        · exact Or.inr ⟨hs, bo, by rw [if_neg hs]⟩

/-- C5 at the name `a` written at address 100 with three bytes of space. -/
theorem C5_write_footprint_witness :
    (((⟨3, wr (wr (memcpy (fun _ => 9) 101 [97]) 100 1) 102 0, none⟩ : Out).ret = -1 →
      (⟨3, wr (wr (memcpy (fun _ => 9) 101 [97]) 100 1) 102 0, none⟩ : Out).mem = (fun _ => 9) ∧
      (⟨3, wr (wr (memcpy (fun _ => 9) 101 [97]) 100 1) 102 0, none⟩ : Out).dnptrs = none)) ∧
    ((⟨3, wr (wr (memcpy (fun _ => 9) 101 [97]) 100 1) 102 0, none⟩ : Out).ret ≠ -1 →
      1 ≤ (⟨3, wr (wr (memcpy (fun _ => 9) 101 [97]) 100 1) 102 0, none⟩ : Out).ret ∧
      (⟨3, wr (wr (memcpy (fun _ => 9) 101 [97]) 100 1) 102 0, none⟩ : Out).ret ≤ 3 ∧
      (∀ x, (x < 100 ∨ 100 +
          (⟨3, wr (wr (memcpy (fun _ => 9) 101 [97]) 100 1) 102 0, none⟩ : Out).ret.toNat ≤ x) →
        (⟨3, wr (wr (memcpy (fun _ => 9) 101 [97]) 100 1) 102 0, none⟩ : Out).mem x
          = (fun _ => 9) x) ∧
      ∃ pre suf tail, labelsOf [97] = pre ++ suf ∧
        readBytes (⟨3, wr (wr (memcpy (fun _ => 9) 101 [97]) 100 1) 102 0, none⟩ : Out).mem 100
          (⟨3, wr (wr (memcpy (fun _ => 9) 101 [97]) 100 1) 102 0, none⟩ : Out).ret.toNat
            = encodeLabels pre ++ tail ∧
        ((suf = [] ∧ tail = [0]) ∨ (suf ≠ [] ∧ ∃ bo, tail = pointerBytes bo))) :=
  C5_write_footprint 0 (fun _ => 9) [97] 100 3 none none
    ⟨3, wr (wr (memcpy (fun _ => 9) 101 [97]) 100 1) 102 0, none⟩ rfl

/-! ## Length validation -/

theorem dn_comp_enough_space (fuel : Nat) (mem : Mem) (src : List Nat) (dst : Nat) (space : Int)
    (dnptrs : Option (List Nat)) (lastdnptr : Option Nat) (out : Out)
    (hb : nameLen src ≤ 253) (hsp : (nameLen src : Int) + 2 ≤ space)
    (hv : nameLen src = 0 ∨ ValidLabels (splitDots (effective src)))
    (h : dn_comp fuel mem src dst space dnptrs lastdnptr = .ok out) : 1 ≤ out.ret := by
  unfold effective at hv
  by_cases h0 : nameLen src = 0
  · rw [dn_comp_root _ _ _ _ _ _ _ h0 (by omega)] at h
    cases h
    simp
  · have hv2 : ValidLabels (splitDots (src.take (nameLen src))) := by
      rcases hv with hv | hv
      · exact absurd hv h0
      · exact hv
    have hne := splitDots_ne_nil (src.take (nameLen src))
    have hj := joinDots_splitDots (src.take (nameLen src))
    have hdv := dn_comp_valid fuel mem src dst space dnptrs lastdnptr (by omega) hb (by omega) hv2
    cases hbm : bestMatch fuel mem (src.take (nameLen src)) (nameLen src)
        ((splitDots (src.take (nameLen src))).map List.length) dnptrs with
    | fault => rw [hbm] at hdv; rw [hdv] at h; cases h
    | timeout => rw [hbm] at hdv; rw [hdv] at h; cases h
    | ok r =>
      obtain ⟨p, bl, bo⟩ := r
      have hbm2 : bestMatch fuel mem (joinDots (splitDots (src.take (nameLen src))))
          (joinDots (splitDots (src.take (nameLen src)))).length
          ((splitDots (src.take (nameLen src))).map List.length) dnptrs = .ok (p, bl, bo) := by
        rw [hj, take_nameLen_length]
        exact hbm
      obtain ⟨⟨pre, suf, hbest⟩, _⟩ := bestMatch_split fuel mem _ hne dnptrs p bl bo hbm2
      have hbl : bl = matchedLen pre suf := hbest.2.1
      subst hbl
      have hsplit : splitDots (src.take (nameLen src)) = pre ++ suf := hbest.1
      obtain ⟨m2, _, _, hdn⟩ := dn_comp_fwd fuel mem src dst space dnptrs lastdnptr
        pre suf p bo (by omega) (by omega) (by omega) hsplit (by rw [← hsplit]; exact hv2)
        (by rw [← hsplit]; exact hbm)
      have hle := encode_tail_le pre suf (by rw [← hsplit]; exact hne)
        (fun c hc => (hv2 c (by rw [hsplit]; exact hc)).1)
      have hl : (joinDots (pre ++ suf)).length = nameLen src := by
        rw [← hsplit, hj, take_nameLen_length]
      rw [hdn, if_neg (by omega)] at h
      obtain ⟨hret, _⟩ := finish_ret_mem _ _ _ _ _ _ _ h
      rw [hret, addTail_fst]
      split <;> omega

/-- C8: for a name (a string without NUL bytes) the length `dn_comp` validates is the effective
length: the length scanned up to 255 bytes, less one for a final dot. When it exceeds 253 the call
returns `-1` whatever the labels, space and registry, so a name of 254 bytes without final dot
fails; when it is at most 253, a return of `-1` always has another cause: no space, an invalid
label, or less space than `l+2`. -/
theorem C8_name_too_long (src : List Nat) (hz : ∀ b ∈ src, b ≠ 0) :
    nameLen src = effectiveLen src ∧
    (253 < effectiveLen src →
      ∀ (fuel : Nat) (mem : Mem) (dst : Nat) (space : Int) (dnptrs : Option (List Nat))
        (lastdnptr : Option Nat),
        dn_comp fuel mem src dst space dnptrs lastdnptr = .ok ⟨-1, mem, dnptrs⟩) ∧
    ((src.length = 254 ∧ src.getD 253 0 ≠ 46) → 253 < effectiveLen src) ∧
    (effectiveLen src ≤ 253 →
      ∀ (fuel : Nat) (mem : Mem) (dst : Nat) (space : Int) (dnptrs : Option (List Nat))
        (lastdnptr : Option Nat) (out : Out),
        dn_comp fuel mem src dst space dnptrs lastdnptr = .ok out → out.ret = -1 →
        space ≤ 0 ∨ (1 ≤ effectiveLen src ∧ ¬ ValidLabels (splitDots (effective src))) ∨
          space < (effectiveLen src : Int) + 2) := by
  have he := nameLen_eq_effectiveLen src hz
  refine ⟨he, ?_, ?_, ?_⟩
  · intro h fuel mem dst space dnptrs lastdnptr
    exact dn_comp_toolong _ _ _ _ _ _ _ (Or.inl (by omega))
  · rintro ⟨h1, h2⟩
    unfold effectiveLen
    have hm : min src.length 255 = 254 := by omega
    rw [hm, if_neg (fun hh => h2 hh.2)]
    omega
  · intro h fuel mem dst space dnptrs lastdnptr out hd hr
    rw [← he] at h ⊢
    by_cases hsp : space ≤ 0
    · exact Or.inl hsp
    · right
      by_cases hcap : space < (nameLen src : Int) + 2
      · exact Or.inr hcap
      · left
        by_cases h0 : nameLen src = 0
        · have := dn_comp_enough_space fuel mem src dst space dnptrs lastdnptr out h (by omega)
            (Or.inl h0) hd
          omega
        · refine ⟨by omega, fun hv => ?_⟩
          have := dn_comp_enough_space fuel mem src dst space dnptrs lastdnptr out h (by omega)
            (Or.inr hv) hd
          omega

/-- C8 at a name of 254 letters `a`: rejected. -/
theorem C8_name_too_long_witness :
    dn_comp 0 (fun _ => 0) (List.replicate 254 97) 100 400 none none
      = .ok ⟨-1, fun _ => 0, none⟩ :=
  (C8_name_too_long (List.replicate 254 97)
    (fun b hb => by rw [List.eq_of_mem_replicate hb]; decide)).2.1
    ((C8_name_too_long (List.replicate 254 97)
      (fun b hb => by rw [List.eq_of_mem_replicate hb]; decide)).2.2.1
      ⟨List.length_replicate 254 97, by
        rw [List.getD_eq_getElem?_getD, List.getElem?_replicate]; decide⟩)
    0 (fun _ => 0) 100 400 none none

/-! ## Registry update -/

theorem dn_comp_limit_indep (fuel : Nat) (mem : Mem) (src : List Nat) (dst : Nat) (space : Int)
    (dnptrs : Option (List Nat)) (lastdnptr lastdnptr2 : Option Nat) (out out2 : Out)
    (h : dn_comp fuel mem src dst space dnptrs lastdnptr = .ok out)
    (h2 : dn_comp fuel mem src dst space dnptrs lastdnptr2 = .ok out2) :
    out2.ret = out.ret ∧ out2.mem = out.mem := by
  unfold dn_comp at h h2
  simp only [] at h h2
  by_cases c1 : nameLen src > 253 ∨ space ≤ 0
  · rw [if_pos c1] at h h2
    cases h; cases h2; exact ⟨rfl, rfl⟩
  · rw [if_neg c1] at h h2
    by_cases c2 : nameLen src = 0
    · rw [if_pos c2] at h h2
      cases h; cases h2; exact ⟨rfl, rfl⟩
    · rw [if_neg c2] at h h2
      cases hg : getlens (src.take (nameLen src)) 0 [] with
      | fault => rw [hg] at h; cases h
      | timeout => rw [hg] at h; cases h
      | ok lens =>
        rw [hg] at h h2
        simp only [] at h h2
        by_cases c3 : lens.length = 0
        · rw [if_pos c3] at h h2
          cases h; cases h2; exact ⟨rfl, rfl⟩
        · rw [if_neg c3] at h h2
          cases hbm : bestMatch fuel mem (src.take (nameLen src)) (nameLen src) lens dnptrs with
          | fault => rw [hbm] at h; cases h
          | timeout => rw [hbm] at h; cases h
          | ok r =>
            obtain ⟨p, bl, bo⟩ := r
            rw [hbm] at h h2
            simp only [] at h h2
            by_cases c4 : space.toNat < need (nameLen src) bl
            · rw [if_pos c4] at h h2
              cases h; cases h2; exact ⟨rfl, rfl⟩
            · rw [if_neg c4] at h h2
              by_cases c5 : nameLen src < sub64 (nameLen src) bl
              · rw [if_pos c5] at h; cases h
              · rw [if_neg c5] at h h2
                cases hl : lenLoop dst (sub64 (nameLen src) bl) lens 0
                    (memcpy mem (dst + 1) ((src.take (nameLen src)).take
                      (sub64 (nameLen src) bl))) with
                | fault => rw [hl] at h; cases h
                | timeout => rw [hl] at h; cases h
                | ok r2 =>
                  obtain ⟨i, m2⟩ := r2
                  rw [hl] at h h2
                  simp only [] at h h2
                  obtain ⟨a1, a2⟩ := finish_ret_mem _ _ _ _ _ _ _ h
                  obtain ⟨b1, b2⟩ := finish_ret_mem _ _ _ _ _ _ _ h2
                  exact ⟨by rw [a1, b1], by rw [a2, b2]⟩

theorem finish_registry (i : Nat) (m : Mem) (dst p : Nat) (dnptrs : Option (List Nat))
    (lastdnptr : Option Nat) (out : Out)
    (hp : ∀ b es, dnptrs = some (b :: es) → b ≠ 0 →
      findNull ((b :: es).drop p) p = findNull (b :: es) 0)
    (h : finish i m dst p dnptrs lastdnptr = .ok out) :
    (∀ arr cap k, dnptrs = some arr → lastdnptr = some cap → arr.headD 0 ≠ 0 →
      findNull arr 0 = some k → 2 < i → k + 1 < cap →
      k + 1 < arr.length ∧ out.dnptrs = some ((arr.set k dst).set (k + 1) 0)) ∧
    ((i ≤ 2 ∨ dnptrs = none ∨ lastdnptr = none ∨ (∃ arr, dnptrs = some arr ∧ arr.headD 0 = 0) ∨
      (∃ arr cap k, dnptrs = some arr ∧ lastdnptr = some cap ∧ findNull arr 0 = some k ∧
        cap ≤ k + 1)) → out.dnptrs = dnptrs) := by
  unfold finish at h
  split at h
  · rename_i b es cap
    by_cases hc : i > 2 ∧ b ≠ 0
    · rw [if_pos hc] at h
      have hf := hp b es rfl hc.2
      unfold save at h
      rw [hf] at h
      cases hk : findNull (b :: es) 0 with
      | none => rw [hk] at h; cases h
      | some k =>
        rw [hk] at h
        simp only [] at h
        by_cases hcap : k + 1 < cap
        · rw [if_pos hcap] at h
          by_cases hlen : k + 1 < (b :: es).length
          · rw [if_pos hlen] at h
            cases h
            constructor
            · intro arr cap2 k2 ha hc2 _ hk2 _ _
              cases ha; cases hc2
              rw [hk] at hk2
              cases hk2
              exact ⟨hlen, rfl⟩
            · rintro (h1 | h1 | h1 | ⟨arr, ha, h1⟩ | ⟨arr, cap2, k2, ha, hc2, hk2, h1⟩)
              · omega
              · cases h1
              · cases h1
              · cases ha; exact absurd h1 (by simpa using hc.2)
              · cases ha; cases hc2
                rw [hk] at hk2
                cases hk2
                omega
          · rw [if_neg hlen] at h; cases h
        · rw [if_neg hcap] at h
          cases h
          constructor
          · intro arr cap2 k2 ha hc2 _ hk2 _ hlt
            cases ha; cases hc2
            rw [hk] at hk2
            cases hk2
            exact absurd hlt hcap
          · intro _; rfl
    · rw [if_neg hc] at h
      cases h
      constructor
      · intro arr cap2 k2 ha hc2 hb _ hi _
        cases ha
        exact absurd ⟨hi, by simpa using hb⟩ hc
      · intro _; rfl
  · rename_i hno
    cases h
    constructor
    · intro arr cap k ha hc hb _ _ _
      subst ha; subst hc
      cases arr with
      | nil => simp at hb
      | cons b es => exact absurd rfl (fun hh => hno b es cap hh rfl)
    · intro _; rfl

/-- C10: a call of `dn_comp` that returns leaves the registry as follows. With `dnptrs`,
`lastdnptr` and `dnptrs[0]` non-null, `k` the index of the first null slot, a return value above
2 and `k+1 < lastdnptr - dnptrs`, slot `k` becomes `dst`, slot `k+1` becomes null and every other
slot keeps its value. In every other case (return value at most 2, no registry, no limit, null
`dnptrs[0]`, or no spare slot) the registry is unchanged. The return value and the memory after
the call do not depend on `lastdnptr`. -/
theorem C10_registry_update (fuel : Nat) (mem : Mem) (src : List Nat) (dst : Nat) (space : Int)
    (dnptrs : Option (List Nat)) (lastdnptr : Option Nat) (out : Out)
    (h : dn_comp fuel mem src dst space dnptrs lastdnptr = .ok out) :
    (∀ arr cap k, dnptrs = some arr → lastdnptr = some cap → arr.headD 0 ≠ 0 →
      findNull arr 0 = some k → 2 < out.ret → k + 1 < cap →
      k + 1 < arr.length ∧ out.dnptrs = some ((arr.set k dst).set (k + 1) 0)) ∧
    ((out.ret ≤ 2 ∨ dnptrs = none ∨ lastdnptr = none ∨
      (∃ arr, dnptrs = some arr ∧ arr.headD 0 = 0) ∨
      (∃ arr cap k, dnptrs = some arr ∧ lastdnptr = some cap ∧ findNull arr 0 = some k ∧
        cap ≤ k + 1)) → out.dnptrs = dnptrs) ∧
    (∀ lastdnptr2 out2, dn_comp fuel mem src dst space dnptrs lastdnptr2 = .ok out2 →
      out2.ret = out.ret ∧ out2.mem = out.mem) := by
  refine ⟨?_, ?_, fun l2 o2 h2 => dn_comp_limit_indep _ _ _ _ _ _ _ _ _ _ h h2⟩
  · rcases dn_comp_shape fuel mem src dst space dnptrs lastdnptr out h with
      h1 | ⟨_, _, h1⟩ | ⟨_, _, _, _, pre, suf, p, bo, m2, _, _, _, _, _, hfin, hfind⟩
    · subst h1; intro _ _ _ _ _ _ _ h2; simp at h2
    · subst h1; intro _ _ _ _ _ _ _ h2; simp at h2
    · intro arr cap k ha hc hb hk hr hlt
      have hret := (finish_ret_mem _ _ _ _ _ _ _ hfin).1
      exact (finish_registry _ _ _ _ _ _ _ hfind hfin).1 arr cap k ha hc hb hk
        (by rw [hret] at hr; omega) hlt
  · rcases dn_comp_shape fuel mem src dst space dnptrs lastdnptr out h with
      h1 | ⟨_, _, h1⟩ | ⟨_, _, _, _, pre, suf, p, bo, m2, _, _, _, _, _, hfin, hfind⟩
    · subst h1; intro _; rfl
    · subst h1; intro _; rfl
    · intro hcase
      have hret := (finish_ret_mem _ _ _ _ _ _ _ hfin).1
      apply (finish_registry _ _ _ _ _ _ _ hfind hfin).2
      rcases hcase with h1 | h1 | h1 | h1 | h1
      · exact Or.inl (by rw [hret] at h1; omega)
      · exact Or.inr (Or.inl h1)
      · exact Or.inr (Or.inr (Or.inl h1))
      · exact Or.inr (Or.inr (Or.inr (Or.inl h1)))
      · exact Or.inr (Or.inr (Or.inr (Or.inr h1)))

/-- C10 at the name `a` with the registry `[50, NULL, NULL]`: the name is appended. -/
theorem C10_registry_update_witness :
    1 + 1 < [50, 0, 0].length ∧
      (⟨3, wr (wr (memcpy (fun _ => 9) 101 [97]) 100 1) 102 0, some [50, 100, 0]⟩ : Out).dnptrs
        = some (([50, 0, 0].set 1 100).set (1 + 1) 0) :=
  (C10_registry_update 0 (fun _ => 9) [97] 100 3 (some [50, 0, 0]) (some 3)
    ⟨3, wr (wr (memcpy (fun _ => 9) 101 [97]) 100 1) 102 0, some [50, 100, 0]⟩ rfl).1
    [50, 0, 0] 3 1 rfl rfl (by decide) rfl (by decide) (by decide)

/-! ## The pointer-chain walk -/

theorem getoffs_succ (mem : Mem) (base fuel s : Nat) (offs : List Int) :
    getoffs mem base (fuel + 1) s offs =
      if mem s &&& 0xc0 ≠ 0 then
        if mem s &&& 0xc0 ≠ 0xc0 then .ok []
        else getoffs mem base fuel (base + ((mem s &&& 0x3f) <<< 8 ||| mem (s + 1))) offs
      else if mem s = 0 then .ok offs
      else if (s : Int) - (base : Int) ≥ 0x4000 then .ok []
      else if 128 ≤ offs.length then .fault
      else getoffs mem base fuel (s + (mem s + 1)) (offs ++ [toShort ((s : Int) - (base : Int))]) :=
  rfl

theorem getoffs_fuel_succ (mem : Mem) (base : Nat) : ∀ (fuel s : Nat) (acc r : List Int),
    getoffs mem base fuel s acc = .ok r → getoffs mem base (fuel + 1) s acc = .ok r := by
  intro fuel
  induction fuel with
  | zero => intro s acc r h; simp [getoffs] at h
  | succ fuel ih =>
    intro s acc r h
    rw [getoffs_succ] at h
    rw [getoffs_succ]
    by_cases c1 : mem s &&& 0xc0 ≠ 0
    · rw [if_pos c1] at h ⊢
      by_cases c2 : mem s &&& 0xc0 ≠ 0xc0
      · rw [if_pos c2] at h ⊢; exact h
      · rw [if_neg c2] at h ⊢; exact ih _ _ _ h
    · rw [if_neg c1] at h ⊢
      by_cases c3 : mem s = 0
      · rw [if_pos c3] at h ⊢; exact h
      · rw [if_neg c3] at h ⊢
        by_cases c4 : (s : Int) - (base : Int) ≥ 0x4000
        · rw [if_pos c4] at h ⊢; exact h
        · rw [if_neg c4] at h ⊢
          by_cases c5 : 128 ≤ acc.length
          · rw [if_pos c5] at h; cases h
          · rw [if_neg c5] at h ⊢; exact ih _ _ _ h

theorem getoffs_fuel_le (mem : Mem) (base : Nat) (fuel fuel2 s : Nat) (acc r : List Int)
    (hle : fuel ≤ fuel2) (h : getoffs mem base fuel s acc = .ok r) :
    getoffs mem base fuel2 s acc = .ok r := by
  induction hle with
  | refl => exact h
  | step _ ih => exact getoffs_fuel_succ _ _ _ _ _ _ ih

theorem getoffs_acc (mem : Mem) (base : Nat) : ∀ (fuel s : Nat) (acc r : List Int),
    getoffs mem base fuel s acc = .ok r → r ≠ [] →
    ∃ new, r = acc ++ new ∧
      ∀ acc2 : List Int, acc2.length ≤ acc.length →
        getoffs mem base fuel s acc2 = .ok (acc2 ++ new) := by
  intro fuel
  induction fuel with
  | zero => intro s acc r h; simp [getoffs] at h
  | succ fuel ih =>
    intro s acc r h hr
    rw [getoffs_succ] at h
    by_cases c1 : mem s &&& 0xc0 ≠ 0
    · rw [if_pos c1] at h
      by_cases c2 : mem s &&& 0xc0 ≠ 0xc0
      · rw [if_pos c2] at h; cases h; exact absurd rfl hr
      · rw [if_neg c2] at h
        obtain ⟨new, h1, h2⟩ := ih _ _ _ h hr
        refine ⟨new, h1, fun acc2 hl => ?_⟩
        rw [getoffs_succ, if_pos c1, if_neg c2]
        exact h2 acc2 hl
    · rw [if_neg c1] at h
      by_cases c3 : mem s = 0
      · rw [if_pos c3] at h
        cases h
        refine ⟨[], by simp, fun acc2 _ => ?_⟩
        rw [getoffs_succ, if_neg c1, if_pos c3]
        simp
      · rw [if_neg c3] at h
        by_cases c4 : (s : Int) - (base : Int) ≥ 0x4000
        · rw [if_pos c4] at h; cases h; exact absurd rfl hr
        · rw [if_neg c4] at h
          by_cases c5 : 128 ≤ acc.length
          · rw [if_pos c5] at h; cases h
          · rw [if_neg c5] at h
            obtain ⟨new, h1, h2⟩ := ih _ _ _ h hr
            refine ⟨toShort ((s : Int) - (base : Int)) :: new, by rw [h1]; simp,
              fun acc2 hl => ?_⟩
            rw [getoffs_succ, if_neg c1, if_neg c3, if_neg c4, if_neg (by omega)]
            rw [h2 (acc2 ++ [toShort ((s : Int) - (base : Int))]) (by simp; omega)]
            simp

theorem toShort_of_small (x : Int) (h0 : 0 ≤ x) (h1 : x < 0x4000) : toShort x = x := by
  unfold toShort
  omega

/-- A walk that starts at or after `base` records offsets in `[0, 0x4000)`, and walking again
from any recorded offset gives the offsets recorded from there on. -/
theorem getoffs_suffix (mem : Mem) (base : Nat) : ∀ (fuel s : Nat) (new : List Int),
    getoffs mem base fuel s [] = .ok new → base ≤ s →
    ∀ (front : List Int) (o : Int) (rest : List Int), new = front ++ o :: rest →
      0 ≤ o ∧ o < 0x4000 ∧ getoffs mem base fuel (base + o.toNat) [] = .ok (o :: rest) := by
  intro fuel
  induction fuel with
  | zero => intro s new h; simp [getoffs] at h
  | succ fuel ih =>
    intro s new h hs front o rest hsplit
    have hne : new ≠ [] := by rw [hsplit]; simp
    have h0 := h
    rw [getoffs_succ] at h
    by_cases c1 : mem s &&& 0xc0 ≠ 0
    · rw [if_pos c1] at h
      by_cases c2 : mem s &&& 0xc0 ≠ 0xc0
      · rw [if_pos c2] at h; cases h; exact absurd rfl hne
      · rw [if_neg c2] at h
        obtain ⟨r1, r2, r3⟩ := ih _ _ h (Nat.le_add_right _ _) front o rest hsplit
        exact ⟨r1, r2, getoffs_fuel_succ _ _ _ _ _ _ r3⟩
    · rw [if_neg c1] at h
      by_cases c3 : mem s = 0
      · rw [if_pos c3] at h; cases h; exact absurd rfl hne
      · rw [if_neg c3] at h
        by_cases c4 : (s : Int) - (base : Int) ≥ 0x4000
        · rw [if_pos c4] at h; cases h; exact absurd rfl hne
        · rw [if_neg c4] at h
          rw [if_neg (by simp)] at h
          have hsb : (0 : Int) ≤ (s : Int) - (base : Int) := by omega
          have hts := toShort_of_small _ hsb (by omega)
          rw [hts] at h
          obtain ⟨new2, h1, h2⟩ := getoffs_acc mem base fuel _ _ _ h hne
          have h3 := h2 [] (by simp)
          simp only [List.nil_append] at h1 h3
          cases front with
          | nil =>
            simp only [List.nil_append] at hsplit
            rw [h1] at hsplit
            have ho : (s : Int) - (base : Int) = o := (List.cons.inj hsplit).1
            have hbo : base + o.toNat = s := by omega
            refine ⟨by omega, by omega, ?_⟩
            rw [hbo, h0, h1, hsplit]
          | cons f front2 =>
            rw [h1] at hsplit
            have hs2 : new2 = front2 ++ o :: rest := (List.cons.inj hsplit).2
            obtain ⟨r1, r2, r3⟩ := ih _ _ h3 (by omega) front2 o rest hs2
            exact ⟨r1, r2, getoffs_fuel_succ _ _ _ _ _ _ r3⟩

/-! ## Pointer bytes -/

theorem pointer_bits : ∀ a, a < 64 → (192 ||| a) &&& 192 = 192 ∧ (192 ||| a) &&& 63 = a ∧
    192 ||| a < 256 := by
  decide

theorem pointerBytes_nat (off : Nat) (h : off < 16384) :
    pointerBytes (off : Int) = [0xc0 ||| (off >>> 8), off % 256] := by
  unfold pointerBytes
  have e1 : Int.lor (0xc0 : Int) ((off : Int) >>> 8) = ((0xc0 ||| (off >>> 8) : Nat) : Int) := rfl
  have ha : off >>> 8 < 64 := by rw [Nat.shiftRight_eq_div_pow]; omega
  have hb := (pointer_bits _ ha).2.2
  have x1 : ((((0xc0 ||| (off >>> 8) : Nat) : Int)) % 256).toNat = 0xc0 ||| (off >>> 8) := by
    omega
  have x2 : ((off : Int) % 256).toNat = off % 256 := by omega
  rw [e1, x1, x2]

theorem pointer_decode (off : Nat) (h : off < 16384) :
    (0xc0 ||| (off >>> 8)) &&& 0xc0 = 0xc0 ∧
      ((0xc0 ||| (off >>> 8)) &&& 0x3f) <<< 8 ||| (off % 256) = off := by
  have ha : off >>> 8 < 64 := by rw [Nat.shiftRight_eq_div_pow]; omega
  obtain ⟨h1, h2, _⟩ := pointer_bits _ ha
  refine ⟨h1, ?_⟩
  have e : (0xc0 ||| (off >>> 8)) &&& 0x3f = off >>> 8 := h2
  rw [e, Nat.shiftLeft_eq, Nat.shiftRight_eq_div_pow, Nat.mul_comm,
    ← Nat.mul_add_lt_is_or (by omega : off % 256 < 2 ^ 8)]
  omega

/-! ## Pointers emitted by `dn_comp` -/

theorem finish_bytes (m2 : Mem) (dst p : Nat) (dnptrs : Option (List Nat))
    (lastdnptr : Option Nat) (out : Out) (pre suf : List (List Nat)) (bo : Int)
    (hvs : ∀ c ∈ suf, 1 ≤ c.length)
    (hrd : readBytes m2 dst (encodeLabels pre).length = encodeLabels pre)
    (hfin : finish (addTail m2 dst (encodeLabels pre).length (matchedLen pre suf) bo).1
      (addTail m2 dst (encodeLabels pre).length (matchedLen pre suf) bo).2
      dst p dnptrs lastdnptr = .ok out) :
    out.ret.toNat = (encodeLabels pre).length + (if suf = [] then 1 else 2) ∧
    out.ret = (((encodeLabels pre).length + (if suf = [] then 1 else 2) : Nat) : Int) ∧
    readBytes out.mem dst out.ret.toNat
      = encodeLabels pre ++ (if suf = [] then [0] else pointerBytes bo) := by
  obtain ⟨hret, hmem⟩ := finish_ret_mem _ _ _ _ _ _ _ hfin
  have hz := matchedLen_eq_zero_iff pre suf hvs
  have hfst := addTail_fst m2 dst (encodeLabels pre).length (matchedLen pre suf) bo
  have hif : (if matchedLen pre suf = 0 then 1 else 2) = (if suf = [] then 1 else 2) := by
    by_cases hs : suf = []
    · rw [if_pos (hz.mpr hs), if_pos hs]
    · rw [if_neg (fun hh => hs (hz.mp hh)), if_neg hs]
  have htn : out.ret.toNat = (addTail m2 dst (encodeLabels pre).length (matchedLen pre suf) bo).1 := by
    rw [hret]; simp
  refine ⟨by rw [htn, hfst, hif], by rw [hret, hfst, hif], ?_⟩
  rw [htn, hmem, addTail_bytes, hrd]
  congr 1
  by_cases hs : suf = []
  · rw [if_pos (hz.mpr hs), if_pos hs]
  · rw [if_neg (fun hh => hs (hz.mp hh)), if_neg hs]

theorem bestOf_offset (fuel : Nat) (mem : Mem) (labs : List (List Nat))
    (dnptrs : Option (List Nat)) (pre suf : List (List Nat)) (bl : Nat) (bo : Int)
    (hbest : BestOf fuel mem ((dnptrs.getD []).headD 0) labs (candidates dnptrs) pre suf bl bo)
    (hge : EntriesAfterBase dnptrs) (hs : suf ≠ []) :
    0 ≤ bo ∧ bo < 16384 ∧ ∃ mo, getoffs mem ((dnptrs.getD []).headD 0) fuel
        ((dnptrs.getD []).headD 0 + bo.toNat) [] = .ok mo ∧
      mo.map (labelAt mem ((dnptrs.getD []).headD 0)) = suf := by
  obtain ⟨dn, hdn, _, front, mo, hg, hmap, hhead⟩ := hbest.2.2 hs
  cases mo with
  | nil => simp at hhead
  | cons o rest =>
    simp only [List.head?_cons, Option.some.injEq] at hhead
    subst hhead
    obtain ⟨r1, r2, r3⟩ := getoffs_suffix mem _ fuel dn _ hg (hge dn hdn) front o rest rfl
    exact ⟨r1, r2, o :: rest, r3, hmap⟩

/-- C2: compression preserves the name. When `dn_comp` returns a length and every candidate of
the registry lies at or after the base, the labels of the name split into `pre ++ suf`: `dst`
holds the labels `pre` uncompressed, followed by the terminator `0` when `suf` is empty, or else
by a pointer whose 14-bit offset `off` is such that walking the message from `base+off` as
`getoffs` does yields offsets holding exactly the labels `suf`. The message is the memory the
call was given. -/
theorem C2_compression_preserves_name (fuel : Nat) (mem : Mem) (src : List Nat) (dst : Nat)
    (space : Int) (dnptrs : Option (List Nat)) (lastdnptr : Option Nat) (out : Out)
    (h : dn_comp fuel mem src dst space dnptrs lastdnptr = .ok out) (hret : out.ret ≠ -1)
    (hge : EntriesAfterBase dnptrs) :
    ∃ pre suf, labelsOf src = pre ++ suf ∧
      ((suf = [] ∧ readBytes out.mem dst out.ret.toNat = encodeLabels pre ++ [0]) ∨
       (suf ≠ [] ∧ ∃ off : Nat, off < 16384 ∧
          readBytes out.mem dst out.ret.toNat
            = encodeLabels pre ++ [0xc0 ||| (off >>> 8), off % 256] ∧
          ∃ mo, getoffs mem ((dnptrs.getD []).headD 0) fuel
              ((dnptrs.getD []).headD 0 + off) [] = .ok mo ∧
            mo.map (labelAt mem ((dnptrs.getD []).headD 0)) = suf)) := by
  rcases dn_comp_shape fuel mem src dst space dnptrs lastdnptr out h with
    h1 | ⟨h0, hsp, h1⟩ | ⟨hpos, hb, hsp, hv, pre, suf, p, bo, m2, hbest, _, hcap, hrd, hfr, hfin, _⟩
  · subst h1; exact absurd rfl hret
  · subst h1
    refine ⟨[], [], by simp [labelsOf, h0], Or.inl ⟨rfl, ?_⟩⟩
    simp [readBytes, wr_same, encodeLabels]
  · have hvs : ∀ c ∈ suf, 1 ≤ c.length := fun c hc => (hv c (by rw [hbest.1]; simp [hc])).1
    obtain ⟨_, _, hbytes⟩ := finish_bytes m2 dst p dnptrs lastdnptr out pre suf bo hvs hrd hfin
    refine ⟨pre, suf, ?_, ?_⟩
    · unfold labelsOf
      rw [if_neg (by omega)]
      exact hbest.1
    · by_cases hs : suf = []
      · rw [if_pos hs] at hbytes
        exact Or.inl ⟨hs, hbytes⟩
      · rw [if_neg hs] at hbytes
        obtain ⟨b0, b1, mo, hg, hmap⟩ := bestOf_offset fuel mem _ dnptrs pre suf _ bo hbest hge hs
        have hcast : ((bo.toNat : Nat) : Int) = bo := Int.toNat_of_nonneg b0
        refine Or.inr ⟨hs, bo.toNat, by omega, ?_, mo, hg, hmap⟩
        rw [hbytes, ← pointerBytes_nat bo.toNat (by omega), hcast]

/-- C2 at the name `a.com` against a message holding `com` at its base (address 100): the output
is the label `a` and a pointer to offset 0. -/
theorem C2_compression_preserves_name_witness :
    ∃ pre suf, labelsOf [97, 46, 99, 111, 109] = pre ++ suf ∧
      ((suf = [] ∧ readBytes
          (wr (wr (wr (memcpy (memcpy (fun _ => 0) 100 [3, 99, 111, 109, 0]) 111 [97]) 110 1)
            112 192) 113 0) 110 4 = encodeLabels pre ++ [0]) ∨
       (suf ≠ [] ∧ ∃ off : Nat, off < 16384 ∧
          readBytes
            (wr (wr (wr (memcpy (memcpy (fun _ => 0) 100 [3, 99, 111, 109, 0]) 111 [97]) 110 1)
              112 192) 113 0) 110 4
            = encodeLabels pre ++ [0xc0 ||| (off >>> 8), off % 256] ∧
          ∃ mo, getoffs (memcpy (fun _ => 0) 100 [3, 99, 111, 109, 0]) 100 5 (100 + off) []
              = .ok mo ∧
            mo.map (labelAt (memcpy (fun _ => 0) 100 [3, 99, 111, 109, 0]) 100) = suf)) :=
  C2_compression_preserves_name 5 (memcpy (fun _ => 0) 100 [3, 99, 111, 109, 0])
    [97, 46, 99, 111, 109] 110 10 (some [100, 100, 0]) none
    ⟨4, wr (wr (wr (memcpy (memcpy (fun _ => 0) 100 [3, 99, 111, 109, 0]) 111 [97]) 110 1)
      112 192) 113 0, some [100, 100, 0]⟩ rfl (by decide) (by decide)

theorem addTail_pointer (m : Mem) (dst i bl : Nat) (bo : Int) (h : bl ≠ 0) :
    (addTail m dst i bl bo).2 (dst + i) = ((Int.lor 0xc0 (bo >>> 8)) % 256).toNat ∧
      (addTail m dst i bl bo).2 (dst + (i + 1)) = (bo % 256).toNat := by
  unfold addTail
  rw [if_pos h]
  simp only []
  rw [wr_same, wr_other _ _ _ _ (by omega), wr_same]
  exact ⟨rfl, rfl⟩

theorem labelStarts_succ (mem : Mem) (base fuel s : Nat) :
    labelStarts mem base (fuel + 1) s =
      if mem s &&& 0xc0 ≠ 0 then
        if mem s &&& 0xc0 ≠ 0xc0 then .ok []
        else labelStarts mem base fuel (base + ((mem s &&& 0x3f) <<< 8 ||| mem (s + 1)))
      else if mem s = 0 then .ok []
      else
        match labelStarts mem base fuel (s + (mem s + 1)) with
        | .ok t => .ok (((s : Int) - (base : Int)) :: t)
        | .fault => .fault
        | .timeout => .timeout :=
  rfl

/-- A walk that meets a label start at offset `0x4000` or beyond reports failure. -/
theorem getoffs_far (mem : Mem) (base : Nat) : ∀ (fuel s : Nat) (acc starts : List Int),
    labelStarts mem base fuel s = .ok starts → (∃ o ∈ starts, (16384 : Int) ≤ o) →
    acc.length + starts.length ≤ 128 → getoffs mem base fuel s acc = .ok [] := by
  intro fuel
  induction fuel with
  | zero => intro s acc starts h; simp [labelStarts] at h
  | succ fuel ih =>
    intro s acc starts h hbig hlen
    rw [labelStarts_succ] at h
    rw [getoffs_succ]
    by_cases c1 : mem s &&& 0xc0 ≠ 0
    · rw [if_pos c1] at h ⊢
      by_cases c2 : mem s &&& 0xc0 ≠ 0xc0
      · rw [if_pos c2]
      · rw [if_neg c2] at h ⊢
        exact ih _ _ _ h hbig hlen
    · rw [if_neg c1] at h ⊢
      by_cases c3 : mem s = 0
      · rw [if_pos c3] at h
        cases h
        obtain ⟨o, ho, _⟩ := hbig
        simp at ho
      · rw [if_neg c3] at h ⊢
        by_cases c4 : (s : Int) - (base : Int) ≥ 0x4000
        · rw [if_pos c4]
        · rw [if_neg c4]
          cases ht : labelStarts mem base fuel (s + (mem s + 1)) with
          | fault => rw [ht] at h; cases h
          | timeout => rw [ht] at h; cases h
          | ok t =>
            rw [ht] at h
            cases h
            simp only [List.length_cons] at hlen
            rw [if_neg (by omega)]
            apply ih _ _ _ ht
            · obtain ⟨o, ho, hb⟩ := hbig
              rcases List.mem_cons.mp ho with h1 | h1
              · subst h1; omega
              · exact ⟨o, h1, hb⟩
            · simp; omega

/-- A walk that meets a label start at offset `0x4000` or beyond never reports offsets. -/
theorem getoffs_far_ok (mem : Mem) (base : Nat) : ∀ (fuel s : Nat) (acc starts r : List Int),
    labelStarts mem base fuel s = .ok starts → (∃ o ∈ starts, (16384 : Int) ≤ o) →
    getoffs mem base fuel s acc = .ok r → r = [] := by
  intro fuel
  induction fuel with
  | zero => intro s acc starts r h; simp [labelStarts] at h
  | succ fuel ih =>
    intro s acc starts r h hbig hg
    rw [labelStarts_succ] at h
    rw [getoffs_succ] at hg
    by_cases c1 : mem s &&& 0xc0 ≠ 0
    · rw [if_pos c1] at h hg
      by_cases c2 : mem s &&& 0xc0 ≠ 0xc0
      · rw [if_pos c2] at hg; exact (Res.ok.inj hg).symm
      · rw [if_neg c2] at h hg
        exact ih _ _ _ _ h hbig hg
    · rw [if_neg c1] at h hg
      by_cases c3 : mem s = 0
      · rw [if_pos c3] at h
        cases h
        obtain ⟨o, ho, _⟩ := hbig
        simp at ho
      · rw [if_neg c3] at h hg
        by_cases c4 : (s : Int) - (base : Int) ≥ 0x4000
        · rw [if_pos c4] at hg; exact (Res.ok.inj hg).symm
        · rw [if_neg c4] at hg
          cases ht : labelStarts mem base fuel (s + (mem s + 1)) with
          | fault => rw [ht] at h; cases h
          | timeout => rw [ht] at h; cases h
          | ok t =>
            rw [ht] at h
            cases h
            by_cases c5 : 128 ≤ acc.length
            · rw [if_pos c5] at hg; cases hg
            · rw [if_neg c5] at hg
              apply ih _ _ _ _ ht _ hg
              obtain ⟨o, ho, hb⟩ := hbig
              rcases List.mem_cons.mp ho with h1 | h1
              · subst h1; omega
              · exact ⟨o, h1, hb⟩

/-- C6: when `dn_comp` returns a length for a non-root name, its matching phase ended with
`bestlen ≠ 0` (the output ends in a pointer) and every candidate lies at or after the base, then
`0 ≤ bestoff < 16384`, the first of the last two output bytes has its top two bits set, and the
14 bits the two bytes encode are `bestoff`. For a candidate one of whose label starts lies at an
offset of 16384 or more, `match` never returns anything but 0 with `*offset` untouched, and it
does return that when the candidate has at most 128 labels: the candidate contributes no
match. -/
theorem C6_pointer_offset_bound (fuel : Nat) (mem : Mem) :
    (∀ (src : List Nat) (dst : Nat) (space : Int) (dnptrs : Option (List Nat))
      (lastdnptr : Option Nat) (out : Out) (p bl : Nat) (bo : Int),
      dn_comp fuel mem src dst space dnptrs lastdnptr = .ok out → out.ret ≠ -1 →
      nameLen src ≠ 0 →
      bestMatch fuel mem (effective src) (nameLen src)
        ((splitDots (effective src)).map List.length) dnptrs = .ok (p, bl, bo) →
      bl ≠ 0 → EntriesAfterBase dnptrs →
      2 ≤ out.ret ∧ 0 ≤ bo ∧ bo < 16384 ∧
        out.mem (dst + (out.ret.toNat - 2)) &&& 0xc0 = 0xc0 ∧
        ((((out.mem (dst + (out.ret.toNat - 2)) &&& 0x3f) <<< 8
          ||| out.mem (dst + (out.ret.toNat - 1)) : Nat)) : Int) = bo) ∧
    (∀ (base dn : Nat) (starts : List Int) (e : List Nat) (l : Nat) (lens : List Nat)
      (offset : Int),
      labelStarts mem base fuel dn = .ok starts → (∃ o ∈ starts, (16384 : Int) ≤ o) →
      (∀ m off2, match_ fuel mem base dn e l lens offset = .ok (m, off2) →
        m = 0 ∧ off2 = offset) ∧
      (starts.length ≤ 128 → match_ fuel mem base dn e l lens offset = .ok (0, offset))) := by
  constructor
  · intro src dst space dnptrs lastdnptr out p bl bo h hret hl hbm hbl hge
    rcases dn_comp_shape fuel mem src dst space dnptrs lastdnptr out h with
      h1 | ⟨h0, _, _⟩ | ⟨hpos, hb, hsp, hv, pre, suf, p2, bo2, m2, hbest, hbm2, hcap, hrd, hfr, hfin, _⟩
    · subst h1; exact absurd rfl hret
    · exact absurd h0 hl
    · rw [hbm] at hbm2
      have hinj := Res.ok.inj hbm2
      have e1 : bl = matchedLen pre suf := (Prod.mk.inj (Prod.mk.inj hinj).2).1
      have e2 : bo = bo2 := (Prod.mk.inj (Prod.mk.inj hinj).2).2
      subst e2
      have hvs : ∀ c ∈ suf, 1 ≤ c.length := fun c hc => (hv c (by rw [hbest.1]; simp [hc])).1
      have hs : suf ≠ [] := by
        intro hs
        apply hbl
        rw [e1, hs, matchedLen_nil]
      obtain ⟨hret2, hmem⟩ := finish_ret_mem _ _ _ _ _ _ _ hfin
      obtain ⟨htn, _, _⟩ := finish_bytes m2 dst p2 dnptrs lastdnptr out pre suf bo hvs hrd hfin
      rw [if_neg hs] at htn
      obtain ⟨b0, b1, _⟩ := bestOf_offset fuel mem _ dnptrs pre suf _ bo hbest hge hs
      have hcast : ((bo.toNat : Nat) : Int) = bo := Int.toNat_of_nonneg b0
      obtain ⟨q1, q2⟩ := addTail_pointer m2 dst (encodeLabels pre).length (matchedLen pre suf) bo
        (by rw [← e1]; exact hbl)
      have hpb := pointerBytes_nat bo.toNat (by omega)
      rw [hcast] at hpb
      unfold pointerBytes at hpb
      have hhi := (List.cons.inj hpb).1
      have hlo := (List.cons.inj (List.cons.inj hpb).2).1
      have ea : dst + (out.ret.toNat - 2) = dst + (encodeLabels pre).length := by omega
      have eb : dst + (out.ret.toNat - 1) = dst + ((encodeLabels pre).length + 1) := by omega
      obtain ⟨d1, d2⟩ := pointer_decode bo.toNat (by omega)
      rw [ea, eb, hmem, q1, q2, hhi, hlo]
      refine ⟨by omega, b0, b1, d1, ?_⟩
      rw [d2, hcast]
  · intro base dn starts e l lens offset hst hbig
    constructor
    · intro m off2 hm
      unfold match_ at hm
      cases hg : getoffs mem base fuel dn [] with
      | fault => rw [hg] at hm; cases hm
      | timeout => rw [hg] at hm; cases hm
      | ok r =>
        rw [hg] at hm
        have hr := getoffs_far_ok mem base fuel dn [] starts r hst hbig hg
        subst hr
        simp only [List.length_nil, if_true] at hm
        cases hm
        exact ⟨rfl, rfl⟩
    · intro hlen
      unfold match_
      rw [getoffs_far mem base fuel dn [] starts hst hbig (by simpa using hlen)]
      simp

/-- C6 at the name `a.com` against a message holding `com` at its base: the pointer bytes are
`0xC0 0x00` and `bestoff` is 0. -/
theorem C6_pointer_offset_bound_witness :
    (2 : Int) ≤ 4 ∧ (0 : Int) ≤ 0 ∧ (0 : Int) < 16384 ∧
      (wr (wr (wr (memcpy (memcpy (fun _ => 0) 100 [3, 99, 111, 109, 0]) 111 [97]) 110 1)
        112 192) 113 0) (110 + (4 - 2)) &&& 0xc0 = 0xc0 ∧
      (((((wr (wr (wr (memcpy (memcpy (fun _ => 0) 100 [3, 99, 111, 109, 0]) 111 [97]) 110 1)
          112 192) 113 0) (110 + (4 - 2)) &&& 0x3f) <<< 8
        ||| (wr (wr (wr (memcpy (memcpy (fun _ => 0) 100 [3, 99, 111, 109, 0]) 111 [97]) 110 1)
          112 192) 113 0) (110 + (4 - 1)) : Nat)) : Int) = 0 :=
  (C6_pointer_offset_bound 5 (memcpy (fun _ => 0) 100 [3, 99, 111, 109, 0])).1
    [97, 46, 99, 111, 109] 110 10 (some [100, 100, 0]) none
    ⟨4, wr (wr (wr (memcpy (memcpy (fun _ => 0) 100 [3, 99, 111, 109, 0]) 111 [97]) 110 1)
      112 192) 113 0, some [100, 100, 0]⟩ 2 4 0 rfl (by decide) (by decide) rfl (by decide)
    (by decide)

/-! ## Matching against an uncompressed candidate -/

theorem startsOf_append (a b : List (List Nat)) : ∀ o,
    startsOf o (a ++ b) = startsOf o a ++ startsOf (o + (encodeLabels a).length) b := by
  induction a with
  | nil => intro o; simp [startsOf, encodeLabels]
  | cons x t ih =>
    intro o
    have e : o + (x.length + 1) + (encodeLabels t).length
        = o + (encodeLabels (x :: t)).length := by
      rw [encodeLabels_cons, List.length_cons, List.length_append]; omega
    show (o : Int) :: startsOf (o + (x.length + 1)) (t ++ b) = _
    rw [ih, e]
    rfl

theorem startsOf_length (labs : List (List Nat)) : ∀ o, (startsOf o labs).length = labs.length := by
  induction labs with
  | nil => intro o; rfl
  | cons x t ih => intro o; simp [startsOf, ih]

theorem readBytes_take (m : Mem) (a n k : Nat) (l : List Nat) (h : readBytes m a n = l)
    (hk : k ≤ n) : readBytes m a k = l.take k := by
  have e : n = k + (n - k) := by omega
  rw [e, readBytes_add] at h
  rw [← h, List.take_left' (readBytes_length _ _ _)]

theorem readBytes_drop (m : Mem) (a n k : Nat) (l : List Nat) (h : readBytes m a n = l)
    (hk : k ≤ n) : readBytes m (a + k) (n - k) = l.drop k := by
  have e : n = k + (n - k) := by omega
  rw [e, readBytes_add] at h
  rw [← h, List.drop_left' (readBytes_length _ _ _)]

/-- The walk over an uncompressed name stored at `base + o`. -/
theorem getoffs_encoded (mem : Mem) (base : Nat) : ∀ (labs : List (List Nat)) (fuel o : Nat)
    (acc : List Int),
    ValidLabels labs →
    readBytes mem (base + o) ((encodeLabels labs).length + 1) = encodeLabels labs ++ [0] →
    (∀ s ∈ startsOf o labs, s < 16384) → labs.length < fuel → acc.length + labs.length ≤ 128 →
    getoffs mem base fuel (base + o) acc = .ok (acc ++ startsOf o labs) := by
  intro labs
  induction labs with
  | nil =>
    intro fuel o acc _ hrd _ hf _
    obtain ⟨f, rfl⟩ : ∃ f, fuel = f + 1 := ⟨fuel - 1, by simp at hf; omega⟩
    simp only [encodeLabels, List.length_nil, Nat.zero_add, readBytes, List.nil_append,
      List.cons.injEq, and_true] at hrd
    rw [getoffs_succ, hrd]
    simp [startsOf]
  | cons x t ih =>
    intro fuel o acc hv hrd hoff hf hacc
    obtain ⟨f, rfl⟩ : ∃ f, fuel = f + 1 := ⟨fuel - 1, by simp at hf; omega⟩
    have hx := hv x (by simp)
    have h0 := readBytes_take mem (base + o) _ 1 _ hrd (by omega)
    rw [encodeLabels_cons] at h0
    simp only [readBytes, List.cons_append, List.take_succ_cons, List.take_zero,
      List.cons.injEq, and_true] at h0
    have hrest := readBytes_drop mem (base + o) _ (x.length + 1) _ hrd
      (by rw [encodeLabels_cons]; simp; omega)
    rw [encodeLabels_cons] at hrest
    have e1 : (x.length :: (x ++ encodeLabels t) ++ [0]).drop (x.length + 1)
        = encodeLabels t ++ [0] := by
      simp
    have e2 : (x.length :: (x ++ encodeLabels t)).length + 1 - (x.length + 1)
        = (encodeLabels t).length + 1 := by
      simp; omega
    rw [e1, e2] at hrest
    have hs0 : ((o : Nat) : Int) < 16384 := hoff _ (by simp [startsOf])
    rw [getoffs_succ, h0, land_c0_of_le_63 _ hx.2]
    simp only [ne_eq, not_true_eq_false, if_false]
    rw [if_neg (by omega), if_neg (by push_cast; omega), if_neg (by simp at hacc; omega)]
    have e3 : ((base + o : Nat) : Int) - (base : Int) = (o : Int) := by push_cast; omega
    rw [e3, toShort_of_small _ (by omega) hs0]
    have e4 : base + o + (x.length + 1) = base + (o + (x.length + 1)) := by omega
    rw [e4] at hrest ⊢
    rw [ih f (o + (x.length + 1)) (acc ++ [(o : Int)]) (fun c hc => hv c (by simp [hc])) hrest
      (fun s hs => hoff s (by simp [startsOf, hs])) (by simp at hf; omega)
      (by simp at hacc ⊢; omega)]
    simp [startsOf]

theorem labelAt_encoded (mem : Mem) (base : Nat) : ∀ (labs : List (List Nat)) (o : Nat),
    readBytes mem (base + o) (encodeLabels labs).length = encodeLabels labs →
    (startsOf o labs).map (labelAt mem base) = labs := by
  intro labs
  induction labs with
  | nil => intro o _; rfl
  | cons x t ih =>
    intro o hrd
    have h0 := readBytes_take mem (base + o) _ (1 + x.length) _ hrd
      (by rw [encodeLabels_cons]; simp; omega)
    rw [encodeLabels_cons, readBytes_add] at h0
    have e0 : (x.length :: (x ++ encodeLabels t)).take (1 + x.length) = [x.length] ++ x := by
      rw [Nat.add_comm]; simp
    rw [e0] at h0
    have h1 := List.append_inj h0 (by rw [readBytes_length]; rfl)
    have hb : mem (base + o) = x.length := by
      have := h1.1
      simpa [readBytes] using this
    have hrest := readBytes_drop mem (base + o) _ (x.length + 1) _ hrd
      (by rw [encodeLabels_cons]; simp)
    rw [encodeLabels_cons] at hrest
    have e1 : (x.length :: (x ++ encodeLabels t)).drop (x.length + 1) = encodeLabels t := by simp
    have e2 : (x.length :: (x ++ encodeLabels t)).length - (x.length + 1)
        = (encodeLabels t).length := by
      simp
    have e4 : base + o + (x.length + 1) = base + (o + (x.length + 1)) := by omega
    rw [e1, e2, e4] at hrest
    simp only [startsOf, List.map_cons, ih _ hrest, List.cons.injEq, and_true]
    unfold labelAt
    have e5 : ((base : Int) + (o : Int)).toNat = base + o := by omega
    rw [e5, hb]
    exact h1.2

theorem matchCount_append (mem : Mem) (base : Nat) (b : List (List Nat)) (ob : List Int) :
    ∀ (a : List (List Nat)) (oa : List Int), oa.map (labelAt mem base) = a →
    matchCount mem base (a ++ b) (oa ++ ob) = a.length + matchCount mem base b ob := by
  intro a
  induction a with
  | nil =>
    intro oa h
    have : oa = [] := by simpa using h
    subst this
    simp
  | cons x t ih =>
    intro oa h
    cases oa with
    | nil => simp at h
    | cons o os =>
      simp only [List.map_cons, List.cons.injEq] at h
      rw [List.cons_append, List.cons_append, matchCount, if_pos h.1, ih os h.2,
        List.length_cons]
      omega

theorem matchCount_stop (mem : Mem) (base : Nat) (b : List (List Nat)) (ob : List Int)
    (h : b = [] ∨ ob = [] ∨ (ob.head?.map (labelAt mem base)) ≠ b.head?) :
    matchCount mem base b ob = 0 := by
  cases b with
  | nil => rfl
  | cons x t =>
    cases ob with
    | nil => rfl
    | cons o os =>
      rcases h with h | h | h
      · cases h
      · cases h
      · simp only [List.head?_cons, Option.map_some', ne_eq, Option.some.injEq] at h
        rw [matchCount, if_neg h]

/-- The result of `match` for a candidate stored uncompressed at `base + c` with labels
`cpre ++ shared`, against a name with labels `tpre ++ shared`, when the labels before `shared`
do not end alike: the match covers `shared` and `*offset` is the offset of its first label. -/
theorem match_candidate (fuel : Nat) (mem : Mem) (base c : Nat)
    (cpre tpre shared : List (List Nat)) (off0 : Int)
    (hv : ValidLabels (cpre ++ shared))
    (hmem : readBytes mem (base + c) ((encodeLabels (cpre ++ shared)).length + 1)
      = encodeLabels (cpre ++ shared) ++ [0])
    (hoff : ∀ s ∈ startsOf c (cpre ++ shared), s < 16384)
    (hfuel : (cpre ++ shared).length < fuel) (hcount : (cpre ++ shared).length ≤ 128)
    (hshared : shared ≠ [])
    (hdiff : tpre = [] ∨ cpre = [] ∨ cpre.getLast? ≠ tpre.getLast?) :
    match_ fuel mem base (base + c) (joinDots (tpre ++ shared)) (joinDots (tpre ++ shared)).length
      ((tpre ++ shared).map List.length) off0
      = .ok (matchedLen tpre shared, ((c + (encodeLabels cpre).length : Nat) : Int)) := by
  have hg := getoffs_encoded mem base (cpre ++ shared) fuel c [] hv hmem hoff hfuel
    (by simpa using hcount)
  have hne : cpre ++ shared ≠ [] := fun hh => hshared (List.append_eq_nil.mp hh).2
  have hsl := startsOf_length (cpre ++ shared) c
  unfold match_
  rw [hg]
  simp only [List.nil_append]
  rw [if_neg (by rw [hsl]; exact fun hh => hne (List.length_eq_zero.mp hh))]
  have hml := matchLoop_eq mem base (tpre ++ shared).reverse (startsOf c (cpre ++ shared)).reverse
    [] 0 off0 (by simp [hshared]) (by
      intro hh
      have := congrArg List.length hh
      simp only [List.length_reverse, hsl, List.length_nil] at this
      exact hne (List.length_eq_zero.mp this))
  rw [List.reverse_reverse, List.append_nil, List.map_reverse] at hml
  rw [hml]
  have hrd2 := readBytes_take mem (base + c) _ (encodeLabels (cpre ++ shared)).length _ hmem
    (by omega)
  rw [List.take_left] at hrd2
  have hlab := labelAt_encoded mem base (cpre ++ shared) c hrd2
  rw [startsOf_append, List.map_append] at hlab
  have hl2 := List.append_inj hlab (by rw [List.length_map, startsOf_length])
  -- the count of matched labels
  have hcnt : matchCount mem base (tpre ++ shared).reverse (startsOf c (cpre ++ shared)).reverse
      = shared.length := by
    rw [startsOf_append, List.reverse_append, List.reverse_append,
      matchCount_append mem base _ _ shared.reverse _ (by rw [List.map_reverse, hl2.2]),
      List.length_reverse]
    rw [matchCount_stop, Nat.add_zero]
    rcases hdiff with h | h | h
    · left; simp [h]
    · right; left; simp [h, startsOf]
    · right; right
      rw [List.head?_reverse, List.head?_reverse, ← List.getLast?_map, hl2.1]
      exact h
  have h1 := matchLabels_fst mem base (tpre ++ shared).reverse
    (startsOf c (cpre ++ shared)).reverse 0 off0
  have h2 := matchLabels_snd mem base (tpre ++ shared).reverse
    (startsOf c (cpre ++ shared)).reverse 0 off0
  rw [hcnt] at h1 h2
  have e1 : ((tpre ++ shared).reverse.drop shared.length).reverse = tpre := by
    rw [List.reverse_append, ← List.length_reverse shared, List.drop_left, List.reverse_reverse]
  have e2 : ((tpre ++ shared).reverse.take shared.length).reverse = shared := by
    rw [List.reverse_append, ← List.length_reverse shared, List.take_left, List.reverse_reverse]
  have e3 : ((startsOf c (cpre ++ shared)).reverse.take shared.length).getLast?
      = some ((c + (encodeLabels cpre).length : Nat) : Int) := by
    rw [startsOf_append, List.reverse_append]
    have : shared.length = (startsOf (c + (encodeLabels cpre).length) shared).reverse.length := by
      rw [List.length_reverse, startsOf_length]
    rw [this, List.take_left, List.getLast?_reverse]
    cases shared with
    | nil => exact absurd rfl hshared
    | cons x t => rfl
  rw [e1, e2, Nat.zero_add] at h1
  rw [e3] at h2
  simp only [Option.getD_some] at h2
  rw [← h1, ← h2]

/-! ## A registry with one candidate -/

theorem finish_total (i : Nat) (m : Mem) (dst p : Nat) (dnptrs : Option (List Nat))
    (lastdnptr : Option Nat) (hlim : LimitInside dnptrs lastdnptr)
    (hp : ∀ b es, dnptrs = some (b :: es) → b ≠ 0 → ∃ k, findNull ((b :: es).drop p) p = some k ∧
      k < (b :: es).length) :
    ∃ out, finish i m dst p dnptrs lastdnptr = .ok out := by
  unfold finish
  split
  · rename_i b es cap
    by_cases h : i > 2 ∧ b ≠ 0
    · rw [if_pos h]
      obtain ⟨k, hk, hkl⟩ := hp b es rfl h.2
      unfold save
      rw [hk]
      simp only []
      have hc := hlim (b :: es) cap rfl rfl
      by_cases h2 : k + 1 < cap
      · rw [if_pos h2, if_pos (by omega)]
        exact ⟨_, rfl⟩
      · rw [if_neg h2]
        exact ⟨_, rfl⟩
    · rw [if_neg h]
      exact ⟨_, rfl⟩
  · exact ⟨_, rfl⟩

theorem encodeLabels_length_sum (labs : List (List Nat)) :
    (encodeLabels labs).length = (labs.map List.length).sum + labs.length := by
  induction labs with
  | nil => rfl
  | cons x t ih =>
    rw [encodeLabels_cons]
    simp only [List.length_cons, List.length_append, ih, List.map_cons, List.sum_cons]
    omega

theorem labels_count_le (labs : List (List Nat)) (hv : ∀ c ∈ labs, 1 ≤ c.length) :
    2 * labs.length ≤ (encodeLabels labs).length := by
  induction labs with
  | nil => simp
  | cons x t ih =>
    have := ih (fun c hc => hv c (by simp [hc]))
    have hx := hv x (by simp)
    rw [encodeLabels_cons]
    simp only [List.length_cons, List.length_append]
    omega

theorem matchedLen_pos (pre suf : List (List Nat)) (hs : suf ≠ [])
    (hv : ∀ c ∈ suf, 1 ≤ c.length) : 0 < matchedLen pre suf := by
  have := matchedLen_eq_zero_iff pre suf hv
  by_contra hh
  exact hs (this.mp (by omega))

/-- The matching phase against a registry `[base, base+c, NULL, ...]` whose candidate is stored
uncompressed. -/
theorem bestMatch_one_candidate (fuel : Nat) (mem : Mem) (base c : Nat)
    (cpre tpre shared : List (List Nat)) (rest : List Nat)
    (hbase : base ≠ 0)
    (hvt : ValidLabels (tpre ++ shared))
    (hv : ValidLabels (cpre ++ shared))
    (hmem : readBytes mem (base + c) ((encodeLabels (cpre ++ shared)).length + 1)
      = encodeLabels (cpre ++ shared) ++ [0])
    (hoff : ∀ s ∈ startsOf c (cpre ++ shared), s < 16384)
    (hfuel : (cpre ++ shared).length < fuel) (hcount : (cpre ++ shared).length ≤ 128)
    (hshared : shared ≠ [])
    (hdiff : tpre = [] ∨ cpre = [] ∨ cpre.getLast? ≠ tpre.getLast?) :
    bestMatch fuel mem (joinDots (tpre ++ shared)) (joinDots (tpre ++ shared)).length
      ((tpre ++ shared).map List.length) (some (base :: (base + c) :: 0 :: rest))
      = .ok (if tpre = [] then 1 else 2, matchedLen tpre shared,
          ((c + (encodeLabels cpre).length : Nat) : Int)) := by
  have hm := match_candidate fuel mem base c cpre tpre shared 0 hv hmem hoff hfuel hcount hshared
    hdiff
  have hvs : ∀ c ∈ shared, 1 ≤ c.length := fun c hc => (hvt c (by simp [hc])).1
  have hpos := matchedLen_pos tpre shared hshared hvs
  unfold bestMatch
  simp only []
  rw [if_neg hbase, scan, if_neg (by omega), hm]
  simp only []
  rw [if_pos hpos]
  by_cases ht : tpre = []
  · subst ht
    have e : matchedLen [] shared = (joinDots ([] ++ shared)).length := by
      simp [matchedLen, hshared]
    rw [if_pos e, if_pos rfl]
  · have hlt : matchedLen tpre shared < (joinDots (tpre ++ shared)).length := by
      have h1 := joinDots_length_append tpre shared ht hshared
      have h2 := joinDots_length_pos tpre ht (fun c hc => (hvt c (by simp [hc])).1)
      simp only [matchedLen, hshared, ht, if_false]
      omega
    rw [if_neg (by omega), scan, if_pos rfl, if_neg ht]

/-- C4: let the name have the valid labels `tpre ++ shared` with `tpre` and `shared` non-empty,
and let the registry `[base, base+c, NULL, ...]` hold one candidate, stored uncompressed at offset
`c` with the valid labels `cpre ++ shared` (label starts below `0x4000`), where `cpre` is empty or
ends in a label other than the last label of `tpre`. With enough space `dn_comp` returns
`sum of the lengths of tpre + number of labels of tpre + 2` and writes the labels `tpre`
length-prefixed followed by the pointer to offset `c + |encoding of cpre|`, the offset of the
candidate's label that starts `shared`. -/
theorem C4_longest_suffix_pointer (fuel : Nat) (mem : Mem) (src : List Nat) (dst : Nat)
    (space : Int) (base c : Nat) (rest : List Nat) (lastdnptr : Option Nat)
    (tpre cpre shared : List (List Nat))
    (hpos : 1 ≤ nameLen src) (hb : nameLen src ≤ 253)
    (hsplit : splitDots (effective src) = tpre ++ shared)
    (hvt : ValidLabels (tpre ++ shared)) (htpre : tpre ≠ []) (hshared : shared ≠ [])
    (hbase : base ≠ 0) (hvc : ValidLabels (cpre ++ shared))
    (hmem : readBytes mem (base + c) ((encodeLabels (cpre ++ shared)).length + 1)
      = encodeLabels (cpre ++ shared) ++ [0])
    (hoff : ∀ s ∈ startsOf c (cpre ++ shared), s < 16384)
    (hfuel : (cpre ++ shared).length < fuel) (hcount : (cpre ++ shared).length ≤ 128)
    (hdiff : cpre = [] ∨ cpre.getLast? ≠ tpre.getLast?)
    (hsp : ((encodeLabels tpre).length : Int) + 2 ≤ space)
    (hlim : LimitInside (some (base :: (base + c) :: 0 :: rest)) lastdnptr) :
    ∃ out, dn_comp fuel mem src dst space (some (base :: (base + c) :: 0 :: rest)) lastdnptr
        = .ok out ∧
      out.ret = (((tpre.map List.length).sum + tpre.length + 2 : Nat) : Int) ∧
      c + (encodeLabels cpre).length < 16384 ∧
      readBytes out.mem dst ((tpre.map List.length).sum + tpre.length + 2)
        = encodeLabels tpre ++ [0xc0 ||| ((c + (encodeLabels cpre).length) >>> 8),
            (c + (encodeLabels cpre).length) % 256] := by
  unfold effective at hsplit
  have hj : joinDots (tpre ++ shared) = src.take (nameLen src) := by
    rw [← hsplit, joinDots_splitDots]
  have hl : (joinDots (tpre ++ shared)).length = nameLen src := by
    rw [hj, take_nameLen_length]
  have hbm := bestMatch_one_candidate fuel mem base c cpre tpre shared rest hbase hvt hvc hmem
    hoff hfuel hcount hshared (Or.inr hdiff)
  rw [hj, take_nameLen_length, if_neg htpre] at hbm
  obtain ⟨m2, hrd, hfr, hdn⟩ := dn_comp_fwd fuel mem src dst space
    (some (base :: (base + c) :: 0 :: rest)) lastdnptr tpre shared 2 _ (by omega) hb
    (by omega) hsplit hvt hbm
  rw [if_neg (by rw [if_neg hshared]; omega)] at hdn
  obtain ⟨out, hfin⟩ := finish_total
    (addTail m2 dst (encodeLabels tpre).length (matchedLen tpre shared)
      ((c + (encodeLabels cpre).length : Nat) : Int)).1
    (addTail m2 dst (encodeLabels tpre).length (matchedLen tpre shared)
      ((c + (encodeLabels cpre).length : Nat) : Int)).2
    dst 2 (some (base :: (base + c) :: 0 :: rest)) lastdnptr hlim
    (by
      intro b es hh _
      cases hh
      exact ⟨2, by simp [findNull], by simp⟩)
  have hvs : ∀ x ∈ shared, 1 ≤ x.length := fun x hx => (hvt x (by simp [hx])).1
  obtain ⟨htn, hret, hbytes⟩ := finish_bytes m2 dst 2 _ lastdnptr out tpre shared _ hvs hrd hfin
  rw [if_neg hshared] at htn hret hbytes
  have hstart : ((c + (encodeLabels cpre).length : Nat) : Int) < 16384 := by
    apply hoff
    rw [startsOf_append]
    cases shared with
    | nil => exact absurd rfl hshared
    | cons x t => simp [startsOf]
  have hlt : c + (encodeLabels cpre).length < 16384 := by omega
  have hsum := encodeLabels_length_sum tpre
  refine ⟨out, by rw [hdn, hfin], by rw [hret, hsum], hlt, ?_⟩
  rw [← hsum, ← htn, hbytes, pointerBytes_nat _ hlt]

/-- C4 at the name `a.example.com` against `b.example.com` registered at offset 12: the output is
the label `a` and a pointer to offset 14, where the label `example` starts, not to offset 12. -/
theorem C4_longest_suffix_pointer_witness :
    ∃ out, dn_comp 4
        (memcpy (fun _ => 0) 112 [1, 98, 7, 101, 120, 97, 109, 112, 108, 101, 3, 99, 111, 109, 0])
        [97, 46, 101, 120, 97, 109, 112, 108, 101, 46, 99, 111, 109] 200 4
        (some [100, 100 + 12, 0]) (some 3) = .ok out ∧
      out.ret = 4 ∧ 12 + 2 < 16384 ∧
      readBytes out.mem 200 4 = [1, 97] ++ [0xc0 ||| ((12 + 2) >>> 8), (12 + 2) % 256] :=
  C4_longest_suffix_pointer 4
    (memcpy (fun _ => 0) 112 [1, 98, 7, 101, 120, 97, 109, 112, 108, 101, 3, 99, 111, 109, 0])
    [97, 46, 101, 120, 97, 109, 112, 108, 101, 46, 99, 111, 109] 200 4 100 12 [] (some 3)
    [[97]] [[98]] [[101, 120, 97, 109, 112, 108, 101], [99, 111, 109]]
    (by decide) (by decide) (by decide) (by decide) (by decide) (by decide) (by decide)
    (by decide) (by decide) (by decide) (by decide) (by decide) (Or.inr (by decide)) (by decide)
    (fun arr cap h1 h2 => by cases h1; cases h2; decide)

/-- C3: let `N` be a valid name of effective length `l` (`1 ≤ l ≤ 253`, labels of 1 to 63 bytes).
A first call of `dn_comp` with the registry `[base, NULL, ...]` (at least 3 slots, limit at least
3) encodes `N` at `base+o`, all label starts being below `0x4000`, and turns the registry into
`[base, base+o, NULL, ...]`. A second call for `N` with that registry and `space ≥ 2` then finds
`bestlen = l` and `bestoff = o`, returns 2, writes exactly the bytes `0xC0|(o>>8)` and `o&0xFF`,
and leaves the registry as it is. -/
theorem C3_same_name_twice (fuel : Nat) (mem : Mem) (src : List Nat) (base o z : Nat)
    (rest : List Nat) (cap : Nat) (space1 : Int) (dst2 : Nat) (space2 : Int)
    (hpos : 1 ≤ nameLen src) (hb : nameLen src ≤ 253)
    (hv : ValidLabels (splitDots (effective src)))
    (hbase : base ≠ 0) (hcap : 3 ≤ cap) (hlim : cap ≤ (base :: 0 :: z :: rest).length)
    (hoff : ∀ s ∈ startsOf o (splitDots (effective src)), s < 16384)
    (hsp1 : (nameLen src : Int) + 2 ≤ space1) (hsp2 : 2 ≤ space2)
    (hfuel : (splitDots (effective src)).length < fuel) :
    ∃ out1, dn_comp fuel mem src (base + o) space1 (some (base :: 0 :: z :: rest)) (some cap)
        = .ok out1 ∧
      out1.ret = (nameLen src : Int) + 2 ∧
      out1.dnptrs = some (base :: (base + o) :: 0 :: rest) ∧
      bestMatch fuel out1.mem (effective src) (nameLen src)
        ((splitDots (effective src)).map List.length) out1.dnptrs
          = .ok (1, nameLen src, (o : Int)) ∧
      ∃ out2, dn_comp fuel out1.mem src dst2 space2 out1.dnptrs (some cap) = .ok out2 ∧
        out2.ret = 2 ∧
        readBytes out2.mem dst2 2 = [0xc0 ||| (o >>> 8), o &&& 0xff] ∧
        (∀ x, (x < dst2 ∨ dst2 + 2 ≤ x) → out2.mem x = out1.mem x) ∧
        out2.dnptrs = out1.dnptrs := by
  unfold effective at hv hoff hfuel ⊢
  have hne := splitDots_ne_nil (src.take (nameLen src))
  have hj := joinDots_splitDots (src.take (nameLen src))
  have hjl : (joinDots (splitDots (src.take (nameLen src)))).length = nameLen src := by
    rw [hj, take_nameLen_length]
  have henc := encodeLabels_length _ hne
  rw [hjl] at henc
  have hv1 : ∀ c ∈ splitDots (src.take (nameLen src)), 1 ≤ c.length := fun c hc => (hv c hc).1
  -- first call
  obtain ⟨p, hbm, _⟩ := bestMatch_noCandidates fuel mem (src.take (nameLen src)) (nameLen src)
    ((splitDots (src.take (nameLen src))).map List.length) (some (base :: 0 :: z :: rest))
    (Or.inr (Or.inr ⟨base, z :: rest, hbase, rfl⟩))
  have hp1 : p = 1 := by
    simp only [bestMatch, if_neg hbase, scan, if_true] at hbm
    exact ((Prod.mk.inj (Res.ok.inj hbm)).1).symm
  subst hp1
  obtain ⟨m2, hrd, _, hdn⟩ := dn_comp_fwd fuel mem src (base + o) space1
    (some (base :: 0 :: z :: rest)) (some cap)
    (splitDots (src.take (nameLen src))) [] 1 0 (by omega) hb (by omega) (by simp)
    (by simpa using hv) (by simpa [matchedLen] using hbm)
  rw [if_neg (by rw [if_pos rfl]; omega)] at hdn
  have hfind : ∀ b es, some (base :: 0 :: z :: rest) = some (b :: es) → b ≠ 0 →
      findNull ((b :: es).drop 1) 1 = findNull (b :: es) 0 := by
    intro b es hh hb0
    cases hh
    simp [findNull, hbase]
  obtain ⟨out1, hfin⟩ := finish_total
    (addTail m2 (base + o) (encodeLabels (splitDots (src.take (nameLen src)))).length
      (matchedLen (splitDots (src.take (nameLen src))) []) 0).1
    (addTail m2 (base + o) (encodeLabels (splitDots (src.take (nameLen src)))).length
      (matchedLen (splitDots (src.take (nameLen src))) []) 0).2
    (base + o) 1 (some (base :: 0 :: z :: rest)) (some cap)
    (fun arr cap2 h1 h2 => by cases h1; cases h2; exact hlim)
    (by
      intro b es hh _
      cases hh
      exact ⟨1, by simp [findNull], by simp⟩)
  obtain ⟨htn, hret, hbytes⟩ := finish_bytes m2 (base + o) 1 _ (some cap) out1
    (splitDots (src.take (nameLen src))) [] 0 (by simp) hrd hfin
  rw [if_pos rfl] at htn hret hbytes
  have hreg := (finish_registry _ _ _ _ _ _ out1 hfind hfin).1 (base :: 0 :: z :: rest) cap 1
    rfl rfl (by simpa using hbase) (by simp [findNull, hbase])
    (by rw [addTail_fst]; split <;> omega) (by omega)
  have hreg2 : out1.dnptrs = some (base :: (base + o) :: 0 :: rest) := by
    rw [hreg.2]; rfl
  -- the encoding sits at `base + o`
  have hmem1 : readBytes out1.mem (base + o)
      ((encodeLabels ([] ++ splitDots (src.take (nameLen src)))).length + 1)
      = encodeLabels ([] ++ splitDots (src.take (nameLen src))) ++ [0] := by
    rw [List.nil_append, ← htn]
    exact hbytes
  have hcount : ([] ++ splitDots (src.take (nameLen src))).length ≤ 128 := by
    have := labels_count_le _ hv1
    rw [List.nil_append]
    omega
  -- second call
  have hbm2 := bestMatch_one_candidate fuel out1.mem base o [] [] (splitDots (src.take (nameLen src)))
    rest hbase (by simpa using hv) (by simpa using hv) hmem1 (by simpa using hoff)
    (by simpa using hfuel) hcount hne (Or.inl rfl)
  rw [List.nil_append, hj, take_nameLen_length, if_pos rfl] at hbm2
  have hbm2 : bestMatch fuel out1.mem (src.take (nameLen src)) (nameLen src)
      ((splitDots (src.take (nameLen src))).map List.length)
      (some (base :: (base + o) :: 0 :: rest))
      = .ok (1, matchedLen [] (splitDots (src.take (nameLen src))), (o : Int)) := hbm2
  have hml : matchedLen [] (splitDots (src.take (nameLen src))) = nameLen src := by
    simp [matchedLen, hne, hjl]
  obtain ⟨m3, _, hfr3, hdn2⟩ := dn_comp_fwd fuel out1.mem src dst2 space2
    (some (base :: (base + o) :: 0 :: rest)) (some cap)
    [] (splitDots (src.take (nameLen src))) 1 _ (by omega) hb (by omega) (by simp)
    hv hbm2
  rw [if_neg (by rw [if_neg hne]; simp [encodeLabels]; omega)] at hdn2
  simp only [encodeLabels, List.length_nil, Nat.add_zero] at hbm2 hdn2 hfr3
  have hfin2 : finish
      (addTail m3 dst2 0 (matchedLen [] (splitDots (src.take (nameLen src)))) (o : Int)).1
      (addTail m3 dst2 0 (matchedLen [] (splitDots (src.take (nameLen src)))) (o : Int)).2
      dst2 1 (some (base :: (base + o) :: 0 :: rest)) (some cap)
      = .ok ⟨((addTail m3 dst2 0 (matchedLen [] (splitDots (src.take (nameLen src))))
          (o : Int)).1 : Nat),
        (addTail m3 dst2 0 (matchedLen [] (splitDots (src.take (nameLen src)))) (o : Int)).2,
        some (base :: (base + o) :: 0 :: rest)⟩ := by
    unfold finish
    simp only []
    rw [if_neg (by rw [addTail_fst, hml, if_neg (by omega)]; omega)]
  have hlt : o < 16384 := by
    have := hoff (o : Int) (by
      cases hs : splitDots (src.take (nameLen src)) with
      | nil => exact absurd hs hne
      | cons x t => simp [startsOf])
    omega
  have h255 : o &&& 0xff = o % 256 := Nat.and_pow_two_sub_one_eq_mod o 8
  refine ⟨out1, by rw [hdn, hfin], ?_, hreg2, ?_, ?_⟩
  · rw [hret, henc]; push_cast; omega
  · have hbm3 := hbm2
    rw [hml] at hbm3
    rw [hreg2]
    exact hbm3
  · refine ⟨_, by rw [hreg2, hdn2, hfin2], ?_, ?_, ?_, by rw [hreg2]⟩
    · simp only []
      rw [addTail_fst, hml, if_neg (by omega)]
      rfl
    · have hb2 := addTail_bytes m3 dst2 0 (matchedLen [] (splitDots (src.take (nameLen src))))
        (o : Int)
      rw [addTail_fst, hml, if_neg (by omega), if_neg (by omega)] at hb2
      simp only [readBytes, List.nil_append] at hb2
      rw [h255, ← pointerBytes_nat o hlt]
      simp only [readBytes]
      rw [hml]
      exact hb2
    · intro x hx
      simp only []
      rw [addTail_frame _ _ _ _ _ _ (by rw [addTail_fst, hml, if_neg (by omega)]; omega)]
      exact hfr3 x (by omega)

/-- C3 at the name `a.b`, encoded first at offset 12 of a message based at address 100 and then
again with two bytes of space at address 200. -/
theorem C3_same_name_twice_witness :
    ∃ out1, dn_comp 3 (fun _ => 0) [97, 46, 98] (100 + 12) 5 (some [100, 0, 0]) (some 3)
        = .ok out1 ∧
      out1.ret = (nameLen [97, 46, 98] : Int) + 2 ∧
      out1.dnptrs = some [100, 100 + 12, 0] ∧
      bestMatch 3 out1.mem (effective [97, 46, 98]) (nameLen [97, 46, 98])
        ((splitDots (effective [97, 46, 98])).map List.length) out1.dnptrs
          = .ok (1, nameLen [97, 46, 98], ((12 : Nat) : Int)) ∧
      ∃ out2, dn_comp 3 out1.mem [97, 46, 98] 200 2 out1.dnptrs (some 3) = .ok out2 ∧
        out2.ret = 2 ∧
        readBytes out2.mem 200 2 = [0xc0 ||| (12 >>> 8), 12 &&& 0xff] ∧
        (∀ x, (x < 200 ∨ 200 + 2 ≤ x) → out2.mem x = out1.mem x) ∧
        out2.dnptrs = out1.dnptrs :=
  C3_same_name_twice 3 (fun _ => 0) [97, 46, 98] 100 12 0 [] 3 5 200 2
    (by decide) (by decide) (by decide) (by decide) (by decide) (by decide) (by decide)
    (by decide) (by decide) (by decide)

/-! ## The label splitter -/

theorem splitDots_no_dot (s : List Nat) : ∀ c ∈ splitDots s, 46 ∉ c := by
  induction s with
  | nil => intro c hc; simp [splitDots] at hc; subst hc; simp
  | cons x xs ih =>
    intro c hc
    have hh : (splitDots xs).headD [] ∈ splitDots xs := by
      cases hs : splitDots xs with
      | nil => exact absurd hs (splitDots_ne_nil xs)
      | cons a t => simp
    have ht : ∀ y ∈ (splitDots xs).tail, y ∈ splitDots xs := by
      intro y hy
      cases hs : splitDots xs with
      | nil => exact absurd hs (splitDots_ne_nil xs)
      | cons a t => rw [hs] at hy; exact List.mem_cons_of_mem _ hy
    simp only [splitDots] at hc
    by_cases hx : x = 46
    · rw [if_pos hx] at hc
      rcases List.mem_cons.mp hc with h | h
      · subst h; simp
      · exact ih c h
    · rw [if_neg hx] at hc
      rcases List.mem_cons.mp hc with h | h
      · subst h
        intro hm
        rcases List.mem_cons.mp hm with h2 | h2
        · exact hx h2.symm
        · exact ih _ hh h2
      · exact ih c (ht c h)

theorem getlens_length_invariant (s : List Nat) (h : s.length ≤ 253) (lens : List Nat)
    (hg : getlens s 0 [] = .ok lens) (hne : lens ≠ []) :
    s.length + 1 = lens.sum + lens.length := by
  rw [getlens_spec s h] at hg
  have hg2 := Res.ok.inj hg
  by_cases hv : ValidLabels (splitDots s)
  · rw [if_pos hv] at hg2
    subst hg2
    have := sum_length_joinDots (splitDots s) (splitDots_ne_nil s)
    rw [joinDots_splitDots] at this
    rw [List.length_map]
    omega
  · rw [if_neg hv] at hg2
    exact absurd hg2.symm hne

theorem dotted_length (n : Nat) : (dotted n).length = 2 * n + 1 := by
  induction n with
  | zero => rfl
  | succ n ih => simp only [dotted, List.length_cons, ih]; omega

theorem getlens_dotted_fault : ∀ (n : Nat) (acc : List Nat), acc.length + n = 127 →
    getlens (dotted n) 0 acc = .fault := by
  intro n
  induction n with
  | zero =>
    intro acc h
    simp only [dotted, getlens]
    rw [if_pos (by decide), if_neg (by decide), if_pos (by omega)]
  | succ n ih =>
    intro acc h
    simp only [dotted, getlens]
    rw [if_pos (by decide), if_neg (by decide), if_neg (by decide), if_neg (by omega)]
    exact ih _ (by simp; omega)

/-- C18: for a byte string `s` of 1 to 253 bytes, split at its dots into components (which
joined by dots give back `s` and contain no dot), `getlens` returns 0 exactly when some component
is empty or longer than 63 bytes; otherwise it returns the lengths of the components in order,
one per component. -/
theorem C18_getlens_splits (s : List Nat) (_h1 : 1 ≤ s.length) (h2 : s.length ≤ 253) :
    joinDots (splitDots s) = s ∧ (∀ c ∈ splitDots s, 46 ∉ c) ∧
    (getlens s 0 [] = .ok [] ↔ ∃ c ∈ splitDots s, c.length = 0 ∨ 63 < c.length) ∧
    ((∀ c ∈ splitDots s, 1 ≤ c.length ∧ c.length ≤ 63) →
      getlens s 0 [] = .ok ((splitDots s).map List.length) ∧
      1 ≤ ((splitDots s).map List.length).length) := by
  have hne := splitDots_ne_nil s
  refine ⟨joinDots_splitDots s, splitDots_no_dot s, ?_, ?_⟩
  · rw [getlens_spec s h2]
    constructor
    · intro h
      by_contra hcon
      have hv : ValidLabels (splitDots s) := by
        intro c hc
        by_contra hbad
        exact hcon ⟨c, hc, by omega⟩
      rw [if_pos hv] at h
      have := Res.ok.inj h
      exact hne (List.map_eq_nil_iff.mp this)
    · rintro ⟨c, hc, hbad⟩
      rw [if_neg]
      intro hv
      have := hv c hc
      omega
  · intro hv
    have hv2 : ValidLabels (splitDots s) := hv
    rw [getlens_spec s h2, if_pos hv2]
    refine ⟨rfl, ?_⟩
    rw [List.length_map]
    exact Nat.one_le_iff_ne_zero.mpr (by simpa using hne)

/-- C18 at the string `a.bc`. -/
theorem C18_getlens_splits_witness :
    getlens [97, 46, 98, 99] 0 [] = .ok ((splitDots [97, 46, 98, 99]).map List.length) ∧
      1 ≤ ((splitDots [97, 46, 98, 99]).map List.length).length :=
  (C18_getlens_splits [97, 46, 98, 99] (by decide) (by decide)).2.2.2 (by decide)

/-- C19: on a byte string of at most 253 bytes `getlens` returns without touching `lens[127]` or
beyond (an attempt would end the run in a bounds fault) and returns at most 127 entries; on the
255-byte name of 128 one-letter labels, which the length check of `dn_comp` keeps away, it does
reach `lens[127]`. -/
theorem C19_getlens_bound (s : List Nat) (h : s.length ≤ 253) :
    (∃ lens, getlens s 0 [] = .ok lens ∧ lens.length ≤ 127) ∧
    ((dotted 127).length = 255 ∧ getlens (dotted 127) 0 [] = .fault) := by
  constructor
  · rw [getlens_spec s h]
    refine ⟨_, rfl, ?_⟩
    by_cases hv : ValidLabels (splitDots s)
    · rw [if_pos hv, List.length_map]
      have h1 := labels_count_le (splitDots s) (fun c hc => (hv c hc).1)
      have h2 := encodeLabels_length (splitDots s) (splitDots_ne_nil s)
      rw [joinDots_splitDots] at h2
      omega
    · rw [if_neg hv]; simp
  · exact ⟨dotted_length 127, getlens_dotted_fault 127 [] rfl⟩

/-- C19 at the string `a.b`. -/
theorem C19_getlens_bound_witness :
    ∃ lens, getlens [97, 46, 98] 0 [] = .ok lens ∧ lens.length ≤ 127 :=
  (C19_getlens_bound [97, 46, 98] (by decide)).1

/-- C20 evaluated at the names `a` and `a.b`: `getlens` succeeds with `n` lengths and
`l + 1 = sum(lens) + n`, so `l` is not `sum(lens) + n`. -/
theorem C20_length_invariant_off_by_one :
    (nameLen [97] = 1 ∧ getlens (effective [97]) 0 [] = .ok [1] ∧
      ([1] : List Nat).sum + ([1] : List Nat).length = 2) ∧
    (nameLen [97, 46, 98] = 3 ∧ getlens (effective [97, 46, 98]) 0 [] = .ok [1, 1] ∧
      ([1, 1] : List Nat).sum + ([1, 1] : List Nat).length = 4) :=
  ⟨⟨rfl, rfl, rfl⟩, ⟨rfl, rfl, rfl⟩⟩

/-! ## The capacity check -/

theorem need_eq_codeNeed (l bl : Nat) (h : bl ≤ l) (hl : l ≤ 253) (hpos : 0 < l) :
    ((need l bl : Nat) : Int) = codeNeed l bl := by
  unfold need codeNeed sub64
  by_cases h0 : bl = 0
  · subst h0
    rw [if_neg (by omega), if_neg (by omega)]
    omega
  · by_cases h1 : bl < l
    · rw [if_pos (by omega), if_pos ⟨by omega, h1⟩]
      omega
    · rw [if_neg (by omega), if_neg (by omega)]
      omega

theorem scan_end (fuel : Nat) (mem : Mem) (base : Nat) (src : List Nat) (l : Nat)
    (lens : List Nat) : ∀ (es : List Nat) (p : Nat) (off : Int) (bl : Nat) (bo : Int)
    (p2 bl2 : Nat) (bo2 : Int),
    scan fuel mem base src l lens es p off bl bo = .ok (p2, bl2, bo2) →
    bl2 = l ∨ (findNull (es.drop (p2 - p)) p2 = some p2 ∧ p2 - p < es.length ∧ p ≤ p2) := by
  intro es
  induction es with
  | nil => intro p off bl bo p2 bl2 bo2 h; simp [scan] at h
  | cons e es ih =>
    intro p off bl bo p2 bl2 bo2 h
    rw [scan] at h
    by_cases he : e = 0
    · rw [if_pos he] at h
      cases h
      right
      simp [findNull, he]
    · rw [if_neg he] at h
      have hrec : ∀ off1 bl1 bo1, scan fuel mem base src l lens es (p + 1) off1 bl1 bo1
          = .ok (p2, bl2, bo2) →
          bl2 = l ∨ (findNull ((e :: es).drop (p2 - p)) p2 = some p2 ∧
            p2 - p < (e :: es).length ∧ p ≤ p2) := by
        intro off1 bl1 bo1 h1
        rcases ih _ _ _ _ _ _ _ h1 with r | ⟨r1, r2, r3⟩
        · exact Or.inl r
        · right
          have e1 : p2 - p = (p2 - (p + 1)) + 1 := by omega
          rw [e1, List.drop_succ_cons]
          exact ⟨r1, by simp; omega, by omega⟩
      cases hm : match_ fuel mem base e src l lens off with
      | fault => rw [hm] at h; cases h
      | timeout => rw [hm] at h; cases h
      | ok r =>
        obtain ⟨m, off1⟩ := r
        rw [hm] at h
        simp only [] at h
        by_cases hgt : m > bl
        · rw [if_pos hgt] at h
          by_cases hl : m = l
          · rw [if_pos hl] at h
            cases h
            exact Or.inl hl
          · rw [if_neg hl] at h
            exact hrec _ _ _ h
        · rw [if_neg hgt] at h
          exact hrec _ _ _ h

theorem bestMatch_end (fuel : Nat) (mem : Mem) (src : List Nat) (l : Nat) (lens : List Nat)
    (dnptrs : Option (List Nat)) (p bl : Nat) (bo : Int)
    (h : bestMatch fuel mem src l lens dnptrs = .ok (p, bl, bo)) :
    bl = l ∨ ∀ b es, dnptrs = some (b :: es) → b ≠ 0 →
      ∃ k, findNull ((b :: es).drop p) p = some k ∧ k < (b :: es).length := by
  unfold bestMatch at h
  split at h
  · exact Or.inr (fun b es hh => by cases hh)
  · cases h
  · rename_i b es
    by_cases hb : b = 0
    · exact Or.inr (fun b2 es2 hh hb2 => by cases hh; exact absurd hb hb2)
    · rw [if_neg hb] at h
      rcases scan_end _ _ _ _ _ _ _ _ _ _ _ _ _ _ h with r | ⟨r1, r2, r3⟩
      · exact Or.inl r
      · right
        intro b2 es2 hh _
        cases hh
        obtain ⟨q, hq⟩ : ∃ q, p = q + 1 := ⟨p - 1, by omega⟩
        subst hq
        rw [Nat.add_sub_cancel] at r1 r2
        exact ⟨q + 1, by rw [List.drop_succ_cons]; exact r1, by simp; omega⟩

theorem finish_total_of (i : Nat) (m : Mem) (dst p : Nat) (dnptrs : Option (List Nat))
    (lastdnptr : Option Nat) (hlim : LimitInside dnptrs lastdnptr)
    (hp : i ≤ 2 ∨ ∀ b es, dnptrs = some (b :: es) → b ≠ 0 →
      ∃ k, findNull ((b :: es).drop p) p = some k ∧ k < (b :: es).length) :
    ∃ out, finish i m dst p dnptrs lastdnptr = .ok out := by
  rcases hp with hp | hp
  · unfold finish
    split
    · rw [if_neg (by omega)]
      exact ⟨_, rfl⟩
    · exact ⟨_, rfl⟩
  · exact finish_total i m dst p dnptrs lastdnptr hlim hp

/-- C11 (amended): for a name that passes length and label validation and whose matching phase
ends with `bestlen`, `bestlen ≤ l` and `dn_comp` returns `-1` for lack of space exactly when
`space ≤ 0` or `space < (l - bestlen) + 2 + e`, where `e = 1` when `0 < bestlen < l` and `e = 0`
when `bestlen = 0` or `bestlen = l`; otherwise every value it returns is that very number, the
count of bytes written, and it does return when the registry limit lies inside the array. -/
theorem C11_capacity_check (fuel : Nat) (mem : Mem) (src : List Nat) (dst : Nat) (space : Int)
    (dnptrs : Option (List Nat)) (lastdnptr : Option Nat) (p bl : Nat) (bo : Int)
    (hpos : 1 ≤ nameLen src) (hb : nameLen src ≤ 253)
    (hv : ValidLabels (splitDots (effective src)))
    (hbm : bestMatch fuel mem (effective src) (nameLen src)
      ((splitDots (effective src)).map List.length) dnptrs = .ok (p, bl, bo)) :
    bl ≤ nameLen src ∧
    ((space ≤ 0 ∨ space < codeNeed (nameLen src) bl) →
      dn_comp fuel mem src dst space dnptrs lastdnptr = .ok ⟨-1, mem, dnptrs⟩) ∧
    (¬ (space ≤ 0 ∨ space < codeNeed (nameLen src) bl) →
      (∀ out, dn_comp fuel mem src dst space dnptrs lastdnptr = .ok out →
        out.ret = codeNeed (nameLen src) bl) ∧
      (LimitInside dnptrs lastdnptr →
        ∃ out, dn_comp fuel mem src dst space dnptrs lastdnptr = .ok out)) := by
  unfold effective at hv hbm
  have hne := splitDots_ne_nil (src.take (nameLen src))
  have hj := joinDots_splitDots (src.take (nameLen src))
  have hbm2 : bestMatch fuel mem (joinDots (splitDots (src.take (nameLen src))))
      (joinDots (splitDots (src.take (nameLen src)))).length
      ((splitDots (src.take (nameLen src))).map List.length) dnptrs = .ok (p, bl, bo) := by
    rw [hj, take_nameLen_length]
    exact hbm
  obtain ⟨⟨pre, suf, hbest⟩, _⟩ := bestMatch_split fuel mem _ hne dnptrs p bl bo hbm2
  have hbl : bl = matchedLen pre suf := hbest.2.1
  subst hbl
  have hsplit : splitDots (src.take (nameLen src)) = pre ++ suf := hbest.1
  have hl : nameLen src = (joinDots (pre ++ suf)).length := by
    rw [← hsplit, hj, take_nameLen_length]
  have hv1 : ∀ c ∈ pre ++ suf, 1 ≤ c.length := fun c hc => (hv c (by rw [hsplit]; exact hc)).1
  have hle : matchedLen pre suf ≤ nameLen src := by rw [hl]; exact matchedLen_le pre suf
  have hneed := need_matchedLen pre suf (nameLen src) hl hb (by omega) hv1
  have hcode := need_eq_codeNeed (nameLen src) (matchedLen pre suf) hle hb (by omega)
  rw [hneed] at hcode
  have hend := bestMatch_end _ _ _ _ _ _ _ _ _ hbm
  refine ⟨hle, ?_, ?_⟩
  · rintro (h0 | h1)
    · exact dn_comp_toolong _ _ _ _ _ _ _ (Or.inr h0)
    · by_cases h0 : space ≤ 0
      · exact dn_comp_toolong _ _ _ _ _ _ _ (Or.inr h0)
      · obtain ⟨m2, _, _, hdn⟩ := dn_comp_fwd fuel mem src dst space dnptrs lastdnptr
          pre suf p bo (by omega) hb (by omega) hsplit (by rw [← hsplit]; exact hv)
          (by rw [← hsplit]; exact hbm)
        rw [hdn, if_pos]
        rw [← hcode] at h1
        omega
  · intro hno
    rw [not_or] at hno
    obtain ⟨m2, hrd, _, hdn⟩ := dn_comp_fwd fuel mem src dst space dnptrs lastdnptr
      pre suf p bo (by omega) hb (by omega) hsplit (by rw [← hsplit]; exact hv)
      (by rw [← hsplit]; exact hbm)
    rw [← hcode] at hno
    rw [if_neg (by omega)] at hdn
    have hvs : ∀ c ∈ suf, 1 ≤ c.length := fun c hc => hv1 c (by simp [hc])
    constructor
    · intro out hout
      rw [hdn] at hout
      obtain ⟨_, hret, _⟩ := finish_bytes m2 dst p dnptrs lastdnptr out pre suf bo hvs hrd hout
      rw [hret, ← hcode]
    · intro hlim
      rw [hdn]
      apply finish_total_of _ _ _ _ _ _ hlim
      rcases hend with he | he
      · left
        have hz := matchedLen_eq_zero_iff pre suf hvs
        have hs : suf ≠ [] := by
          intro hs
          have := hz.mpr hs
          omega
        rw [addTail_fst, if_neg (by omega)]
        have hc2 : codeNeed (nameLen src) (matchedLen pre suf) = 2 := by
          unfold codeNeed
          rw [he, if_neg (by omega)]
          omega
        rw [if_neg hs, hc2] at hcode
        omega
      · exact Or.inr he

/-- C11 at the name `a` with two bytes of space and no registry: one byte short. -/
theorem C11_capacity_check_witness :
    dn_comp 0 (fun _ => 0) [97] 100 2 none none = .ok ⟨-1, fun _ => 0, none⟩ :=
  (C11_capacity_check 0 (fun _ => 0) [97] 100 2 none none 0 0 0 (by decide) (by decide)
    (by decide) rfl).2.1 (Or.inr (by decide))

/-- C11 as stated fails at the name `a` with three bytes of space and no registry: nothing is
matched, the stated requirement is `(1 - 0) + 2 + 1 = 4 > 3`, and the call returns 3. -/
theorem C11_stated_requirement_counterexample :
    bestMatch 0 (fun _ => 0) (effective [97]) (nameLen [97])
        ((splitDots (effective [97])).map List.length) none = .ok (0, 0, 0) ∧
      (3 : Int) < claimedNeed (nameLen [97]) 0 ∧
      ∃ out, dn_comp 0 (fun _ => 0) [97] 100 3 none none = .ok out ∧ out.ret = 3 :=
  ⟨rfl, by decide, ⟨_, rfl, rfl⟩⟩

/-! ## Walks that end, and walks that do not -/

theorem getoffs_mono_succ (mem : Mem) (base : Nat) : ∀ (fuel s : Nat) (acc : List Int),
    getoffs mem base fuel s acc ≠ .timeout →
    getoffs mem base (fuel + 1) s acc = getoffs mem base fuel s acc := by
  intro fuel
  induction fuel with
  | zero => intro s acc h; exact absurd rfl h
  | succ fuel ih =>
    intro s acc h
    rw [getoffs_succ] at h
    rw [getoffs_succ mem base (fuel + 1) s acc, getoffs_succ mem base fuel s acc]
    by_cases c1 : mem s &&& 0xc0 ≠ 0
    · rw [if_pos c1] at h
      rw [if_pos c1, if_pos c1]
      by_cases c2 : mem s &&& 0xc0 ≠ 0xc0
      · rw [if_pos c2, if_pos c2]
      · rw [if_neg c2] at h
        rw [if_neg c2, if_neg c2]
        exact ih _ _ h
    · rw [if_neg c1] at h
      rw [if_neg c1, if_neg c1]
      by_cases c3 : mem s = 0
      · rw [if_pos c3, if_pos c3]
      · rw [if_neg c3] at h
        rw [if_neg c3, if_neg c3]
        by_cases c4 : (s : Int) - (base : Int) ≥ 0x4000
        · rw [if_pos c4, if_pos c4]
        · rw [if_neg c4] at h
          rw [if_neg c4, if_neg c4]
          by_cases c5 : 128 ≤ acc.length
          · rw [if_pos c5, if_pos c5]
          · rw [if_neg c5] at h
            rw [if_neg c5, if_neg c5]
            exact ih _ _ h

theorem getoffs_mono (mem : Mem) (base : Nat) (fuel fuel2 s : Nat) (acc : List Int)
    (hle : fuel ≤ fuel2) (h : getoffs mem base fuel s acc ≠ .timeout) :
    getoffs mem base fuel2 s acc = getoffs mem base fuel s acc := by
  induction hle with
  | refl => rfl
  | step _ ih =>
    rw [getoffs_mono_succ _ _ _ _ _ (by rw [ih]; exact h), ih]

theorem walk_after_base (mem : Mem) (base : Nat) (s : Nat) (offs : List Int) (t : Nat)
    (hw : Walk mem base s offs t) (hs : base ≤ s) : (∀ o ∈ offs, 0 ≤ o) ∧ base ≤ t := by
  induction hw with
  | here s => exact ⟨by simp, hs⟩
  | label s offs t _ _ _ ih =>
    obtain ⟨h1, h2⟩ := ih (by omega)
    refine ⟨?_, h2⟩
    intro o ho
    rcases List.mem_cons.mp ho with h | h
    · subst h; omega
    · exact h1 o h
  | jump s offs t _ _ ih => exact ih (by omega)

/-- Along a walk of at most 128 labels with offsets in `[-32768, 0x4000)`, `getoffs` records the
offsets and carries on from the end of the walk. -/
theorem walk_getoffs (mem : Mem) (base : Nat) (s : Nat) (offs : List Int) (t : Nat)
    (hw : Walk mem base s offs t) :
    ∃ n, ∀ (fuel : Nat) (acc : List Int), acc.length + offs.length ≤ 128 →
      (∀ o ∈ offs, o < 16384) →
      getoffs mem base (fuel + n) s acc = getoffs mem base fuel t (acc ++ offs.map toShort) := by
  induction hw with
  | here s => exact ⟨0, fun fuel acc _ _ => by simp⟩
  | label s offs t h1 h2 _ ih =>
    obtain ⟨n, hn⟩ := ih
    refine ⟨n + 1, fun fuel acc hlen hoff => ?_⟩
    have e : fuel + (n + 1) = (fuel + n) + 1 := by omega
    have h0 := hoff _ (List.mem_cons_self _ _)
    simp only [List.length_cons] at hlen
    rw [e, getoffs_succ, if_neg (by rw [h1]; simp), if_neg h2, if_neg (by omega),
      if_neg (by omega), hn fuel _ (by simp; omega) (fun o ho => hoff o (List.mem_cons_of_mem _ ho))]
    simp
  | jump s offs t h1 _ ih =>
    obtain ⟨n, hn⟩ := ih
    refine ⟨n + 1, fun fuel acc hlen hoff => ?_⟩
    have e : fuel + (n + 1) = (fuel + n) + 1 := by omega
    rw [e, getoffs_succ, if_pos (by rw [h1]; decide), if_neg (by rw [h1]; decide),
      hn fuel acc hlen hoff]

/-- Along any walk, `getoffs` either has stopped already or carries on from the end of the
walk. -/
theorem walk_terminates (mem : Mem) (base : Nat) (s : Nat) (offs : List Int) (t : Nat)
    (hw : Walk mem base s offs t) :
    ∃ n, ∀ (fuel : Nat) (acc : List Int),
      getoffs mem base (fuel + n) s acc ≠ .timeout ∨
      getoffs mem base (fuel + n) s acc = getoffs mem base fuel t (acc ++ offs.map toShort) := by
  induction hw with
  | here s => exact ⟨0, fun fuel acc => Or.inr (by simp)⟩
  | label s offs t h1 h2 _ ih =>
    obtain ⟨n, hn⟩ := ih
    refine ⟨n + 1, fun fuel acc => ?_⟩
    have e : fuel + (n + 1) = (fuel + n) + 1 := by omega
    rw [e, getoffs_succ, if_neg (by rw [h1]; simp), if_neg h2]
    by_cases c4 : (s : Int) - (base : Int) ≥ 0x4000
    · rw [if_pos c4]; exact Or.inl (by simp)
    · rw [if_neg c4]
      by_cases c5 : 128 ≤ acc.length
      · rw [if_pos c5]; exact Or.inl (by simp)
      · rw [if_neg c5]
        rcases hn fuel (acc ++ [toShort ((s : Int) - (base : Int))]) with h | h
        · exact Or.inl h
        · right; rw [h]; simp
  | jump s offs t h1 _ ih =>
    obtain ⟨n, hn⟩ := ih
    refine ⟨n + 1, fun fuel acc => ?_⟩
    have e : fuel + (n + 1) = (fuel + n) + 1 := by omega
    rw [e, getoffs_succ, if_pos (by rw [h1]; decide), if_neg (by rw [h1]; decide)]
    exact hn fuel acc

theorem getoffs_length_le (mem : Mem) (base : Nat) : ∀ (fuel s : Nat) (acc r : List Int),
    getoffs mem base fuel s acc = .ok r → acc.length ≤ 128 → r.length ≤ 128 := by
  intro fuel
  induction fuel with
  | zero => intro s acc r h; simp [getoffs] at h
  | succ fuel ih =>
    intro s acc r h hacc
    rw [getoffs_succ] at h
    by_cases c1 : mem s &&& 0xc0 ≠ 0
    · rw [if_pos c1] at h
      by_cases c2 : mem s &&& 0xc0 ≠ 0xc0
      · rw [if_pos c2] at h; cases h; simp
      · rw [if_neg c2] at h; exact ih _ _ _ h hacc
    · rw [if_neg c1] at h
      by_cases c3 : mem s = 0
      · rw [if_pos c3] at h; cases h; exact hacc
      · rw [if_neg c3] at h
        by_cases c4 : (s : Int) - (base : Int) ≥ 0x4000
        · rw [if_pos c4] at h; cases h; simp
        · rw [if_neg c4] at h
          by_cases c5 : 128 ≤ acc.length
          · rw [if_pos c5] at h; cases h
          · rw [if_neg c5] at h
            exact ih _ _ _ h (by simp; omega)

theorem matchLoop_ne_timeout (mem : Mem) (base : Nat) (src : List Nat) :
    ∀ (ls : List Nat) (os : List Int) (end_ m : Nat) (off : Int),
    matchLoop mem base src ls os end_ m off ≠ .timeout := by
  intro ls
  induction ls with
  | nil => intro os end_ m off; simp [matchLoop]
  | cons l ls ih =>
    intro os end_ m off
    cases os with
    | nil => simp [matchLoop]
    | cons o os =>
      rw [matchLoop]
      split
      · simp
      · split
        · simp
        · split
          · simp
          · split
            · simp
            · exact ih _ _ _ _

theorem match_ne_timeout (fuel : Nat) (mem : Mem) (base dn : Nat) (src : List Nat) (end_ : Nat)
    (lens : List Nat) (off : Int) (h : getoffs mem base fuel dn [] ≠ .timeout) :
    match_ fuel mem base dn src end_ lens off ≠ .timeout := by
  unfold match_
  cases hg : getoffs mem base fuel dn [] with
  | timeout => exact absurd hg h
  | fault => simp
  | ok offs =>
    simp only []
    split
    · simp
    · exact matchLoop_ne_timeout _ _ _ _ _ _ _ _

theorem self_pointer_timeout : ∀ (fuel : Nat) (acc : List Int),
    getoffs selfPointerMem 100 fuel 100 acc = .timeout := by
  intro fuel
  induction fuel with
  | zero => intro acc; rfl
  | succ fuel ih =>
    intro acc
    have h1 : selfPointerMem 100 = 192 := rfl
    have h2 : selfPointerMem (100 + 1) = 0 := rfl
    rw [getoffs_succ, h1, h2, if_pos (by decide), if_neg (by decide)]
    exact ih acc

/-- C13 (amended): when the walk from the candidate reaches, after finitely many labels and
pointer jumps, a zero byte, a byte whose top two bits are `01` or `10`, or a label start at an
offset of `0x4000` or more, then `getoffs`, and with it `match`, ends for every large enough
budget: with a count, with failure, or with a bounds fault at `offs[128]`. -/
theorem C13_walk_terminates (mem : Mem) (base s : Nat) (offs : List Int) (t : Nat)
    (hw : Walk mem base s offs t)
    (hstop : mem t = 0 ∨ (mem t &&& 0xc0 ≠ 0 ∧ mem t &&& 0xc0 ≠ 0xc0) ∨
      (mem t &&& 0xc0 = 0 ∧ (16384 : Int) ≤ (t : Int) - (base : Int))) :
    ∃ N, ∀ fuel, N ≤ fuel →
      (∀ acc, getoffs mem base fuel s acc ≠ .timeout) ∧
      (∀ src end_ lens off, match_ fuel mem base s src end_ lens off ≠ .timeout) := by
  obtain ⟨n, hn⟩ := walk_terminates mem base s offs t hw
  have hone : ∀ acc, getoffs mem base (0 + 1) t acc ≠ .timeout := by
    intro acc
    rw [getoffs_succ]
    rcases hstop with h | ⟨h1, h2⟩ | ⟨h1, h2⟩
    · have : mem t &&& 0xc0 = 0 := by rw [h]; rfl
      rw [if_neg (by rw [this]; simp), if_pos h]; simp
    · rw [if_pos h1, if_pos h2]; simp
    · rw [if_neg (by rw [h1]; simp)]
      split
      · simp
      · simp
  have hall : ∀ acc, getoffs mem base ((0 + 1) + n) s acc ≠ .timeout := by
    intro acc
    rcases hn (0 + 1) acc with h | h
    · exact h
    · rw [h]; exact hone _
  refine ⟨(0 + 1) + n, fun fuel hf => ?_⟩
  have hg : ∀ acc, getoffs mem base fuel s acc ≠ .timeout := by
    intro acc
    rw [getoffs_mono mem base _ fuel s acc hf (hall acc)]
    exact hall acc
  exact ⟨hg, fun src end_ lens off => match_ne_timeout _ _ _ _ _ _ _ _ (hg [])⟩

/-- C13 (amended) at the compressed name `a` + pointer to `com`. -/
theorem C13_walk_terminates_witness :
    ∃ N, ∀ fuel, N ≤ fuel →
      (∀ acc, getoffs compressedMem 100 fuel 105 acc ≠ .timeout) ∧
      (∀ src end_ lens off, match_ fuel compressedMem 100 105 src end_ lens off ≠ .timeout) :=
  C13_walk_terminates compressedMem 100 105 [5, 0] 104
    (Walk.label 105 [0] 104 (by decide) (by decide)
      (Walk.jump 107 [0] 104 (by decide)
        (Walk.label 100 [] 104 (by decide) (by decide) (Walk.here 104))))
    (Or.inl (by decide))

/-- C13 as stated fails on a pointer whose target offset is its own position: with no budget
does `getoffs` end. -/
theorem C13_self_pointer_counterexample :
    ¬ ∃ fuel, getoffs selfPointerMem 100 fuel 100 [] ≠ .timeout :=
  fun ⟨fuel, h⟩ => h (self_pointer_timeout fuel [])

/-! ## The offset array -/

theorem walk_label_loop : ∀ k : Nat, Walk labelLoopMem 100 100 (List.replicate k 0) 100 := by
  intro k
  induction k with
  | zero => exact Walk.here 100
  | succ k ih =>
    exact Walk.label 100 (List.replicate k 0) 100 (by decide) (by decide)
      (Walk.jump 102 (List.replicate k 0) 100 (by decide) ih)

theorem label_loop_step (fuel : Nat) (acc : List Int) (h : acc.length < 128) :
    getoffs labelLoopMem 100 (fuel + 2) 100 acc
      = getoffs labelLoopMem 100 fuel 100 (acc ++ [0]) := by
  have h1 : labelLoopMem 100 = 1 := rfl
  have h2 : labelLoopMem (100 + (1 + 1)) = 192 := rfl
  have h3 : labelLoopMem (100 + (1 + 1) + 1) = 0 := rfl
  rw [getoffs_succ, h1, if_neg (by decide), if_neg (by decide), if_neg (by decide),
    if_neg (by omega)]
  rw [getoffs_succ, h2, if_pos (by decide), if_neg (by decide), h3]
  rfl

theorem label_loop_fault : ∀ (k fuel : Nat) (acc : List Int), acc.length + k = 128 →
    getoffs labelLoopMem 100 (fuel + 1 + 2 * k) 100 acc = .fault := by
  intro k
  induction k with
  | zero =>
    intro fuel acc h
    have h1 : labelLoopMem 100 = 1 := rfl
    rw [Nat.mul_zero, Nat.add_zero, getoffs_succ, h1, if_neg (by decide), if_neg (by decide),
      if_neg (by decide), if_pos (by omega)]
  | succ k ih =>
    intro fuel acc h
    have e : fuel + 1 + 2 * (k + 1) = (fuel + 1 + 2 * k) + 2 := by omega
    rw [e, label_loop_step _ _ (by omega)]
    exact ih fuel _ (by simp; omega)

/-- A walk that reaches a 129th label start below `0x4000` makes `getoffs` store to `offs[128]`,
past the 128-element array: the call faults for every large enough budget. -/
theorem walk_overflow (mem : Mem) (base s : Nat) (offs : List Int) (t : Nat)
    (hw : Walk mem base s offs t) (hlen : offs.length = 128)
    (hoff : ∀ o ∈ offs, o < 16384)
    (hl1 : mem t &&& 0xc0 = 0) (hl2 : mem t ≠ 0) (hl3 : (t : Int) - (base : Int) < 16384) :
    ∃ N, ∀ fuel, N ≤ fuel → getoffs mem base fuel s [] = .fault := by
  obtain ⟨n, hn⟩ := walk_getoffs mem base s offs t hw
  have hone : getoffs mem base ((0 + 1) + n) s [] = .fault := by
    rw [hn (0 + 1) [] (by simp; omega) hoff, getoffs_succ, if_neg (by rw [hl1]; simp),
      if_neg hl2, if_neg (by omega), if_pos (by simp; omega)]
  refine ⟨(0 + 1) + n, fun fuel hf => ?_⟩
  rw [getoffs_mono mem base _ fuel s [] hf (by rw [hone]; simp)]
  exact hone

/-- C14: on the label `a` followed by a pointer back to it, `getoffs` records 128 offsets and
then stores to `offs[128]`, past the 128-element array: the call ends in a bounds fault, with
no budget does it return 0 or any other count, and `dn_comp` called for the name `a` with this
candidate in the registry faults with it. -/
theorem C14_offs_overflow :
    getoffs labelLoopMem 100 257 100 [] = .fault ∧
    (¬ ∃ fuel, getoffs labelLoopMem 100 fuel 100 [] = .ok []) ∧
    (¬ ∃ fuel r, getoffs labelLoopMem 100 fuel 100 [] = .ok r) ∧
    dn_comp 257 labelLoopMem [97] 200 16 (some [100, 100, 0]) none = .fault := by
  have hf : getoffs labelLoopMem 100 257 100 [] = .fault := label_loop_fault 128 0 [] rfl
  have hno : ¬ ∃ fuel r, getoffs labelLoopMem 100 fuel 100 [] = .ok r := by
    rintro ⟨fuel, r, h⟩
    rcases Nat.le_total fuel 257 with hle | hle
    · have := getoffs_mono labelLoopMem 100 fuel 257 100 [] hle (by rw [h]; simp)
      rw [hf, h] at this
      cases this
    · have := getoffs_mono labelLoopMem 100 257 fuel 100 [] hle (by rw [hf]; simp)
      rw [hf, h] at this
      cases this
  refine ⟨hf, fun ⟨fuel, h⟩ => hno ⟨fuel, [], h⟩, hno, ?_⟩
  have hm : ∀ src end_ lens off,
      match_ 257 labelLoopMem 100 100 src end_ lens off = .fault := by
    intro src end_ lens off
    unfold match_
    rw [hf]
  have hbm : ∀ src l lens,
      bestMatch 257 labelLoopMem src l lens (some [100, 100, 0]) = .fault := by
    intro src l lens
    unfold bestMatch
    simp only []
    rw [if_neg (by decide), scan, if_neg (by decide), hm]
  rw [dn_comp_valid 257 labelLoopMem [97] 200 16 (some [100, 100, 0]) none (by decide)
    (by decide) (by decide) (by decide), hbm]

/-! ## Decoding label offsets -/

theorem map_toShort_small (offs : List Int) (h : ∀ o ∈ offs, 0 ≤ o ∧ o < 16384) :
    offs.map toShort = offs := by
  induction offs with
  | nil => rfl
  | cons o offs ih =>
    rw [List.map_cons, toShort_of_small o (h o (List.mem_cons_self _ _)).1
      (h o (List.mem_cons_self _ _)).2, ih (fun x hx => h x (List.mem_cons_of_mem _ hx))]

/-- C17: `Walk mem base s offs t` says that the name at `s` expands, through its labels and
pointer jumps (a pointer pair is followed to `base + ((b0 & 0x3f) << 8 | b1)` and not
recorded), to labels whose length bytes are at the offsets `offs` from `base`, first label
first, and that the expansion reaches position `t`. For a name inside the message with at
most 128 labels, all starting below `0x4000`: when `t` holds the terminating zero byte,
`getoffs` returns exactly `offs`, so its count is the number of labels; when `t` holds a byte
with top bits `01` or `10`, or a label start at `0x4000` or more, it returns 0; and every
offset `getoffs` ever returns is in `[0, 0x4000)`. -/
theorem C17_getoffs_decodes (mem : Mem) (base s : Nat) (offs : List Int) (t : Nat)
    (hw : Walk mem base s offs t) (hs : base ≤ s) (hlen : offs.length ≤ 128)
    (hoff : ∀ o ∈ offs, o < 16384) :
    (mem t = 0 → ∃ N, ∀ fuel, N ≤ fuel → getoffs mem base fuel s [] = .ok offs) ∧
    (((mem t &&& 0xc0 ≠ 0 ∧ mem t &&& 0xc0 ≠ 0xc0) ∨
        (mem t &&& 0xc0 = 0 ∧ mem t ≠ 0 ∧ (16384 : Int) ≤ (t : Int) - (base : Int))) →
      ∃ N, ∀ fuel, N ≤ fuel → getoffs mem base fuel s [] = .ok []) ∧
    (∀ o ∈ offs, 0 ≤ o ∧ o < 16384) ∧
    (∀ fuel r, getoffs mem base fuel s [] = .ok r → ∀ o ∈ r, 0 ≤ o ∧ o < 16384) := by
  obtain ⟨n, hn⟩ := walk_getoffs mem base s offs t hw
  have hin : ∀ o ∈ offs, 0 ≤ o ∧ o < 16384 :=
    fun o ho => ⟨(walk_after_base mem base s offs t hw hs).1 o ho, hoff o ho⟩
  have hstep : ∀ fuel, getoffs mem base (fuel + n) s [] = getoffs mem base fuel t offs := by
    intro fuel
    rw [hn fuel [] (by simpa using hlen) hoff, List.nil_append, map_toShort_small offs hin]
  have hlift : ∀ r : List Int, getoffs mem base (0 + 1) t offs = .ok r →
      ∃ N, ∀ fuel, N ≤ fuel → getoffs mem base fuel s [] = .ok r := by
    intro r hr
    have h1 : getoffs mem base ((0 + 1) + n) s [] = .ok r := by rw [hstep, hr]
    refine ⟨(0 + 1) + n, fun fuel hf => ?_⟩
    rw [getoffs_mono mem base _ fuel s [] hf (by rw [h1]; simp)]
    exact h1
  refine ⟨fun h0 => hlift offs ?_, fun hbad => hlift [] ?_, hin, ?_⟩
  · have hz : mem t &&& 0xc0 = 0 := by rw [h0]; rfl
    rw [getoffs_succ, if_neg (by rw [hz]; simp), if_pos h0]
  · rw [getoffs_succ]
    rcases hbad with ⟨h1, h2⟩ | ⟨h1, h2, h3⟩
    · rw [if_pos h1, if_pos h2]
    · rw [if_neg (by rw [h1]; simp), if_neg h2, if_pos h3]
  · intro fuel r h o ho
    obtain ⟨front, rest, hsplit⟩ := List.append_of_mem ho
    have := getoffs_suffix mem base fuel s r h hs front o rest hsplit
    exact ⟨this.1, this.2.1⟩

/-- C17 at the compressed name `a` + pointer to `com`: the offsets returned are 5 and 0. -/
theorem C17_getoffs_decodes_witness :
    ∃ N, ∀ fuel, N ≤ fuel → getoffs compressedMem 100 fuel 105 [] = .ok [5, 0] :=
  (C17_getoffs_decodes compressedMem 100 105 [5, 0] 104
    (Walk.label 105 [0] 104 (by decide) (by decide)
      (Walk.jump 107 [0] 104 (by decide)
        (Walk.label 100 [] 104 (by decide) (by decide) (Walk.here 104))))
    (by decide) (by decide) (by decide)).1 (by decide)

/-! ## The longest common label suffix -/

theorem matchCount_max (mem : Mem) (base : Nat) : ∀ (rlabs : List (List Nat)) (ro : List Int)
    (j : Nat), j ≤ rlabs.length → j ≤ ro.length →
    (ro.take j).map (labelAt mem base) = rlabs.take j → j ≤ matchCount mem base rlabs ro := by
  intro rlabs
  induction rlabs with
  | nil => intro ro j h1 _ _; simp at h1; omega
  | cons lab rest ih =>
    intro ro j h1 h2 h3
    cases ro with
    | nil => simp at h2; omega
    | cons o os =>
      cases j with
      | zero => exact Nat.zero_le _
      | succ j =>
        simp only [List.take_succ_cons, List.map_cons, List.cons.injEq] at h3
        rw [matchCount, if_pos h3.1]
        have := ih os j (by simpa using h1) (by simpa using h2) h3.2
        omega

/-- The number of labels `match` accepts is the largest `j` such that the last `j` labels of
the name are the labels stored at the last `j` offsets. -/
theorem matchCount_eq_largest (mem : Mem) (base : Nat) (labs : List (List Nat))
    (offs : List Int) (k : Nat) (hk1 : k ≤ labs.length) (hk2 : k ≤ offs.length)
    (hsuf : labs.drop (labs.length - k)
      = (offs.drop (offs.length - k)).map (labelAt mem base))
    (hmax : ∀ j, j ≤ labs.length → j ≤ offs.length →
      labs.drop (labs.length - j) = (offs.drop (offs.length - j)).map (labelAt mem base) →
      j ≤ k) :
    matchCount mem base labs.reverse offs.reverse = k := by
  apply Nat.le_antisymm
  · have hle := matchCount_le mem base labs.reverse offs.reverse
    rw [List.length_reverse, List.length_reverse] at hle
    apply hmax _ hle.1 hle.2
    have := matchCount_labels mem base labs.reverse offs.reverse
    rw [List.take_reverse, List.take_reverse, List.map_reverse] at this
    exact (List.reverse_injective this).symm
  · apply matchCount_max
    · simpa using hk1
    · simpa using hk2
    · rw [List.take_reverse, List.take_reverse, List.map_reverse, hsuf]

theorem sum_drop_le (l : List Nat) (k : Nat) : (l.drop k).sum ≤ l.sum := by
  conv_rhs => rw [← List.take_append_drop k l]
  rw [List.sum_append]
  omega

theorem sum_take_pos (l : List Nat) (h : ∀ x ∈ l, 1 ≤ x) : ∀ k, 0 < k → k ≤ l.length →
    0 < (l.take k).sum := by
  intro k h0 hk
  cases l with
  | nil => simp at hk; omega
  | cons a t =>
    cases k with
    | zero => omega
    | succ k =>
      simp only [List.take_succ_cons, List.sum_cons]
      have := h a (List.mem_cons_self _ _)
      omega

theorem matchedLen_take_drop (labs : List (List Nat)) (hne : labs ≠ []) (k : Nat)
    (hk : k ≤ labs.length) :
    matchedLen (labs.take (labs.length - k)) (labs.drop (labs.length - k))
      = if k = 0 then 0
        else ((labs.drop (labs.length - k)).map List.length).sum + min k (labs.length - 1) := by
  have hn : 0 < labs.length := List.length_pos.mpr hne
  by_cases h0 : k = 0
  · subst h0
    simp [matchedLen]
  · rw [if_neg h0]
    have hs : labs.drop (labs.length - k) ≠ [] := by
      intro h
      have := congrArg List.length h
      simp at this
      omega
    have hsum := sum_length_joinDots _ hs
    rw [List.length_drop] at hsum
    unfold matchedLen
    rw [if_neg hs]
    by_cases hp : labs.take (labs.length - k) = []
    · rw [if_pos hp]
      have := congrArg List.length hp
      simp at this
      omega
    · rw [if_neg hp]
      have : labs.length - k ≠ 0 := by
        intro h
        rw [h] at hp
        exact hp rfl
      omega

/-- C16: let `offs` be the offsets `getoffs` returns for the candidate, and let `k` be the
largest `j` such that the last `j` of the name's `n` labels are, in length and content, the
labels stored at the last `j` offsets. Then `match` returns 0 and leaves `*offset` as it was
when `k = 0`; otherwise it returns the sum of the lengths of the last `k` labels plus
`min(k, n-1)` and sets `*offset` to `offs[c-k]`. The returned length is `l` exactly when
`k = n`. -/
theorem C16_match_longest_suffix (fuel : Nat) (mem : Mem) (base dn : Nat)
    (labs : List (List Nat)) (tl : List Nat) (offs : List Int) (off : Int) (k : Nat)
    (hne : labs ≠ []) (hv : ∀ c ∈ labs, 1 ≤ c.length)
    (hg : getoffs mem base fuel dn [] = .ok offs)
    (hk1 : k ≤ labs.length) (hk2 : k ≤ offs.length)
    (hsuf : labs.drop (labs.length - k)
      = (offs.drop (offs.length - k)).map (labelAt mem base))
    (hmax : ∀ j, j ≤ labs.length → j ≤ offs.length →
      labs.drop (labs.length - j) = (offs.drop (offs.length - j)).map (labelAt mem base) →
      j ≤ k) :
    match_ fuel mem base dn (joinDots labs ++ tl) (joinDots labs).length
        (labs.map List.length) off
      = .ok (if k = 0 then (0, off)
          else (((labs.drop (labs.length - k)).map List.length).sum + min k (labs.length - 1),
            offs.getD (offs.length - k) 0)) ∧
    (((labs.drop (labs.length - k)).map List.length).sum + min k (labs.length - 1)
        = (joinDots labs).length ↔ k = labs.length) := by
  have hn : 0 < labs.length := List.length_pos.mpr hne
  constructor
  · unfold match_
    rw [hg]
    simp only []
    by_cases h0 : offs.length = 0
    · rw [if_pos h0, if_pos (by omega)]
    · rw [if_neg h0]
      have hml := matchLoop_eq mem base labs.reverse offs.reverse tl 0 off
        (by simpa using hne) (by intro h; apply h0; simpa using congrArg List.length h)
      rw [List.reverse_reverse, List.map_reverse] at hml
      rw [hml]
      have hmc := matchCount_eq_largest mem base labs offs k hk1 hk2 hsuf hmax
      congr 1
      apply Prod.ext
      · rw [matchLabels_fst, hmc, List.drop_reverse, List.take_reverse, List.reverse_reverse,
          List.reverse_reverse, matchedLen_take_drop labs hne k hk1, Nat.zero_add]
        split <;> rfl
      · rw [matchLabels_snd, hmc, List.take_reverse, List.getLast?_reverse, List.head?_drop]
        by_cases hk0 : k = 0
        · rw [if_pos hk0, hk0]
          simp
        · rw [if_neg hk0, List.getD_eq_getElem?_getD]
          have hlt : offs.length - k < offs.length := by omega
          simp only [List.getElem?_eq_getElem hlt, Option.getD_some]
  · have hall := sum_length_joinDots labs hne
    constructor
    · intro h
      by_contra hkn
      have hpos := sum_take_pos (labs.map List.length)
        (by
          intro x hx
          obtain ⟨c, hc, rfl⟩ := List.mem_map.mp hx
          exact hv c hc)
        (labs.length - k) (by omega) (by simp)
      have hsplit : (labs.map List.length).sum
          = ((labs.map List.length).take (labs.length - k)).sum
            + ((labs.map List.length).drop (labs.length - k)).sum := by
        conv_lhs => rw [← List.take_append_drop (labs.length - k) (labs.map List.length)]
        rw [List.sum_append]
      rw [List.map_drop] at h
      omega
    · intro h
      rw [h, Nat.sub_self, List.drop_zero]
      omega

/-- C16 at the name `a.com` and the candidate `b.com` stored at offset 0: one label is common,
`match` returns 3 and sets `*offset` to 2, the offset of `com`. -/
theorem C16_match_longest_suffix_witness :
    match_ 5 (memcpy (fun _ => 0) 100 [1, 98, 3, 99, 111, 109, 0]) 100 100
        (joinDots [[97], [99, 111, 109]] ++ []) (joinDots [[97], [99, 111, 109]]).length
        ([[97], [99, 111, 109]].map List.length) 7
      = .ok (if 1 = 0 then (0, 7)
          else ((([[97], [99, 111, 109]].drop (2 - 1)).map List.length).sum + min 1 (2 - 1),
            [(0 : Int), 2].getD (2 - 1) 0)) :=
  (C16_match_longest_suffix 5 (memcpy (fun _ => 0) 100 [1, 98, 3, 99, 111, 109, 0]) 100 100
    [[97], [99, 111, 109]] [] [0, 2] 7 1 (by decide) (by decide) rfl (by decide)
    (by decide) (by decide)
    (by
      intro j h1 _ h3
      have h1 : j ≤ 2 := h1
      interval_cases j
      · decide
      · decide
      · exact absurd h3 (by decide))).1

/-! ## Candidate selection -/

theorem pick_of_max : ∀ (rs : List (Nat × Int)) (best : Nat × Int),
    (∀ r ∈ rs, r.1 ≤ best.1) → pick rs best = best := by
  intro rs
  induction rs with
  | nil => intro best _; rfl
  | cons r rs ih =>
    intro best h
    have h1 := h r (List.mem_cons_self _ _)
    rw [pick, if_neg (by omega)]
    exact ih best (fun x hx => h x (List.mem_cons_of_mem _ hx))

theorem pick_fst : ∀ (rs : List (Nat × Int)) (best : Nat × Int),
    (pick rs best).1 = max best.1 ((rs.map Prod.fst).foldr max 0) := by
  intro rs
  induction rs with
  | nil => intro best; simp [pick]
  | cons r rs ih =>
    intro best
    rw [pick]
    simp only [List.map_cons, List.foldr_cons]
    split
    · rw [ih]; omega
    · rw [ih]; omega

theorem pick_first : ∀ (rs : List (Nat × Int)) (best : Nat × Int),
    (best.1 < (pick rs best).1 →
      ∃ front back, rs = front ++ pick rs best :: back ∧
        ∀ x ∈ front, x.1 < (pick rs best).1) ∧
    (¬ best.1 < (pick rs best).1 → pick rs best = best) := by
  intro rs
  induction rs with
  | nil => intro best; simp [pick]
  | cons r rs ih =>
    intro best
    rw [pick]
    by_cases c : r.1 > best.1
    · rw [if_pos c]
      obtain ⟨h1, h2⟩ := ih r
      by_cases d : r.1 < (pick rs r).1
      · obtain ⟨front, back, e, hf⟩ := h1 d
        refine ⟨fun _ => ⟨r :: front, back, by rw [List.cons_append, ← e], ?_⟩,
          fun hh => absurd (by omega) hh⟩
        intro x hx
        rcases List.mem_cons.mp hx with hx | hx
        · rw [hx]; exact d
        · exact hf x hx
      · rw [h2 d]
        exact ⟨fun _ => ⟨[], rs, rfl, by simp⟩, fun hh => absurd c hh⟩
    · rw [if_neg c]
      obtain ⟨h1, h2⟩ := ih best
      refine ⟨fun hh => ?_, h2⟩
      obtain ⟨front, back, e, hf⟩ := h1 hh
      refine ⟨r :: front, back, by rw [List.cons_append, ← e], ?_⟩
      intro x hx
      rcases List.mem_cons.mp hx with hx | hx
      · rw [hx]; omega
      · exact hf x hx

/-- The result of `match` depends on the incoming value of `*offset` only when it returns 0, and
it never returns more than `l`. -/
theorem match_offset (fuel : Nat) (mem : Mem) (base dn : Nat) (labs : List (List Nat))
    (hne : labs ≠ []) (hv : ∀ c ∈ labs, 1 ≤ c.length) (off : Int) (m : Nat) (o : Int)
    (h : match_ fuel mem base dn (joinDots labs) (joinDots labs).length
      (labs.map List.length) off = .ok (m, o)) :
    m ≤ (joinDots labs).length ∧
    ∀ off2, match_ fuel mem base dn (joinDots labs) (joinDots labs).length
      (labs.map List.length) off2 = .ok (m, if m = 0 then off2 else o) := by
  constructor
  · obtain ⟨pre, suf, e, hm, _⟩ := match_split fuel mem base dn labs hne off m o h
    rw [hm, e]
    exact matchedLen_le pre suf
  · intro off2
    unfold match_ at h ⊢
    cases hg : getoffs mem base fuel dn [] with
    | fault => rw [hg] at h; cases h
    | timeout => rw [hg] at h; cases h
    | ok offs =>
      rw [hg] at h
      simp only [] at h ⊢
      by_cases h0 : offs.length = 0
      · rw [if_pos h0] at h ⊢
        have := Res.ok.inj h
        simp only [Prod.mk.injEq] at this
        rw [← this.1, if_pos rfl]
      · rw [if_neg h0] at h ⊢
        have hml : ∀ x, matchLoop mem base (joinDots labs) (labs.map List.length).reverse
            offs.reverse (joinDots labs).length 0 x
            = .ok (matchLabels mem base labs.reverse offs.reverse 0 x) := by
          intro x
          have := matchLoop_eq mem base labs.reverse offs.reverse [] 0 x
            (by simpa using hne) (by intro hh; apply h0; simpa using congrArg List.length hh)
          rw [List.reverse_reverse, List.map_reverse, List.append_nil] at this
          exact this
        rw [hml] at h ⊢
        have hp := Res.ok.inj h
        have hm : m = (matchLabels mem base labs.reverse offs.reverse 0 off).1 := by rw [hp]
        have ho : o = (matchLabels mem base labs.reverse offs.reverse 0 off).2 := by rw [hp]
        congr 1
        apply Prod.ext
        · rw [hm, matchLabels_fst, matchLabels_fst]
        · show (matchLabels mem base labs.reverse offs.reverse 0 off2).2
            = if m = 0 then off2 else o
          rw [matchLabels_fst] at hm
          rw [matchLabels_snd] at ho ⊢
          have hle := matchCount_le mem base labs.reverse offs.reverse
          by_cases hc : matchCount mem base labs.reverse offs.reverse = 0
          · rw [hc] at hm ⊢
            simp [matchedLen] at hm
            rw [if_pos hm]
            simp
          · have hpos : 0 < m := by
              rw [hm, Nat.zero_add]
              apply matchedLen_pos
              · intro hh
                have := congrArg List.length hh
                rw [List.length_reverse, List.length_take, List.length_nil] at this
                omega
              · intro c hc2
                exact hv c (by
                  have := List.mem_of_mem_take (List.mem_reverse.mp hc2)
                  exact List.mem_reverse.mp this)
            rw [if_neg (by omega), ho]
            have hne2 : offs.reverse.take (matchCount mem base labs.reverse offs.reverse) ≠ [] := by
              intro hh
              have := congrArg List.length hh
              rw [List.length_take, List.length_nil] at this
              omega
            obtain ⟨x, hx⟩ := Option.isSome_iff_exists.mp
              (by rw [List.getLast?_isSome]; exact hne2 :
                ((offs.reverse.take
                  (matchCount mem base labs.reverse offs.reverse)).getLast?).isSome)
            rw [hx]
            rfl

theorem match_results_le (fuel : Nat) (mem : Mem) (base : Nat) (labs : List (List Nat))
    (hne : labs ≠ []) (hv : ∀ c ∈ labs, 1 ≤ c.length) (cs : List Nat) (rs : List (Nat × Int))
    (hrel : List.Forall₂ (fun c r => match_ fuel mem base c (joinDots labs)
      (joinDots labs).length (labs.map List.length) 0 = .ok r) cs rs) :
    ∀ x ∈ rs, x.1 ≤ (joinDots labs).length := by
  induction hrel with
  | nil => intro x hx; cases hx
  | cons h1 _ ih =>
    intro x hx
    rcases List.mem_cons.mp hx with hx | hx
    · rw [hx]
      exact (match_offset fuel mem base _ labs hne hv 0 _ _ h1).1
    · exact ih x hx

/-- The candidate loop, with its early exit, keeps the pair that `pick` keeps. -/
theorem scan_pick (fuel : Nat) (mem : Mem) (base : Nat) (labs : List (List Nat))
    (hne : labs ≠ []) (hv : ∀ c ∈ labs, 1 ≤ c.length) (rest : List Nat) :
    ∀ (cs : List Nat) (rs : List (Nat × Int)) (p : Nat) (off : Int) (bl : Nat) (bo : Int),
    List.Forall₂ (fun c r => match_ fuel mem base c (joinDots labs) (joinDots labs).length
      (labs.map List.length) 0 = .ok r) cs rs →
    (∀ c ∈ cs, c ≠ 0) → bl < (joinDots labs).length →
    ∃ p2, scan fuel mem base (joinDots labs) (joinDots labs).length (labs.map List.length)
      (cs ++ 0 :: rest) p off bl bo = .ok (p2, pick rs (bl, bo)) := by
  intro cs
  induction cs with
  | nil =>
    intro rs p off bl bo hrel _ _
    cases hrel
    exact ⟨p, by simp [scan, pick]⟩
  | cons c cs ih =>
    intro rs p off bl bo hrel hcs hbl
    cases hrel with
    | cons h1 h2 =>
      rename_i r rs
      have hc : c ≠ 0 := hcs c (List.mem_cons_self _ _)
      have hcs2 : ∀ x ∈ cs, x ≠ 0 := fun x hx => hcs x (List.mem_cons_of_mem _ hx)
      obtain ⟨m, o⟩ := r
      obtain ⟨hle, hoff⟩ := match_offset fuel mem base c labs hne hv 0 m o h1
      have hall := match_results_le fuel mem base labs hne hv cs rs h2
      rw [List.cons_append, scan, if_neg hc, hoff off]
      simp only []
      by_cases hgt : m > bl
      · have hp : pick ((m, o) :: rs) (bl, bo) = pick rs (m, o) := by
          rw [pick]; exact if_pos hgt
        have hm0 : (if m = 0 then off else o) = o := if_neg (by omega)
        rw [hp, hm0, if_pos hgt]
        by_cases hfull : m = (joinDots labs).length
        · rw [if_pos hfull]
          refine ⟨p, ?_⟩
          rw [pick_of_max rs (m, o) (fun x hx => by rw [hfull]; exact hall x hx)]
        · rw [if_neg hfull]
          exact ih rs (p + 1) o m o h2 hcs2 (by omega)
      · have hp : pick ((m, o) :: rs) (bl, bo) = pick rs (bl, bo) := by
          rw [pick]; exact if_neg hgt
        rw [hp, if_neg hgt]
        exact ih rs (p + 1) _ bl bo h2 hcs2 hbl

/-- C15: for a valid name and a registry `b, cs..., NULL, ...` whose candidates `cs` give the
results `rs` of `match`, the matching phase of `dn_comp` ends with `bestlen` the maximum of the
returned lengths (0 when there is no candidate) and, when that is not 0, `bestoff` the offset
reported by the first candidate attaining it; the candidates are the entries after entry 0 up
to the null entry, no result exceeds `l`, and every outcome of `dn_comp` other than -1 is
encoded with that pair. -/
theorem C15_candidate_selection (fuel : Nat) (mem : Mem) (src : List Nat) (b : Nat)
    (cs rest : List Nat) (rs : List (Nat × Int))
    (hpos : 0 < nameLen src) (hv : ValidLabels (splitDots (effective src)))
    (hb : b ≠ 0) (hcs : ∀ c ∈ cs, c ≠ 0)
    (hm : List.Forall₂ (fun c r => match_ fuel mem b c (effective src) (nameLen src)
      ((splitDots (effective src)).map List.length) 0 = .ok r) cs rs) :
    candidates (some (b :: (cs ++ 0 :: rest))) = cs ∧
    (∀ r ∈ rs, r.1 ≤ nameLen src) ∧
    (pick rs (0, 0)).1 = (rs.map Prod.fst).foldr max 0 ∧
    (0 < (pick rs (0, 0)).1 →
      ∃ front back, rs = front ++ pick rs (0, 0) :: back ∧
        ∀ x ∈ front, x.1 < (pick rs (0, 0)).1) ∧
    (∃ p, bestMatch fuel mem (effective src) (nameLen src)
      ((splitDots (effective src)).map List.length) (some (b :: (cs ++ 0 :: rest)))
        = .ok (p, pick rs (0, 0))) ∧
    (∀ dst space lastdnptr out,
      dn_comp fuel mem src dst space (some (b :: (cs ++ 0 :: rest))) lastdnptr = .ok out →
      out.ret ≠ -1 →
      ∃ pre suf p m2, splitDots (effective src) = pre ++ suf ∧
        matchedLen pre suf = (pick rs (0, 0)).1 ∧
        readBytes m2 dst (encodeLabels pre).length = encodeLabels pre ∧
        finish (addTail m2 dst (encodeLabels pre).length (pick rs (0, 0)).1 (pick rs (0, 0)).2).1
          (addTail m2 dst (encodeLabels pre).length (pick rs (0, 0)).1 (pick rs (0, 0)).2).2
          dst p (some (b :: (cs ++ 0 :: rest))) lastdnptr = .ok out) := by
  have hne : splitDots (effective src) ≠ [] := splitDots_ne_nil _
  have hv1 : ∀ c ∈ splitDots (effective src), 1 ≤ c.length := fun c hc => (hv c hc).1
  have hj : joinDots (splitDots (effective src)) = effective src := joinDots_splitDots _
  have hl : (joinDots (splitDots (effective src))).length = nameLen src := by
    rw [hj]; exact take_nameLen_length src
  have hm2 : List.Forall₂ (fun c r => match_ fuel mem b c (joinDots (splitDots (effective src)))
      (joinDots (splitDots (effective src))).length
      ((splitDots (effective src)).map List.length) 0 = .ok r) cs rs := by
    rw [hl, hj]; exact hm
  have hbm : ∃ p, bestMatch fuel mem (effective src) (nameLen src)
      ((splitDots (effective src)).map List.length) (some (b :: (cs ++ 0 :: rest)))
        = .ok (p, pick rs (0, 0)) := by
    obtain ⟨p2, hp2⟩ := scan_pick fuel mem b (splitDots (effective src)) hne hv1 rest cs rs
      1 0 0 0 hm2 hcs (by rw [hl]; exact hpos)
    rw [hl, hj] at hp2
    refine ⟨p2, ?_⟩
    unfold bestMatch
    simp only []
    rw [if_neg hb]
    exact hp2
  refine ⟨?_, ?_, ?_, ?_, hbm, ?_⟩
  · unfold candidates
    simp only [Option.getD_some, List.tail_cons]
    clear hm hm2 hbm
    induction cs with
    | nil => simp
    | cons c cs ih =>
      rw [List.cons_append, takeWhile_cons_ne_zero c _ (hcs c (List.mem_cons_self _ _)),
        ih (fun x hx => hcs x (List.mem_cons_of_mem _ hx))]
  · intro r hr
    rw [← hl]
    exact match_results_le fuel mem b _ hne hv1 cs rs hm2 r hr
  · rw [pick_fst]
    simp
  · intro h
    exact (pick_first rs (0, 0)).1 h
  · intro dst space lastdnptr out hout hret
    obtain ⟨p0, hp0⟩ := hbm
    rcases dn_comp_shape fuel mem src dst space _ lastdnptr out hout with h | h | h
    · rw [h] at hret
      exact absurd rfl hret
    · omega
    · obtain ⟨_, _, _, _, pre, suf, p, bo, m2, hbest, hbm2, _, hrd, _, hfin, _⟩ := h
      rw [hp0] at hbm2
      have hpe := Res.ok.inj hbm2
      simp only [Prod.mk.injEq] at hpe
      have h1 : (pick rs (0, 0)).1 = matchedLen pre suf := by rw [hpe.2]
      have h2 : (pick rs (0, 0)).2 = bo := by rw [hpe.2]
      refine ⟨pre, suf, p, m2, hbest.1, h1.symm, hrd, ?_⟩
      rw [h1, h2]
      exact hfin

/-- C15 at the name `a.com` with the candidates `com` (offset 0, result 4) and `a.com`
(offset 5, result 5): the pair kept is length 5 with offset 5. -/
theorem C15_candidate_selection_witness :
    ∃ p, bestMatch 5 (memcpy (fun _ => 0) 100 [3, 99, 111, 109, 0, 1, 97, 3, 99, 111, 109, 0])
      (effective [97, 46, 99, 111, 109]) (nameLen [97, 46, 99, 111, 109])
      ((splitDots (effective [97, 46, 99, 111, 109])).map List.length)
      (some (100 :: ([100, 105] ++ 0 :: []))) = .ok (p, 5, 5) :=
  (C15_candidate_selection 5
    (memcpy (fun _ => 0) 100 [3, 99, 111, 109, 0, 1, 97, 3, 99, 111, 109, 0])
    [97, 46, 99, 111, 109] 100 [100, 105] [] [(4, 0), (5, 5)] (by decide) (by decide)
    (by decide) (by decide)
    (List.Forall₂.cons rfl (List.Forall₂.cons rfl List.Forall₂.nil))).2.2.2.2.1

/-! ## Candidates on which the walk fails -/

theorem scan_shift (fuel : Nat) (mem : Mem) (base : Nat) (src : List Nat) (l : Nat)
    (lens : List Nat) : ∀ (es : List Nat) (p p2 : Nat) (off : Int) (bl : Nat) (bo : Int),
    Res.map Prod.snd (scan fuel mem base src l lens es p off bl bo)
      = Res.map Prod.snd (scan fuel mem base src l lens es p2 off bl bo) := by
  intro es
  induction es with
  | nil => intro p p2 off bl bo; rfl
  | cons e es ih =>
    intro p p2 off bl bo
    rw [scan, scan]
    by_cases he : e = 0
    · rw [if_pos he, if_pos he]; rfl
    · rw [if_neg he, if_neg he]
      cases hm : match_ fuel mem base e src l lens off with
      | fault => rfl
      | timeout => rfl
      | ok r =>
        obtain ⟨m, o⟩ := r
        simp only []
        by_cases c1 : m > bl
        · rw [if_pos c1, if_pos c1]
          by_cases c2 : m = l
          · rw [if_pos c2, if_pos c2]; rfl
          · rw [if_neg c2, if_neg c2]; exact ih _ _ _ _ _
        · rw [if_neg c1, if_neg c1]; exact ih _ _ _ _ _

theorem scan_skip (fuel : Nat) (mem : Mem) (base : Nat) (src : List Nat) (l : Nat)
    (lens : List Nat) (dn : Nat) (back : List Nat) (hdn : dn ≠ 0)
    (hbad : getoffs mem base fuel dn [] = .ok []) :
    ∀ (front : List Nat) (p : Nat) (off : Int) (bl : Nat) (bo : Int),
    Res.map Prod.snd (scan fuel mem base src l lens (front ++ dn :: back) p off bl bo)
      = Res.map Prod.snd (scan fuel mem base src l lens (front ++ back) p off bl bo) := by
  intro front
  induction front with
  | nil =>
    intro p off bl bo
    have hm : match_ fuel mem base dn src l lens off = .ok (0, off) := by
      unfold match_
      rw [hbad]
      rfl
    rw [List.nil_append, List.nil_append, scan, if_neg hdn, hm]
    simp only []
    rw [if_neg (by omega)]
    exact scan_shift _ _ _ _ _ _ _ _ _ _ _ _
  | cons e es ih =>
    intro p off bl bo
    rw [List.cons_append, List.cons_append, scan, scan]
    by_cases he : e = 0
    · rw [if_pos he, if_pos he]
    · rw [if_neg he, if_neg he]
      cases hm : match_ fuel mem base e src l lens off with
      | fault => rfl
      | timeout => rfl
      | ok r =>
        obtain ⟨m, o⟩ := r
        simp only []
        by_cases c1 : m > bl
        · rw [if_pos c1, if_pos c1]
          by_cases c2 : m = l
          · rw [if_pos c2, if_pos c2]
          · rw [if_neg c2, if_neg c2]; exact ih _ _ _ _
        · rw [if_neg c1, if_neg c1]; exact ih _ _ _ _

theorem bestMatch_skip (fuel : Nat) (mem : Mem) (src : List Nat) (l : Nat) (lens : List Nat)
    (b dn : Nat) (front back : List Nat) (hdn : dn ≠ 0)
    (hbad : getoffs mem b fuel dn [] = .ok []) :
    Res.map Prod.snd (bestMatch fuel mem src l lens (some (b :: (front ++ dn :: back))))
      = Res.map Prod.snd (bestMatch fuel mem src l lens (some (b :: (front ++ back)))) := by
  unfold bestMatch
  simp only []
  by_cases hb : b = 0
  · rw [if_pos hb, if_pos hb]
  · rw [if_neg hb, if_neg hb]
    exact scan_skip _ _ _ _ _ _ _ _ hdn hbad _ _ _ _ _

theorem finish_none (i : Nat) (m : Mem) (dst p : Nat) (dnptrs : Option (List Nat)) :
    finish i m dst p dnptrs none = .ok ⟨i, m, dnptrs⟩ := by
  rcases dnptrs with _ | _ | ⟨b, es⟩ <;> rfl

/-- Two registries on which the matching phase keeps the same pair give the same return value
and the same memory. -/
theorem dn_comp_same_best (fuel : Nat) (mem : Mem) (src : List Nat) (dst : Nat) (space : Int)
    (d1 d2 : Option (List Nat))
    (hbest : ∀ lens, Res.map Prod.snd
        (bestMatch fuel mem (src.take (nameLen src)) (nameLen src) lens d1)
      = Res.map Prod.snd (bestMatch fuel mem (src.take (nameLen src)) (nameLen src) lens d2)) :
    retAndMem (dn_comp fuel mem src dst space d1 none)
      = retAndMem (dn_comp fuel mem src dst space d2 none) := by
  unfold dn_comp
  simp only []
  by_cases c1 : nameLen src > 253 ∨ space ≤ 0
  · rw [if_pos c1, if_pos c1]; rfl
  · rw [if_neg c1, if_neg c1]
    by_cases c2 : nameLen src = 0
    · rw [if_pos c2, if_pos c2]; rfl
    · rw [if_neg c2, if_neg c2]
      cases hg : getlens (src.take (nameLen src)) 0 [] with
      | fault => rfl
      | timeout => rfl
      | ok lens =>
        simp only []
        by_cases c3 : lens.length = 0
        · rw [if_pos c3, if_pos c3]; rfl
        · rw [if_neg c3, if_neg c3]
          have hb := hbest lens
          cases hb1 : bestMatch fuel mem (src.take (nameLen src)) (nameLen src) lens d1 with
          | fault =>
            cases hb2 : bestMatch fuel mem (src.take (nameLen src)) (nameLen src) lens d2 with
            | fault => rfl
            | timeout => rw [hb1, hb2] at hb; simp [Res.map] at hb
            | ok r2 => rw [hb1, hb2] at hb; simp [Res.map] at hb
          | timeout =>
            cases hb2 : bestMatch fuel mem (src.take (nameLen src)) (nameLen src) lens d2 with
            | fault => rw [hb1, hb2] at hb; simp [Res.map] at hb
            | timeout => rfl
            | ok r2 => rw [hb1, hb2] at hb; simp [Res.map] at hb
          | ok r1 =>
            cases hb2 : bestMatch fuel mem (src.take (nameLen src)) (nameLen src) lens d2 with
            | fault => rw [hb1, hb2] at hb; simp [Res.map] at hb
            | timeout => rw [hb1, hb2] at hb; simp [Res.map] at hb
            | ok r2 =>
              rw [hb1, hb2] at hb
              obtain ⟨p1, bl1, bo1⟩ := r1
              obtain ⟨p2, bl2, bo2⟩ := r2
              simp only [Res.map, Res.ok.injEq, Prod.mk.injEq] at hb
              obtain ⟨e1, e2⟩ := hb
              subst e1
              subst e2
              simp only []
              by_cases c4 : space.toNat < need (nameLen src) bl1
              · rw [if_pos c4, if_pos c4]; rfl
              · rw [if_neg c4, if_neg c4]
                by_cases c5 : nameLen src < sub64 (nameLen src) bl1
                · rw [if_pos c5, if_pos c5]
                · rw [if_neg c5, if_neg c5]
                  cases hl : lenLoop dst (sub64 (nameLen src) bl1) lens 0
                      (memcpy mem (dst + 1) ((src.take (nameLen src)).take
                        (sub64 (nameLen src) bl1))) with
                  | fault => rfl
                  | timeout => rfl
                  | ok r3 =>
                    simp only []
                    rw [finish_none, finish_none]
                    rfl

/-- A call that returns with a registry limit also returns without one. -/
theorem dn_comp_none_ne (fuel : Nat) (mem : Mem) (src : List Nat) (dst : Nat) (space : Int)
    (dnptrs : Option (List Nat)) (lastdnptr : Option Nat) (out : Out)
    (h : dn_comp fuel mem src dst space dnptrs lastdnptr = .ok out) :
    dn_comp fuel mem src dst space dnptrs none ≠ .fault ∧
    dn_comp fuel mem src dst space dnptrs none ≠ .timeout := by
  unfold dn_comp at h ⊢
  simp only [] at h ⊢
  by_cases c1 : nameLen src > 253 ∨ space ≤ 0
  · rw [if_pos c1]; simp
  · rw [if_neg c1] at h ⊢
    by_cases c2 : nameLen src = 0
    · rw [if_pos c2]; simp
    · rw [if_neg c2] at h ⊢
      cases hg : getlens (src.take (nameLen src)) 0 [] with
      | fault => rw [hg] at h; cases h
      | timeout => rw [hg] at h; cases h
      | ok lens =>
        rw [hg] at h
        simp only [] at h ⊢
        by_cases c3 : lens.length = 0
        · rw [if_pos c3]; simp
        · rw [if_neg c3] at h ⊢
          cases hbm : bestMatch fuel mem (src.take (nameLen src)) (nameLen src) lens dnptrs with
          | fault => rw [hbm] at h; cases h
          | timeout => rw [hbm] at h; cases h
          | ok r =>
            obtain ⟨p, bl, bo⟩ := r
            rw [hbm] at h
            simp only [] at h ⊢
            by_cases c4 : space.toNat < need (nameLen src) bl
            · rw [if_pos c4]; simp
            · rw [if_neg c4] at h ⊢
              by_cases c5 : nameLen src < sub64 (nameLen src) bl
              · rw [if_pos c5] at h; cases h
              · rw [if_neg c5] at h ⊢
                cases hl : lenLoop dst (sub64 (nameLen src) bl) lens 0
                    (memcpy mem (dst + 1) ((src.take (nameLen src)).take
                      (sub64 (nameLen src) bl))) with
                | fault => rw [hl] at h; cases h
                | timeout => rw [hl] at h; cases h
                | ok r2 =>
                  simp only []
                  rw [finish_none]
                  simp

theorem retAndMem_ok (r : Res Out) (out : Out) (h : r = .ok out) :
    retAndMem r = .ok (out.ret, out.mem) := by
  rw [h]; rfl

/-- C12: a candidate `dn` on which `getoffs` returns 0, as the walk does on a byte whose top two
bits are `01` or `10` and on a label start at `0x4000` or more, changes nothing: the call with
`dn` in the registry and the call with `dn` removed give the same return value and the same
memory; in particular the call does not return -1 unless the call without `dn` does. With a
registry limit, any two values the calls return agree in the same way. -/
theorem C12_malformed_candidate_skipped (fuel : Nat) (mem : Mem) (src : List Nat) (dst : Nat)
    (space : Int) (b dn : Nat) (front back : List Nat) (hdn : dn ≠ 0)
    (hbad : getoffs mem b fuel dn [] = .ok []) :
    retAndMem (dn_comp fuel mem src dst space (some (b :: (front ++ dn :: back))) none)
      = retAndMem (dn_comp fuel mem src dst space (some (b :: (front ++ back))) none) ∧
    (∀ lim1 lim2 out1 out2,
      dn_comp fuel mem src dst space (some (b :: (front ++ dn :: back))) lim1 = .ok out1 →
      dn_comp fuel mem src dst space (some (b :: (front ++ back))) lim2 = .ok out2 →
      out1.ret = out2.ret ∧ out1.mem = out2.mem) := by
  have hsame := dn_comp_same_best fuel mem src dst space
    (some (b :: (front ++ dn :: back))) (some (b :: (front ++ back)))
    (fun lens => bestMatch_skip fuel mem _ _ lens b dn front back hdn hbad)
  refine ⟨hsame, ?_⟩
  intro lim1 lim2 out1 out2 h1 h2
  have n1 : ∃ o1, dn_comp fuel mem src dst space (some (b :: (front ++ dn :: back))) none
      = .ok o1 := by
    cases hc : dn_comp fuel mem src dst space (some (b :: (front ++ dn :: back))) none with
    | ok o => exact ⟨o, rfl⟩
    | fault => exact absurd hc (dn_comp_none_ne fuel mem src dst space _ lim1 out1 h1).1
    | timeout => exact absurd hc (dn_comp_none_ne fuel mem src dst space _ lim1 out1 h1).2
  have n2 : ∃ o2, dn_comp fuel mem src dst space (some (b :: (front ++ back))) none
      = .ok o2 := by
    cases hc : dn_comp fuel mem src dst space (some (b :: (front ++ back))) none with
    | ok o => exact ⟨o, rfl⟩
    | fault => exact absurd hc (dn_comp_none_ne fuel mem src dst space _ lim2 out2 h2).1
    | timeout => exact absurd hc (dn_comp_none_ne fuel mem src dst space _ lim2 out2 h2).2
  obtain ⟨o1, ho1⟩ := n1
  obtain ⟨o2, ho2⟩ := n2
  rw [retAndMem_ok _ o1 ho1, retAndMem_ok _ o2 ho2] at hsame
  have hs := Res.ok.inj hsame
  simp only [Prod.mk.injEq] at hs
  obtain ⟨a1, a2⟩ := dn_comp_limit_indep _ _ _ _ _ _ _ _ _ _ h1 ho1
  obtain ⟨b1, b2⟩ := dn_comp_limit_indep _ _ _ _ _ _ _ _ _ _ h2 ho2
  exact ⟨by rw [← a1, ← b1]; exact hs.1, by rw [← a2, ← b2]; exact hs.2⟩

/-- C12 at the name `a.com`, the candidate `com` and a candidate starting with the byte `0x40`:
the call gives the same return value and memory as the call without the second candidate. -/
theorem C12_malformed_candidate_skipped_witness :
    retAndMem (dn_comp 5 corruptMem [97, 46, 99, 111, 109] 200 50
        (some (100 :: ([100] ++ 105 :: [0]))) none)
      = retAndMem (dn_comp 5 corruptMem [97, 46, 99, 111, 109] 200 50
        (some (100 :: ([100] ++ [0]))) none) :=
  (C12_malformed_candidate_skipped 5 corruptMem [97, 46, 99, 111, 109] 200 50 100 105 [100] [0]
    (by decide) rfl).1

end DnComp
